import Mathlib

/-! A 2d-tree index over points of the plane.

Shallow embedding of `include/primitives.h` and `src/2dtree.cpp`.

Conventions of the embedding.

* Coordinates are exact numbers on the integer grid (`Int`); the source uses `double`.
  Rounding, infinities and NaN are outside the model; `Point.finite` says that the
  coordinates lie in the range of the finite doubles, where `range` starts its border.
* `Point::distance` is a square root.  Every use of it in the source is a comparison
  of two distances, or of a distance with an absolute value, so the embedding keeps the
  squared distance `Point.distanceSq` and compares squares: for non-negative numbers
  `sqrt a < sqrt b` is `a < b` and `sqrt a > |c|` is `a > c * c`.
* An owning `std::shared_ptr<Node>` (`m_root`, `left`, `right`) is a value of the
  inductive type `Node`, with `Node.null` for `nullptr`.
* The non-owning `std::weak_ptr<Node> parent` is stored as the point of the node it
  refers to (`none` for an empty weak pointer); `lock` resolves it against the tree
  that owns the nodes.  `put` never stores a point twice, so a point names one node.
* Where a result depends on how a double rounds (two points closer than the tolerance of
  `operator==`, two distances whose square roots are one double), the methods are given a
  second time with the double arithmetic as a parameter (`put_by`, `contains_by`,
  `range_by`, `nearest_k_by`), and `Binary64` is the grid of the finite doubles, on
  which `operator==` is computed exactly.
* `std::size_t` is `Nat`: a subtree size is bounded by the number of allocated nodes.
* Loops that follow parent links or iterators take a fuel argument and return `none`
  when it runs out; recursion over owned children is structural.
-/

/-- The class `Point`: a pair of coordinates. -/
structure Point where
  x : Int
  y : Int
deriving DecidableEq

namespace Point

/-- The square of `Point::distance`: `square(point.x() - x()) + square(point.y() - y())`. -/
def distanceSq (p point : Point) : Int :=
  (point.x - p.x) * (point.x - p.x) + (point.y - p.y) * (point.y - p.y)

/-- The comparison `Point::operator<`: lexicographic order by `(x, y)`. -/
def lt (p point : Point) : Bool :=
  decide (p.x < point.x) || (decide (p.x = point.x) && decide (p.y < point.y))

/-- The comparison `Point::operator==`: both coordinate differences are, in absolute value,
below `std::numeric_limits<double>::min()`.  That tolerance is positive and below one
unit of the integer grid, where the test `|d| < min()` is the test `|d| < 1`. -/
def eq (p point : Point) : Bool :=
  decide (|p.x - point.x| < 1) && decide (|p.y - point.y| < 1)

/-- The comparison `Point::compare_y`: order by `y`, then by `x`, the last one not strict. -/
def compare_y (p point : Point) : Bool :=
  decide (p.y < point.y) || (decide (p.y = point.y) && decide (p.x ≤ point.x))

end Point

/-- The helper `is_sorted_numbers`. -/
def is_sorted_numbers (left middle right : Int) : Bool :=
  decide (left ≤ middle) && decide (middle ≤ right)

/-- The class `Rect`: an axis-aligned box. -/
structure Rect where
  x_min : Int
  x_max : Int
  y_min : Int
  y_max : Int
deriving DecidableEq

namespace Rect

/-- The constructor `Rect(left_bottom, right_top)`. -/
def ofCorners (left_bottom right_top : Point) : Rect :=
  ⟨left_bottom.x, right_top.x, left_bottom.y, right_top.y⟩

/-- The method `Rect::contains`. -/
def contains (r : Rect) (p : Point) : Bool :=
  is_sorted_numbers r.x_min p.x r.x_max && is_sorted_numbers r.y_min p.y r.y_max

/-- The method `Rect::any_corner_in_rect`: some corner of `r` lies in `rect`. -/
def any_corner_in_rect (r rect : Rect) : Bool :=
  rect.contains ⟨r.x_min, r.y_min⟩ || rect.contains ⟨r.x_min, r.y_max⟩ ||
    rect.contains ⟨r.x_max, r.y_min⟩ || rect.contains ⟨r.x_max, r.y_max⟩

/-- The method `Rect::intersects`. -/
def intersects (r rect : Rect) : Bool :=
  r.any_corner_in_rect rect || rect.any_corner_in_rect r ||
    (decide (r.x_min ≤ rect.x_min) && decide (rect.x_max ≤ r.x_max) &&
      decide (rect.y_min ≤ r.y_min) && decide (r.y_max ≤ rect.y_max)) ||
    (decide (r.y_min ≤ rect.y_min) && decide (rect.y_max ≤ r.y_max) &&
      decide (rect.x_min ≤ r.x_min) && decide (r.x_max ≤ rect.x_max))

end Rect

/-- The constant `std::numeric_limits<double>::max()`, which is the integer
`(2^53 - 1) * 2^971`, written out in decimal. -/
def DBL_MAX : Int :=
  179769313486231570814527423731704356798070567525844996598917476803157260780028538760589558632766878171540458953514382464234321326889464182768467546703537516986049910576551282076245490090389328944075868508455133942304583236903222948165808559332123348274797826204144723168738177180919299881250404026184124858368

/-- A point with finite coordinates: both lie between `-DBL_MAX` and `DBL_MAX`. -/
def Point.finite (p : Point) : Prop :=
  (-DBL_MAX ≤ p.x ∧ p.x ≤ DBL_MAX) ∧ (-DBL_MAX ≤ p.y ∧ p.y ≤ DBL_MAX)

instance (p : Point) : Decidable p.finite := by
  unfold Point.finite; infer_instance

/-- The container `std::map<double, Point, std::greater<double>>` of both `nearest(p, k)`:
its entries in iteration order, the keys strictly decreasing.  A key is the squared
distance that stands for the distance. -/
abbrev DistMap := List (Int × Point)

namespace DistMap

/-- The call `std::map::insert`: the entry goes to its place in decreasing key order; when
the key is already present the map is left as it is. -/
def insert : DistMap → Int × Point → DistMap
  | [], e => [e]
  | a :: rest, e =>
    if e.1 > a.1 then e :: a :: rest
    else if a.1 > e.1 then a :: insert rest e
    else a :: rest

/-- The call `distances.erase(distances.begin())`. -/
def erase_begin : DistMap → DistMap
  | [] => []
  | _ :: rest => rest

/-- One round of the loop of `nearest(point, k)` for the element `current`. -/
def step (point : Point) (k : Nat) (distances : DistMap) (current : Point) : DistMap :=
  let closer_than_begin : Bool :=
    match distances with
    | [] => false
    | top :: _ => decide (point.distanceSq current < point.distanceSq top.2)
  let inserted :=
    if distances.length < k ∨ (0 < k ∧ closer_than_begin = true) then
      insert distances (point.distanceSq current, current)
    else distances
  if inserted.length > k then erase_begin inserted else inserted

end DistMap

namespace kdtree

/-- The struct `kdtree::PointSet::Node` behind a `std::shared_ptr`. -/
inductive Node where
  | null : Node
  | mk (point : Point) (x_value : Bool) (size : Nat) (left right : Node)
      (parent : Option Point) : Node
deriving DecidableEq

namespace Node

/-- The identity of the node a pointer refers to: its point, `none` for `nullptr`. -/
def addr : Node → Option Point
  | null => none
  | mk p _ _ _ _ _ => some p

/-- The field `left`. -/
def left : Node → Node
  | null => null
  | mk _ _ _ l _ _ => l

/-- The field `right`. -/
def right : Node → Node
  | null => null
  | mk _ _ _ _ r _ => r

/-- The field `parent`. -/
def parent : Node → Option Point
  | null => none
  | mk _ _ _ _ _ par => par

/-- The points of a tree in recursive in-order: left subtree, node, right subtree. -/
def points : Node → List Point
  | null => []
  | mk p _ _ l r _ => points l ++ p :: points r

/-- The number of nodes of a tree. -/
def count : Node → Nat
  | null => 0
  | mk _ _ _ l r _ => count l + count r + 1

end Node

/-- The method `size(const std::shared_ptr<Node> &)`: the stored size, 0 for `nullptr`. -/
def size : Node → Nat
  | .null => 0
  | .mk _ _ s _ _ _ => s

/-- The method `update_parent`. -/
def update_parent (current : Node) (parent : Node) : Node :=
  match current with
  | .null => .null
  | .mk p xv s l r _ => .mk p xv s l r parent.addr

/-- The method `update_node`. -/
def update_node (current : Node) : Node :=
  match current with
  | .null => .null
  | .mk p xv _ l r par =>
    .mk p xv (size l + size r + 1) (update_parent l current) (update_parent r current) par

/-- The branch test shared by `put` and `contains`: descend to the left child. -/
def goes_left (point : Point) (current_point : Point) (current_x_value : Bool) : Bool :=
  (point.lt current_point && current_x_value) ||
    (point.compare_y current_point && !current_x_value)

/-- The method `put(current, point, x_value)`. -/
def put (current : Node) (point : Point) (x_value : Bool) : Node :=
  match current with
  | .null => .mk point x_value 1 .null .null none
  | .mk cp cx cs l r par =>
    if point.eq cp then current
    else if goes_left point cp cx then
      update_node (.mk cp cx cs (put l point (!x_value)) r par)
    else
      update_node (.mk cp cx cs l (put r point (!x_value)) par)

/-- The method `contains(current, point)`. -/
def contains (current : Node) (point : Point) : Bool :=
  match current with
  | .null => false
  | .mk cp cx _ l r _ =>
    if cp.eq point then true
    else if goes_left point cp cx then contains l point
    else contains r point

/-- The static method `left(current)`: the leftmost node below `current`. -/
def left (current : Node) : Node :=
  match current with
  | .null => .null
  | .mk p xv s l r par =>
    match l with
    | .null => .mk p xv s l r par
    | .mk _ _ _ _ _ _ => left l

/-- The call `weak_ptr::lock` on a parent reference: the node of `root` with that point,
`nullptr` for an empty reference. -/
def lock (root : Node) (ref : Option Point) : Node :=
  match root with
  | .null => .null
  | .mk p xv s l r par =>
    if ref = some p then .mk p xv s l r par
    else
      match lock l ref with
      | .null => lock r ref
      | .mk p1 xv1 s1 l1 r1 par1 => .mk p1 xv1 s1 l1 r1 par1

/-- The loop of `next_node`: climb while `current` is the right child of `next`. -/
def climb (root : Node) : Nat → Node → Option Point → Option Node
  | 0, _, _ => none
  | fuel + 1, current, next =>
    match next with
    | none => some .null
    | some ref =>
      if current.addr = (lock root (some ref)).right.addr then
        climb root fuel (lock root (some ref)) (lock root (some ref)).parent
      else some (lock root (some ref))

/-- The static method `next_node(current)`, for a node of the tree `root`. -/
def next_node (root : Node) (fuel : Nat) (current : Node) : Option Node :=
  match current.right with
  | .mk p xv s l r par => some (left (.mk p xv s l r par))
  | .null => climb root fuel current current.parent

/-- The method `make_intersection`. -/
def make_intersection (border : Rect) (border_point : Point) (x_value : Bool) (left : Bool) :
    Rect :=
  Rect.ofCorners
    ⟨if x_value && !left then max border.x_min border_point.x else border.x_min,
     if !x_value && !left then max border_point.y border.y_min else border.y_min⟩
    ⟨if x_value && left then min border.x_max border_point.x else border.x_max,
     if !x_value && left then min border.y_max border_point.y else border.y_max⟩

/-- The method `nearest(node, nearest_node, p)`; a node pointer is passed as the subtree it
owns, and only the point of `nearest_node` is read.  The choice of `first_result` and
`second_result` is written at the two recursive calls. -/
def nearest (node : Node) (nearest_node : Point) (p : Point) : Point :=
  match node with
  | .null => nearest_node
  | .mk np nx _ l r _ =>
    let p_coordinate := if nx then p.x else p.y
    let nearest1 :=
      if p_coordinate < np.x then nearest l nearest_node p else nearest r nearest_node p
    let nearest2 := if p.distanceSq nearest1 > p.distanceSq np then np else nearest1
    let nearest_node_coordinate := if nx then nearest2.x else nearest2.y
    if p.distanceSq nearest2 >
        (p_coordinate - nearest_node_coordinate) * (p_coordinate - nearest_node_coordinate) then
      (if p_coordinate < np.x then nearest r nearest2 p else nearest l nearest2 p)
    else nearest2

/-- The branch-and-bound search as the specification words it, to be compared with
`nearest`: at a node the child on the side of the query point, by the coordinate on the
axis of the node, is explored first and gives the best candidate; the point of the node
replaces it when strictly closer; the other child is explored only if the best distance
is greater than the distance from the query point to the splitting line of the node. -/
def nearest_reference (node : Node) (nearest_node : Point) (p : Point) : Point :=
  match node with
  | .null => nearest_node
  | .mk np nx _ l r _ =>
    let p_coordinate := if nx then p.x else p.y
    let node_coordinate := if nx then np.x else np.y
    let best1 :=
      if p_coordinate < node_coordinate then nearest_reference l nearest_node p
      else nearest_reference r nearest_node p
    let best2 := if p.distanceSq best1 > p.distanceSq np then np else best1
    if p.distanceSq best2 >
        (p_coordinate - node_coordinate) * (p_coordinate - node_coordinate) then
      (if p_coordinate < node_coordinate then nearest_reference r best2 p
       else nearest_reference l best2 p)
    else best2

/-- The node reached from a node by a path of child links, `true` for `left` and `false`
for `right`; `nullptr` when the path leaves the tree. -/
def node_at : Node → List Bool → Node
  | t, [] => t
  | .null, _ :: _ => .null
  | .mk _ _ _ l r _, b :: rest => if b then node_at l rest else node_at r rest

/-- Every stored size is one more than the stored sizes of the two children. -/
def sizes_ok : Node → Prop
  | .null => True
  | .mk _ _ s l r _ => s = size l + size r + 1 ∧ sizes_ok l ∧ sizes_ok r

/-- The search order of the tree: at every node the points of the left subtree pass the
branch test of `put` against the node, the points of the right subtree fail it, and
none of them is the point of the node. -/
def ordered : Node → Prop
  | .null => True
  | .mk p xv _ l r _ =>
    (∀ q ∈ l.points, goes_left q p xv = true ∧ q ≠ p) ∧
      (∀ q ∈ r.points, goes_left q p xv = false ∧ q ≠ p) ∧ ordered l ∧ ordered r

/-- The parent reference of every child that is present names the node that owns it. -/
def parents_ok : Node → Prop
  | .null => True
  | .mk p _ _ l r _ =>
    (l = .null ∨ l.parent = some p) ∧ (r = .null ∨ r.parent = some p) ∧
      parents_ok l ∧ parents_ok r

/-- The node `t` is a node of the tree `root`, given with the subtree it owns. -/
def within (t : Node) : Node → Prop
  | .null => False
  | .mk p xv s l r par => t = .mk p xv s l r par ∨ within t l ∨ within t r

/-- The field `x_value`; it is never read through `nullptr`. -/
def Node.x_value : Node → Bool
  | .null => false
  | .mk _ xv _ _ _ _ => xv

/-- The axis flags of a tree alternate with the depth, the flag of its root being `flag`. -/
def alternates (flag : Bool) : Node → Prop
  | .null => True
  | .mk _ xv _ l r _ => xv = flag ∧ alternates (!flag) l ∧ alternates (!flag) r

/-- The node `t` is a node of the tree `root` at depth `d`, the root being at depth 0. -/
def at_depth (t : Node) : Nat → Node → Prop
  | _, .null => False
  | 0, .mk p xv s l r par => t = .mk p xv s l r par
  | d + 1, .mk _ _ _ l r _ => at_depth t d l ∨ at_depth t d r

/-- The class `kdtree::PointSet`. -/
structure PointSet where
  m_root : Node
deriving DecidableEq

namespace PointSet

/-- The empty index, as the default constructor builds it. -/
def empty_set : PointSet := ⟨.null⟩

/-- The method `size()`. -/
def size (s : PointSet) : Nat := kdtree.size s.m_root

/-- The method `empty()`. -/
def empty (s : PointSet) : Bool := decide (s.size = 0)

/-- The method `contains(point)`. -/
def contains (s : PointSet) (point : Point) : Bool := kdtree.contains s.m_root point

/-- The method `put(point)`. -/
def put (s : PointSet) (point : Point) : PointSet :=
  ⟨update_node (kdtree.put s.m_root point true)⟩

/-- The index after inserting the points of a sequence in order into the empty index. -/
def build (ps : List Point) : PointSet := ps.foldl put empty_set

/-- The invariants of an index between two public calls: sizes, search order and parent
references are consistent and the root has no parent. -/
def well_formed (s : PointSet) : Prop :=
  sizes_ok s.m_root ∧ ordered s.m_root ∧ parents_ok s.m_root ∧ s.m_root.parent = none

end PointSet

/-- The loop `for (it = first; it != end(); ++it) body(*it)` over the nodes of the tree
`root`, the state of the body threaded through; `fuel` bounds the climb of every
`next_node`, the next argument bounds the number of iterator comparisons. -/
def for_each {σ : Type} (root : Node) (body : σ → Point → σ) (fuel : Nat) :
    Nat → Node → σ → Option σ
  | 0, _, _ => none
  | steps + 1, current, state =>
    match current with
    | .null => some state
    | .mk p _ _ _ _ _ =>
      match next_node root fuel current with
      | none => none
      | some next => for_each root body fuel steps next (body state p)

/-- The nodes of a tree, each given with the subtree it owns, in recursive in-order: left
subtree, node, right subtree. -/
def Node.in_order : Node → List Node
  | .null => []
  | .mk p xv s l r par => Node.in_order l ++ .mk p xv s l r par :: Node.in_order r

/-- The nodes met by an iterator that starts at `current` and is advanced by `next_node`
until it is `nullptr`; `fuel` bounds the climb of every `next_node`, the next argument
bounds the number of iterator comparisons. -/
def walk (root : Node) (fuel : Nat) : Nat → Node → Option (List Node)
  | 0, _ => none
  | steps + 1, current =>
    match current with
    | .null => some []
    | .mk p xv s l r par =>
      match next_node root fuel (.mk p xv s l r par) with
      | none => none
      | some next =>
        match walk root fuel steps next with
        | none => none
        | some rest => some (.mk p xv s l r par :: rest)

/-- The method `range(point_set, current, rect, border)`; the result set is threaded
through the two calls of `check_child`. -/
def range (point_set : PointSet) (current : Node) (rect border : Rect) : PointSet :=
  match current with
  | .null => point_set
  | .mk cp cx _ l r _ =>
    let found := if rect.contains cp then point_set.put cp else point_set
    let left_border := make_intersection border cp cx true
    let after_left :=
      if left_border.x_min ≤ left_border.x_max ∧ rect.intersects left_border = true then
        range found l rect left_border
      else found
    let right_border := make_intersection border cp cx false
    if right_border.x_min ≤ right_border.x_max ∧ rect.intersects right_border = true then
      range after_left r rect right_border
    else after_left

/-- The calls `range(point_set, current, rect, border)` made by one such call, itself first,
in the order they are made; each one is given as the subtree and the border it
receives. -/
def range_calls (current : Node) (rect border : Rect) : List (Node × Rect) :=
  match current with
  | .null => [(.null, border)]
  | .mk cp cx cs l r par =>
    let left_border := make_intersection border cp cx true
    let right_border := make_intersection border cp cx false
    (.mk cp cx cs l r par, border) ::
      ((if left_border.x_min ≤ left_border.x_max ∧ rect.intersects left_border = true then
          range_calls l rect left_border
        else []) ++
        (if right_border.x_min ≤ right_border.x_max ∧ rect.intersects right_border = true then
          range_calls r rect right_border
        else []))

/-- What one call `range(point_set, current, rect, border)` does to the result set before
it descends: the point of `current` is put when `rect` contains it. -/
def range_visit (rect : Rect) (point_set : PointSet) (call : Node × Rect) : PointSet :=
  match call.1 with
  | .null => point_set
  | .mk cp _ _ _ _ _ => if rect.contains cp then point_set.put cp else point_set

namespace PointSet

/-- The fuel given to the loops over the nodes of an index: one more than the number of
its nodes. -/
def fuel (s : PointSet) : Nat := s.m_root.count + 1

/-- The loop from `begin()` to `end()` over an index, running `body` on every point. -/
def fold {σ : Type} (s : PointSet) (body : σ → Point → σ) (init : σ) : Option σ :=
  for_each s.m_root body s.fuel s.fuel (left s.m_root) init

/-- The points met from `begin()` to `end()`, in the order of the iterator; this is also how
the pair of iterators returned by `range` and `nearest(point, k)` is read. -/
def enumerate (s : PointSet) : Option (List Point) :=
  s.fold (fun seen p => seen ++ [p]) []

/-- The node of the iterator `begin()`: the leftmost node from the root. -/
def begin (s : PointSet) : Node := left s.m_root

/-- The node of the iterator `end()`: `nullptr`. -/
def past_the_end : Node := .null

/-- The plane as the first border of `range(rect)`. -/
def whole_plane : Rect := Rect.ofCorners ⟨-DBL_MAX, -DBL_MAX⟩ ⟨DBL_MAX, DBL_MAX⟩

/-- The method `range(rect)`: the freshly built index that the returned iterators walk. -/
def range (s : PointSet) (rect : Rect) : PointSet :=
  kdtree.range empty_set s.m_root rect whole_plane

/-- The calls of the recursive `range` made by `range(rect)`, with their borders. -/
def range_calls (s : PointSet) (rect : Rect) : List (Node × Rect) :=
  kdtree.range_calls s.m_root rect whole_plane

/-- The method `nearest(point)`. -/
def nearest (s : PointSet) (point : Point) : Option Point :=
  if s.empty then none
  else
    match s.m_root with
    | .null => none
    | .mk root_point _ _ _ _ _ => some (kdtree.nearest s.m_root root_point point)

/-- The method `nearest(point, k)`: the freshly built index that the returned iterators
walk. -/
def nearest_k (s : PointSet) (point : Point) (k : Nat) : Option PointSet :=
  match s.fold (DistMap.step point k) [] with
  | none => none
  | some distances => some (distances.foldl (fun result elem => result.put elem.2) empty_set)

end PointSet

end kdtree

namespace rbtree

/-- The call `std::set<Point>::insert` on the ascending sequence of the elements: the point
goes to its place by `operator<`; an equivalent element keeps the set as it is. -/
def set_insert : List Point → Point → List Point
  | [], p => [p]
  | a :: rest, p =>
    if p.lt a then p :: a :: rest
    else if a.lt p then a :: set_insert rest p
    else a :: rest

/-- The class `rbtree::PointSet`: a `std::set<Point>`, its elements in ascending order. -/
structure PointSet where
  m_set : List Point
deriving DecidableEq

namespace PointSet

/-- The empty set, as the default constructor builds it. -/
def empty_set : PointSet := ⟨[]⟩

/-- The method `size()`. -/
def size (s : PointSet) : Nat := s.m_set.length

/-- The method `put(point)`. -/
def put (s : PointSet) (point : Point) : PointSet := ⟨set_insert s.m_set point⟩

/-- The method `contains(point)`: `find` meets an element that is neither below nor above
`point` by `operator<`. -/
def contains (s : PointSet) (point : Point) : Bool :=
  s.m_set.any (fun elem => !elem.lt point && !point.lt elem)

/-- The set after inserting the points of a sequence in order into the empty set. -/
def build (ps : List Point) : PointSet := ps.foldl put empty_set

/-- The method `nearest(point, k)`: the elements of the returned `std::set`, ascending. -/
def nearest_k (s : PointSet) (point : Point) (k : Nat) : List Point :=
  (s.m_set.foldl (DistMap.step point k) []).foldl (fun result elem => set_insert result elem.2) []

end PointSet

end rbtree

/-! ## The double arithmetic as a parameter

`Point::operator==` and `Point::distance` are the two methods that compute in double
arithmetic: a subtraction and an absolute value compared with
`std::numeric_limits<double>::min()`, and a square root of a sum of squares.  Above, the
first is the equality of the integer grid and the second is read through the exact squared
distance.  The definitions below are the methods that depend on them, with the result of
`operator==` taken as a parameter `eq`, the result of `point.distance(...)` as a parameter
`key` (a double, given by a number that orders as the doubles do) and the constant
`std::numeric_limits<double>::max()` as a parameter `max`; everything else they do is
comparison of coordinates.  A theorem about them for every `eq`, `key` and `max` holds for
what the double arithmetic computes on any grid that holds the coordinates. -/

namespace DistMap

/-- One round of the loop of `nearest(point, k)` for the element `current`, as `step`, the
distances `point.distance(...)` being given by `key`. -/
def step_by (key : Point → Int) (k : Nat) (distances : DistMap) (current : Point) : DistMap :=
  let closer_than_begin : Bool :=
    match distances with
    | [] => false
    | top :: _ => decide (key current < key top.2)
  let inserted :=
    if distances.length < k ∨ (0 < k ∧ closer_than_begin = true) then
      insert distances (key current, current)
    else distances
  if inserted.length > k then erase_begin inserted else inserted

/-- The state of the loop of `nearest(point, k)` after the elements `seen`, when their keys
are pairwise distinct: the keys decrease strictly, every entry is an element met with
its key, the map holds `min k (number met)` entries, it holds every element met while it
has fewer than `k` entries, and each of its entries has a smaller key than every element
met that it does not hold. -/
def selects_by (key : Point → Int) (k : Nat) (seen : List Point) (m : DistMap) : Prop :=
  m.Pairwise (fun a b => a.1 > b.1) ∧
    (∀ e ∈ m, e.1 = key e.2 ∧ e.2 ∈ seen) ∧
    m.length = min k seen.length ∧
    (m.length < k → ∀ b ∈ seen, b ∈ m.map Prod.snd) ∧
    (∀ e ∈ m, ∀ b ∈ seen, b ∉ m.map Prod.snd → key e.2 < key b)

end DistMap

namespace kdtree

/-- The method `put(current, point, x_value)`, as `put`, with `operator==` given by `eq`. -/
def put_by (eq : Point → Point → Bool) (current : Node) (point : Point) (x_value : Bool) :
    Node :=
  match current with
  | .null => .mk point x_value 1 .null .null none
  | .mk cp cx cs l r par =>
    if eq point cp then current
    else if goes_left point cp cx then
      update_node (.mk cp cx cs (put_by eq l point (!x_value)) r par)
    else
      update_node (.mk cp cx cs l (put_by eq r point (!x_value)) par)

/-- The method `contains(current, point)`, as `contains`, with `operator==` given by `eq`. -/
def contains_by (eq : Point → Point → Bool) (current : Node) (point : Point) : Bool :=
  match current with
  | .null => false
  | .mk cp cx _ l r _ =>
    if eq cp point then true
    else if goes_left point cp cx then contains_by eq l point
    else contains_by eq r point

namespace PointSet

/-- The method `contains(point)`, with `operator==` given by `eq`. -/
def contains_by (eq : Point → Point → Bool) (s : PointSet) (point : Point) : Bool :=
  kdtree.contains_by eq s.m_root point

/-- The method `put(point)`, with `operator==` given by `eq`. -/
def put_by (eq : Point → Point → Bool) (s : PointSet) (point : Point) : PointSet :=
  ⟨update_node (kdtree.put_by eq s.m_root point true)⟩

/-- The index after inserting the points of a sequence in order into the empty index, with
`operator==` given by `eq`. -/
def build_by (eq : Point → Point → Bool) (ps : List Point) : PointSet :=
  ps.foldl (put_by eq) empty_set

end PointSet

/-- The method `range(point_set, current, rect, border)`, as `range`, with `operator==`
given by `eq`. -/
def range_by (eq : Point → Point → Bool) (point_set : PointSet) (current : Node)
    (rect border : Rect) : PointSet :=
  match current with
  | .null => point_set
  | .mk cp cx _ l r _ =>
    let found := if rect.contains cp then point_set.put_by eq cp else point_set
    let left_border := make_intersection border cp cx true
    let after_left :=
      if left_border.x_min ≤ left_border.x_max ∧ rect.intersects left_border = true then
        range_by eq found l rect left_border
      else found
    let right_border := make_intersection border cp cx false
    if right_border.x_min ≤ right_border.x_max ∧ rect.intersects right_border = true then
      range_by eq after_left r rect right_border
    else after_left

namespace PointSet

/-- The first border of `range(rect)`, the constant `std::numeric_limits<double>::max()`
being `max`. -/
def plane (max : Int) : Rect := Rect.ofCorners ⟨-max, -max⟩ ⟨max, max⟩

/-- The method `range(rect)`, with `operator==` given by `eq` and
`std::numeric_limits<double>::max()` by `max`. -/
def range_by (eq : Point → Point → Bool) (max : Int) (s : PointSet) (rect : Rect) : PointSet :=
  kdtree.range_by eq empty_set s.m_root rect (plane max)

/-- The method `nearest(point, k)`, with `operator==` given by `eq` and the distances
`point.distance(...)` by `key`. -/
def nearest_k_by (eq : Point → Point → Bool) (key : Point → Int) (s : PointSet) (k : Nat) :
    Option PointSet :=
  match s.fold (DistMap.step_by key k) [] with
  | none => none
  | some distances =>
    some (distances.foldl (fun result elem => result.put_by eq elem.2) empty_set)

end PointSet

end kdtree

namespace rbtree

namespace PointSet

/-- The method `nearest(point, k)` of the ordered set, with the distances
`point.distance(...)` given by `key`. -/
def nearest_k_by (key : Point → Int) (s : PointSet) (k : Nat) : List Point :=
  (s.m_set.foldl (DistMap.step_by key k) []).foldl
    (fun result elem => set_insert result elem.2) []

end PointSet

end rbtree

/-! ## The grid of the finite doubles

Every finite double is an integer multiple of `2^-1074`, the smallest positive double.  On
the grid with that unit a coordinate is that integer; the order of the doubles is the order
of the integers. -/

namespace Binary64

/-- The double `1.0`: `2^1074` units. -/
def one : Int :=
  202402253307310618352495346718917307049556649764142118356901358027430339567995346891960383701437124495187077864316811911389808737385793476867013399940738509921517424276566361364466907742093216341239767678472745068562007483424692698618103355649159556340810056512358769552333414615230502532186327508646006263307707741093494784

/-- The constant `std::numeric_limits<double>::min()`, `2^-1022`: `2^52` units. -/
def DBL_MIN : Int := 4503599627370496

/-- The constant `std::numeric_limits<double>::max()`, `(2^53 - 1) * 2^971`:
`(2^53 - 1) * 2^2045` units. -/
def DBL_MAX : Int :=
  36385714125121573300846800698456749842842774431060269030973563199251835202763131874220510446199752578146168959525535975504123660741259730559491535919078220069839241298744801305292878640835527930863994674357611588999020693594474762898847930291552594690170203187215045688094955660773922576137969830342611860225019935582199601121469249223149872466121371567155862303084330314602566069416432551333006194774477514260351201969859368060220131234488198148976536169638305696900504838830719760875514246216508976803882728582677352177004129288847854463084006372981390756344519549931097743963603971632334891836831978686870043355177324550146752512

/-- The comparison `Point::operator==` on the grid of the finite doubles.  The double
`x() - point.x()` is the exact difference when that is below `min()` in absolute value,
being then a multiple of the unit below the smallest normal double, and it is not below
`min()` otherwise, rounding being monotone; so the test is the test on the exact
difference. -/
def eq (p point : Point) : Bool :=
  decide (|p.x - point.x| < DBL_MIN) && decide (|p.y - point.y| < DBL_MIN)

end Binary64

/-! ## Points and rectangles -/

theorem Point.eq_iff (p q : Point) : p.eq q = true ↔ p = q := by
  cases p with
  | mk px py =>
    cases q with
    | mk qx qy =>
      simp only [Point.eq, Bool.and_eq_true, decide_eq_true_eq, Point.mk.injEq, abs_lt]
      constructor
      · rintro ⟨⟨h1, h2⟩, h3, h4⟩
        constructor <;> omega
      · rintro ⟨rfl, rfl⟩
        simp

theorem Point.eq_self (p : Point) : p.eq p = true := (Point.eq_iff p p).2 rfl

theorem Point.eq_false_iff (p q : Point) : p.eq q = false ↔ p ≠ q := by
  rw [← Bool.not_eq_true, Point.eq_iff]

theorem Point.eq_comm (p q : Point) : p.eq q = q.eq p := by
  rw [Bool.eq_iff_iff, Point.eq_iff, Point.eq_iff]
  exact ⟨fun h => h.symm, fun h => h.symm⟩

namespace kdtree

/-! ## Structure of the tree after `update_parent`, `update_node` and `put` -/

@[simp] theorem size_null : size .null = 0 := rfl

@[simp] theorem size_mk (p : Point) (xv : Bool) (s : Nat) (l r : Node) (par : Option Point) :
    size (.mk p xv s l r par) = s := rfl

theorem update_node_mk (p : Point) (xv : Bool) (s : Nat) (l r : Node) (par : Option Point) :
    update_node (.mk p xv s l r par) =
      .mk p xv (size l + size r + 1) (update_parent l (.mk p xv s l r par))
        (update_parent r (.mk p xv s l r par)) par := rfl

@[simp] theorem contains_update_parent (c par : Node) (q : Point) :
    contains (update_parent c par) q = contains c q := by
  cases c <;> rfl

@[simp] theorem contains_update_node (c : Node) (q : Point) :
    contains (update_node c) q = contains c q := by
  cases c with
  | null => rfl
  | mk p xv s l r par => simp [update_node_mk, contains]

@[simp] theorem points_update_parent (c par : Node) : (update_parent c par).points = c.points := by
  cases c <;> rfl

@[simp] theorem size_update_parent (c par : Node) : size (update_parent c par) = size c := by
  cases c <;> rfl

@[simp] theorem count_update_parent (c par : Node) : (update_parent c par).count = c.count := by
  cases c <;> rfl

@[simp] theorem points_update_node (c : Node) : (update_node c).points = c.points := by
  cases c <;> simp [update_node, Node.points]

@[simp] theorem count_update_node (c : Node) : (update_node c).count = c.count := by
  cases c <;> simp [update_node, Node.count]

@[simp] theorem parent_update_node (c : Node) : (update_node c).parent = c.parent := by
  cases c <;> rfl

@[simp] theorem sizes_ok_update_parent (c par : Node) :
    sizes_ok (update_parent c par) ↔ sizes_ok c := by
  cases c <;> simp [update_parent, sizes_ok]

theorem sizes_ok_update_node (p : Point) (xv : Bool) (s : Nat) (l r : Node) (par : Option Point)
    (hl : sizes_ok l) (hr : sizes_ok r) : sizes_ok (update_node (.mk p xv s l r par)) := by
  simp [update_node, sizes_ok, hl, hr]

theorem update_node_of_sizes_ok (c : Node) (h : sizes_ok c) : size (update_node c) = size c := by
  cases c with
  | null => rfl
  | mk p xv s l r par => simp [update_node_mk, h.1]

theorem sizes_ok_put (t : Node) (p : Point) (xv : Bool) (h : sizes_ok t) :
    sizes_ok (put t p xv) := by
  induction t generalizing xv with
  | null => simp [put, sizes_ok, size]
  | mk cp cx cs l r par ihl ihr =>
    obtain ⟨_, hl, hr⟩ := h
    simp only [put]
    split_ifs
    · exact ⟨by assumption, hl, hr⟩
    · exact sizes_ok_update_node _ _ _ _ _ _ (ihl _ hl) hr
    · exact sizes_ok_update_node _ _ _ _ _ _ hl (ihr _ hr)

theorem size_eq_count (t : Node) (h : sizes_ok t) : size t = t.count := by
  induction t with
  | null => rfl
  | mk p xv s l r par ihl ihr =>
    obtain ⟨hs, hl, hr⟩ := h
    simp [Node.count, hs, ihl hl, ihr hr]

theorem size_put (t : Node) (p : Point) (xv : Bool) (h : sizes_ok t) :
    size (put t p xv) = if contains t p = true then size t else size t + 1 := by
  induction t generalizing xv with
  | null => simp [put, contains]
  | mk cp cx cs l r par ihl ihr =>
    obtain ⟨hs, hl, hr⟩ := h
    simp only [put, contains, Point.eq_comm cp p]
    by_cases h1 : p.eq cp = true
    · simp [h1]
    · by_cases h2 : goes_left p cp cx = true
      · simp only [h1, h2, Bool.false_eq_true, if_true, if_false, update_node_mk, size_mk,
          size_update_parent, ihl _ hl, hs]
        split_ifs <;> omega
      · simp only [h1, h2, Bool.false_eq_true, if_false, update_node_mk, size_mk,
          size_update_parent, ihr _ hr, hs]
        split_ifs <;> omega

theorem mem_points_put (t : Node) (p q : Point) (xv : Bool) :
    q ∈ (put t p xv).points ↔ q = p ∨ q ∈ t.points := by
  induction t generalizing xv with
  | null => simp [put, Node.points]
  | mk cp cx cs l r par ihl ihr =>
    simp only [put]
    split_ifs with h1 h2
    · rw [Point.eq_iff] at h1
      subst h1
      simp only [Node.points, List.mem_append, List.mem_cons]
      tauto
    · rw [points_update_node]
      simp only [Node.points, List.mem_append, List.mem_cons, ihl]
      tauto
    · rw [points_update_node]
      simp only [Node.points, List.mem_append, List.mem_cons, ihr]
      tauto

theorem contains_put_self (t : Node) (p : Point) (xv : Bool) : contains (put t p xv) p = true := by
  induction t generalizing xv with
  | null => simp [put, contains, Point.eq_self]
  | mk cp cx cs l r par ihl ihr =>
    simp only [put]
    split_ifs with h1 h2
    · simp [contains, Point.eq_comm cp p, h1]
    · simp [contains, Point.eq_comm cp p, h1, h2, ihl]
    · simp [contains, Point.eq_comm cp p, h1, h2, ihr]

end kdtree

namespace kdtree

/-! ## The invariants are kept by `put` -/

@[simp] theorem ordered_update_parent (c par : Node) :
    ordered (update_parent c par) ↔ ordered c := by
  cases c <;> simp [update_parent, ordered]

@[simp] theorem ordered_update_node (c : Node) : ordered (update_node c) ↔ ordered c := by
  cases c with
  | null => simp [update_node]
  | mk p xv s l r par => simp [update_node_mk, ordered]

@[simp] theorem sizes_ok_update_node_iff (c : Node) (h : sizes_ok c) :
    sizes_ok (update_node c) := by
  cases c with
  | null => simp [update_node, sizes_ok]
  | mk p xv s l r par => exact sizes_ok_update_node _ _ _ _ _ _ h.2.1 h.2.2

theorem ordered_put (t : Node) (p : Point) (xv : Bool) (h : ordered t) :
    ordered (put t p xv) := by
  induction t generalizing xv with
  | null => simp [put, ordered, Node.points]
  | mk cp cx cs l r par ihl ihr =>
    obtain ⟨hL, hR, hl, hr⟩ := h
    simp only [put]
    by_cases h1 : p.eq cp = true
    · simp only [h1, if_true]
      exact ⟨hL, hR, hl, hr⟩
    · have hne : p ≠ cp := fun e => h1 ((Point.eq_iff p cp).2 e)
      by_cases h2 : goes_left p cp cx = true
      · simp only [h1, h2, Bool.false_eq_true, if_true, if_false, ordered_update_node, ordered]
        refine ⟨?_, hR, ihl _ hl, hr⟩
        intro q hq
        rcases (mem_points_put l p q _).1 hq with rfl | hq
        · exact ⟨h2, hne⟩
        · exact hL q hq
      · simp only [h1, h2, Bool.false_eq_true, if_false, ordered_update_node, ordered]
        refine ⟨hL, ?_, hl, ihr _ hr⟩
        intro q hq
        rcases (mem_points_put r p q _).1 hq with rfl | hq
        · exact ⟨by simpa using h2, hne⟩
        · exact hR q hq

@[simp] theorem parent_update_parent_ne (c par : Node) (h : c ≠ .null) :
    (update_parent c par).parent = par.addr := by
  cases c with
  | null => exact absurd rfl h
  | mk p xv s l r cpar => rfl

@[simp] theorem update_parent_eq_null (c par : Node) : update_parent c par = .null ↔ c = .null := by
  cases c <;> simp [update_parent]

@[simp] theorem parents_ok_update_parent (c par : Node) :
    parents_ok (update_parent c par) ↔ parents_ok c := by
  cases c <;> simp [update_parent, parents_ok]

theorem parents_ok_update_node (p : Point) (xv : Bool) (s : Nat) (l r : Node) (par : Option Point)
    (hl : parents_ok l) (hr : parents_ok r) : parents_ok (update_node (.mk p xv s l r par)) := by
  rw [update_node_mk]
  refine ⟨?_, ?_, by simpa using hl, by simpa using hr⟩
  · by_cases h : l = .null
    · left; simp [h, update_parent]
    · right; rw [parent_update_parent_ne _ _ h]; rfl
  · by_cases h : r = .null
    · left; simp [h, update_parent]
    · right; rw [parent_update_parent_ne _ _ h]; rfl

theorem parents_ok_update_node_of (c : Node) (h : parents_ok c) : parents_ok (update_node c) := by
  cases c with
  | null => simp [update_node, parents_ok]
  | mk p xv s l r par => exact parents_ok_update_node _ _ _ _ _ _ h.2.2.1 h.2.2.2

theorem parents_ok_put (t : Node) (p : Point) (xv : Bool) (h : parents_ok t) :
    parents_ok (put t p xv) := by
  induction t generalizing xv with
  | null => simp [put, parents_ok, Node.parent]
  | mk cp cx cs l r par ihl ihr =>
    obtain ⟨h1, h2, hl, hr⟩ := h
    simp only [put]
    split_ifs
    · exact ⟨h1, h2, hl, hr⟩
    · exact parents_ok_update_node _ _ _ _ _ _ (ihl _ hl) hr
    · exact parents_ok_update_node _ _ _ _ _ _ hl (ihr _ hr)

theorem parent_put (t : Node) (p : Point) (xv : Bool) (h : t.parent = none) :
    (put t p xv).parent = none := by
  cases t with
  | null => rfl
  | mk cp cx cs l r par =>
    simp only [put]
    split_ifs <;> simpa [update_node_mk, Node.parent] using h

theorem PointSet.well_formed_empty : PointSet.empty_set.well_formed := by
  simp [PointSet.well_formed, PointSet.empty_set, sizes_ok, ordered, parents_ok, Node.parent]

theorem PointSet.well_formed_put (s : PointSet) (p : Point) (h : s.well_formed) :
    (s.put p).well_formed := by
  obtain ⟨h1, h2, h3, h4⟩ := h
  refine ⟨?_, ?_, ?_, ?_⟩
  · exact sizes_ok_update_node_iff _ (sizes_ok_put _ _ _ h1)
  · simpa [PointSet.put] using ordered_put _ _ _ h2
  · exact parents_ok_update_node_of _ (parents_ok_put _ _ _ h3)
  · simpa [PointSet.put] using parent_put _ _ _ h4

theorem PointSet.build_append (ps : List Point) (p : Point) :
    PointSet.build (ps ++ [p]) = (PointSet.build ps).put p := by
  simp [PointSet.build, List.foldl_append]

theorem PointSet.well_formed_build (ps : List Point) : (PointSet.build ps).well_formed := by
  induction ps using List.reverseRecOn with
  | nil => exact PointSet.well_formed_empty
  | append_singleton ps p ih =>
    rw [PointSet.build_append]
    exact PointSet.well_formed_put _ _ ih

theorem PointSet.mem_points_after_put (s : PointSet) (p q : Point) :
    q ∈ (s.put p).m_root.points ↔ q = p ∨ q ∈ s.m_root.points := by
  simp [PointSet.put, kdtree.mem_points_put]

theorem PointSet.mem_points_build (ps : List Point) (q : Point) :
    q ∈ (PointSet.build ps).m_root.points ↔ q ∈ ps := by
  induction ps using List.reverseRecOn with
  | nil => simp [PointSet.build, PointSet.empty_set, Node.points]
  | append_singleton ps p ih =>
    rw [PointSet.build_append, PointSet.mem_points_after_put, ih]
    simp [or_comm]

/-! ## Membership -/

theorem contains_iff_mem (t : Node) (q : Point) (h : ordered t) :
    contains t q = true ↔ q ∈ t.points := by
  induction t with
  | null => simp [contains, Node.points]
  | mk cp cx cs l r par ihl ihr =>
    obtain ⟨hL, hR, hl, hr⟩ := h
    simp only [contains, Node.points, List.mem_append, List.mem_cons]
    by_cases h1 : cp.eq q = true
    · have : q = cp := ((Point.eq_iff cp q).1 h1).symm
      simp only [h1, if_true, true_iff]
      exact Or.inr (Or.inl this)
    · have hne : q ≠ cp := fun e => h1 ((Point.eq_iff cp q).2 e.symm)
      by_cases h2 : goes_left q cp cx = true
      · simp only [h1, h2, Bool.false_eq_true, if_true, if_false, ihl hl]
        constructor
        · exact fun h => Or.inl h
        · rintro (h | h | h)
          · exact h
          · exact absurd h hne
          · have := (hR q h).1
            simp [h2] at this
      · simp only [h1, h2, Bool.false_eq_true, if_false, ihr hr]
        constructor
        · exact fun h => Or.inr (Or.inr h)
        · rintro (h | h | h)
          · exact absurd (hL q h).1 h2
          · exact absurd h hne
          · exact h

theorem PointSet.contains_iff_mem_points (s : PointSet) (q : Point) (h : s.well_formed) :
    s.contains q = true ↔ q ∈ s.m_root.points :=
  kdtree.contains_iff_mem _ _ h.2.1

theorem PointSet.contains_build (ps : List Point) (q : Point) :
    (PointSet.build ps).contains q = true ↔ q ∈ ps := by
  rw [PointSet.contains_iff_mem_points _ _ (PointSet.well_formed_build ps), PointSet.mem_points_build]

end kdtree

namespace kdtree

/-! ## Insertion: size and membership (C1, C2) -/

/-- C1: for every index reached from the empty index by `put` calls (the index built from any
finite sequence `ps`) and every point `p`, `put` returns an index (it is a total function
with no failing branch) whose `size()` is `size() + 1` of the index before when
`contains(p)` was false and the same `size()` when `contains(p)` was true. -/
theorem PointSet.put_size_by_contains (ps : List Point) (p : Point) :
    ((PointSet.build ps).put p).size =
      if (PointSet.build ps).contains p = true then (PointSet.build ps).size
      else (PointSet.build ps).size + 1 := by
  have hwf := PointSet.well_formed_build ps
  unfold PointSet.size PointSet.put PointSet.contains
  rw [update_node_of_sizes_ok _ (sizes_ok_put _ _ _ hwf.1)]
  exact size_put _ _ _ hwf.1

/-- C2: for every index reached from the empty index by `put` calls and every point `p`,
`contains(p)` is true on the index after `put(p)`. -/
theorem PointSet.contains_after_put (ps : List Point) (p : Point) :
    ((PointSet.build ps).put p).contains p = true := by
  unfold PointSet.put PointSet.contains
  rw [contains_update_node]
  exact contains_put_self _ _ _

end kdtree

namespace kdtree

/-! ## The iterator: `left`, `next_node` and the loop over an index -/

theorem nodup_points_of_ordered (t : Node) (h : ordered t) : t.points.Nodup := by
  induction t with
  | null => simp [Node.points]
  | mk p xv s l r par ihl ihr =>
    obtain ⟨hL, hR, hl, hr⟩ := h
    simp only [Node.points]
    rw [List.nodup_append]
    refine ⟨ihl hl, ?_, ?_⟩
    · rw [List.nodup_cons]
      exact ⟨fun hp => (hR p hp).2 rfl, ihr hr⟩
    · intro a ha hb
      rcases List.mem_cons.1 hb with rfl | hb
      · exact (hL a ha).2 rfl
      · have h1 := (hL a ha).1
        have h2 := (hR a hb).1
        rw [h1] at h2
        exact Bool.noConfusion h2

theorem mem_points_of_within (p : Point) (xv : Bool) (s : Nat) (l r : Node) (par : Option Point)
    (root : Node) (h : within (.mk p xv s l r par) root) : p ∈ root.points := by
  induction root with
  | null => exact h.elim
  | mk rp rxv rs rl rr rpar ihl ihr =>
    simp only [Node.points, List.mem_append, List.mem_cons]
    rcases h with h | h | h
    · injection h with h1
      exact Or.inr (Or.inl h1)
    · exact Or.inl (ihl h)
    · exact Or.inr (Or.inr (ihr h))

theorem lock_eq_null (root : Node) (p : Point) (h : p ∉ root.points) :
    lock root (some p) = .null := by
  induction root with
  | null => rfl
  | mk rp rxv rs rl rr rpar ihl ihr =>
    simp only [Node.points, List.mem_append, List.mem_cons, not_or] at h
    obtain ⟨h1, h2, h3⟩ := h
    have hne : ¬ (some p = some rp) := fun e => h2 (Option.some.inj e)
    simp only [lock, hne, if_false, ihl h1, ihr h3]

theorem lock_of_within (root : Node) (p : Point) (xv : Bool) (s : Nat) (l r : Node)
    (par : Option Point) (hnd : root.points.Nodup) (h : within (.mk p xv s l r par) root) :
    lock root (some p) = .mk p xv s l r par := by
  induction root with
  | null => exact h.elim
  | mk rp rxv rs rl rr rpar ihl ihr =>
    simp only [Node.points] at hnd
    rw [List.nodup_append] at hnd
    obtain ⟨hndl, hndr, hdisj⟩ := hnd
    rw [List.nodup_cons] at hndr
    rcases h with h | h | h
    · rw [← h]
      simp [lock]
    · have hp := mem_points_of_within _ _ _ _ _ _ _ h
      have hne : ¬ (some p = some rp) := by
        intro e
        exact hdisj hp (by rw [Option.some.inj e]; exact List.mem_cons_self _ _)
      simp only [lock, hne, if_false, ihl hndl h]
    · have hp := mem_points_of_within _ _ _ _ _ _ _ h
      have hne : ¬ (some p = some rp) := by
        intro e
        exact hndr.1 (by rw [← Option.some.inj e]; exact hp)
      have hnl : p ∉ rl.points := fun hl => hdisj hl (List.mem_cons_of_mem _ hp)
      simp only [lock, hne, if_false, lock_eq_null _ _ hnl, ihr hndr.2 h]

theorem within_trans_left (p : Point) (xv : Bool) (s : Nat) (l r : Node) (par : Option Point)
    (t root : Node) (h : within (.mk p xv s l r par) root) (ht : within t l) : within t root := by
  induction root with
  | null => exact h.elim
  | mk rp rxv rs rl rr rpar ihl ihr =>
    rcases h with h | h | h
    · injection h with _ _ _ h4 _ _
      exact Or.inr (Or.inl (h4 ▸ ht))
    · exact Or.inr (Or.inl (ihl h))
    · exact Or.inr (Or.inr (ihr h))

theorem within_trans_right (p : Point) (xv : Bool) (s : Nat) (l r : Node) (par : Option Point)
    (t root : Node) (h : within (.mk p xv s l r par) root) (ht : within t r) : within t root := by
  induction root with
  | null => exact h.elim
  | mk rp rxv rs rl rr rpar ihl ihr =>
    rcases h with h | h | h
    · injection h with _ _ _ _ h5 _
      exact Or.inr (Or.inr (h5 ▸ ht))
    · exact Or.inr (Or.inl (ihl h))
    · exact Or.inr (Or.inr (ihr h))

theorem within_self (p : Point) (xv : Bool) (s : Nat) (l r : Node) (par : Option Point) :
    within (.mk p xv s l r par) (.mk p xv s l r par) := Or.inl rfl

theorem parents_ok_of_within (t root : Node) (h : within t root) (hp : parents_ok root) :
    parents_ok t := by
  induction root with
  | null => exact h.elim
  | mk rp rxv rs rl rr rpar ihl ihr =>
    rcases h with h | h | h
    · rw [h]; exact hp
    · exact ihl h hp.2.2.1
    · exact ihr h hp.2.2.2

theorem nodup_of_within (t root : Node) (h : within t root) (hp : root.points.Nodup) :
    t.points.Nodup := by
  induction root with
  | null => exact h.elim
  | mk rp rxv rs rl rr rpar ihl ihr =>
    simp only [Node.points] at hp
    rw [List.nodup_append] at hp
    rcases h with h | h | h
    · rw [h]
      simp only [Node.points]
      rw [List.nodup_append]
      exact hp
    · exact ihl h hp.1
    · exact ihr h (List.nodup_cons.1 hp.2.1).2

theorem climb_mono (root : Node) (f : Nat) (current : Node) (next : Option Point) (res : Node)
    (h : climb root f current next = some res) :
    ∀ g, f ≤ g → climb root g current next = some res := by
  induction f generalizing current next with
  | zero => simp [climb] at h
  | succ f ih =>
    intro g hg
    obtain ⟨g, rfl⟩ : ∃ g1, g = g1 + 1 := ⟨g - 1, by omega⟩
    cases next with
    | none => simpa [climb] using h
    | some ref =>
      simp only [climb] at h ⊢
      split_ifs at h ⊢ with hc
      · exact ih _ _ h g (by omega)
      · exact h

end kdtree

namespace kdtree

theorem not_within_null (root : Node) : ¬ within .null root := by
  induction root with
  | null => exact fun h => h
  | mk rp rxv rs rl rr rpar ihl ihr =>
    rintro (h | h | h)
    · exact Node.noConfusion h
    · exact ihl h
    · exact ihr h

theorem addr_mem_points (t : Node) (q : Point) (h : t.addr = some q) : q ∈ t.points := by
  cases t with
  | null => simp [Node.addr] at h
  | mk p xv s l r par =>
    simp only [Node.addr, Option.some.injEq] at h
    simp [Node.points, h]

theorem climb_from_right (root : Node) (p : Point) (xv : Bool) (s : Nat) (l r : Node)
    (par : Option Point) (hnd : root.points.Nodup) (hpo : parents_ok root)
    (h : within (.mk p xv s l r par) root) (hr : r ≠ .null) (f : Nat) :
    climb root (f + 1) r r.parent = climb root f (.mk p xv s l r par) par := by
  have hp := parents_ok_of_within _ _ h hpo
  have hrp : r.parent = some p := hp.2.1.resolve_left hr
  rw [hrp]
  simp only [climb, lock_of_within root p xv s l r par hnd h, Node.right, Node.parent, if_true]

theorem climb_from_left (root : Node) (p : Point) (xv : Bool) (s : Nat) (l r : Node)
    (par : Option Point) (hnd : root.points.Nodup) (hpo : parents_ok root)
    (h : within (.mk p xv s l r par) root) (hl : l ≠ .null) (f : Nat) :
    climb root (f + 1) l l.parent = some (.mk p xv s l r par) := by
  have hp := parents_ok_of_within _ _ h hpo
  have hlp : l.parent = some p := hp.1.resolve_left hl
  have hndt := nodup_of_within _ _ h hnd
  simp only [Node.points] at hndt
  rw [List.nodup_append] at hndt
  have hne : l.addr ≠ r.addr := by
    cases l with
    | null => exact absurd rfl hl
    | mk lp lxv ls ll lr lpar =>
      intro e
      have h1 : lp ∈ (Node.mk lp lxv ls ll lr lpar).points := addr_mem_points _ _ rfl
      have h2 : lp ∈ r.points := addr_mem_points _ _ e.symm
      exact hndt.2.2 h1 (List.mem_cons_of_mem _ h2)
  rw [hlp]
  simp only [climb, lock_of_within root p xv s l r par hnd h, Node.right, hne, if_false]

theorem left_mk_null (p : Point) (xv : Bool) (s : Nat) (r : Node) (par : Option Point) :
    left (.mk p xv s .null r par) = .mk p xv s .null r par := by
  simp [left]

theorem left_mk_mk (p : Point) (xv : Bool) (s : Nat) (l r : Node) (par : Option Point)
    (hl : l ≠ .null) : left (.mk p xv s l r par) = left l := by
  cases l with
  | null => exact absurd rfl hl
  | mk lp lxv ls ll lr lpar => simp [left]

theorem for_each_null {σ : Type} (root : Node) (body : σ → Point → σ) (F n : Nat) (acc : σ) :
    for_each root body F (n + 1) .null acc = some acc := rfl

/-- The loop started at the leftmost node of a subtree `t` runs the body over the points of
`t` in in-order and goes on from the node reached by climbing out of `t`. -/
theorem for_each_subtree {σ : Type} (root : Node) (body : σ → Point → σ) (F : Nat)
    (hnd : root.points.Nodup) (hpo : parents_ok root) (t : Node) :
    ∀ (f : Nat) (nxt : Node) (n : Nat) (acc : σ), within t root →
      climb root f t t.parent = some nxt → f + t.count ≤ F →
      for_each root body F (n + t.count) (left t) acc =
        for_each root body F n nxt (t.points.foldl body acc) := by
  induction t with
  | null => intro f nxt n acc h; exact absurd h (not_within_null root)
  | mk p xv s l r par ihl ihr =>
    intro f nxt n acc hw hc hF
    simp only [Node.count] at hF
    -- the step at the node itself, then its right subtree
    have hnode : ∀ acc1 : σ,
        for_each root body F (n + r.count + 1) (.mk p xv s l r par) acc1 =
          for_each root body F n nxt (r.points.foldl body (body acc1 p)) := by
      intro acc1
      by_cases hr : r = .null
      · subst hr
        have hnx : next_node root F (.mk p xv s l .null par) = some nxt := by
          simp only [next_node, Node.right, Node.parent]
          exact climb_mono _ _ _ _ _ hc F (by omega)
        simp only [for_each, hnx, Node.points, Node.count, List.foldl_nil, Nat.add_zero]
      · have hnx : next_node root F (.mk p xv s l r par) = some (left r) := by
          cases r with
          | null => exact absurd rfl hr
          | mk rp rxv rs rl rr rpar => simp [next_node, Node.right]
        simp only [for_each, hnx]
        apply ihr (f + 1) nxt n (body acc1 p) (within_trans_right _ _ _ _ _ _ _ _ hw
          (by cases r with
              | null => exact absurd rfl hr
              | mk rp rxv rs rl rr rpar => exact within_self _ _ _ _ _ _))
        · rw [climb_from_right root p xv s l r par hnd hpo hw hr f]
          exact hc
        · omega
    by_cases hl : l = .null
    · subst hl
      rw [left_mk_null]
      simp only [Node.count, Node.points, List.nil_append, List.foldl_cons, Nat.zero_add]
      exact hnode acc
    · rw [left_mk_mk _ _ _ _ _ _ hl]
      have hstep : n + (Node.mk p xv s l r par).count = (n + r.count + 1) + l.count := by
        simp only [Node.count]; omega
      rw [hstep, ihl 1 (.mk p xv s l r par) (n + r.count + 1) acc
        (within_trans_left _ _ _ _ _ _ _ _ hw
          (by cases l with
              | null => exact absurd rfl hl
              | mk lp lxv ls ll lr lpar => exact within_self _ _ _ _ _ _))
        (climb_from_left root p xv s l r par hnd hpo hw hl 0) (by omega)]
      rw [hnode]
      simp only [Node.points, List.foldl_append, List.foldl_cons]

theorem PointSet.fold_eq (s : PointSet) (h : s.well_formed) {σ : Type} (body : σ → Point → σ)
    (init : σ) : s.fold body init = some (s.m_root.points.foldl body init) := by
  obtain ⟨_, hord, hpo, hroot⟩ := h
  unfold PointSet.fold PointSet.fuel
  cases hr : s.m_root with
  | null => rfl
  | mk p xv sz l r par =>
    rw [hr] at hord hpo hroot
    have hnd := nodup_points_of_ordered _ hord
    have hc : climb (.mk p xv sz l r par) 1 (.mk p xv sz l r par)
        (Node.mk p xv sz l r par).parent = some .null := by
      rw [hroot]; rfl
    have := for_each_subtree (.mk p xv sz l r par) body ((Node.mk p xv sz l r par).count + 1)
      hnd hpo (.mk p xv sz l r par) 1 .null 1 init (within_self _ _ _ _ _ _) hc (by omega)
    rw [Nat.add_comm 1] at this
    rw [this]
    rfl

theorem PointSet.enumerate_eq (s : PointSet) (h : s.well_formed) :
    s.enumerate = some s.m_root.points := by
  unfold PointSet.enumerate
  rw [PointSet.fold_eq s h]
  congr 1
  have : ∀ (xs acc : List Point), xs.foldl (fun seen p => seen ++ [p]) acc = acc ++ xs := by
    intro xs
    induction xs with
    | nil => simp
    | cons a xs ih => intro acc; simp [ih]
  simpa using this s.m_root.points []

end kdtree

/-! ## Range search -/

theorem Rect.contains_iff (r : Rect) (p : Point) :
    r.contains p = true ↔ (r.x_min ≤ p.x ∧ p.x ≤ r.x_max) ∧ (r.y_min ≤ p.y ∧ p.y ≤ r.y_max) := by
  simp [Rect.contains, is_sorted_numbers]

/-- Two rectangles that share a point pass the test of `Rect::intersects`. -/
theorem Rect.intersects_of_common_point (a b : Rect) (q : Point) (ha : a.contains q = true)
    (hb : b.contains q = true) : a.intersects b = true := by
  rw [Rect.contains_iff] at ha hb
  simp only [Rect.intersects, Rect.any_corner_in_rect, Rect.contains_iff, Bool.or_eq_true,
    Bool.and_eq_true, decide_eq_true_eq]
  omega

namespace kdtree

theorem goes_left_true_bound (q cp : Point) (cx : Bool) (h : goes_left q cp cx = true) :
    (cx = true → q.x ≤ cp.x) ∧ (cx = false → q.y ≤ cp.y) := by
  cases cx <;>
    simp only [goes_left, Point.lt, Point.compare_y, Bool.or_eq_true, Bool.and_eq_true,
      decide_eq_true_eq, Bool.not_true, Bool.not_false, Bool.and_false, Bool.and_true,
      Bool.false_or, Bool.or_false] at h <;>
    constructor <;> intro hc <;> first | omega | exact absurd hc (by decide)

theorem goes_left_false_bound (q cp : Point) (cx : Bool) (h : goes_left q cp cx = false) :
    (cx = true → cp.x ≤ q.x) ∧ (cx = false → cp.y ≤ q.y) := by
  rw [← Bool.not_eq_true] at h
  cases cx <;>
    simp only [goes_left, Point.lt, Point.compare_y, Bool.or_eq_true, Bool.and_eq_true,
      decide_eq_true_eq, Bool.not_true, Bool.not_false, Bool.and_false, Bool.and_true,
      Bool.false_or, Bool.or_false] at h <;>
    constructor <;> intro hc <;> first | omega | exact absurd hc (by decide)

theorem contains_make_intersection_left (border : Rect) (q cp : Point) (cx : Bool)
    (hb : border.contains q = true) (h : goes_left q cp cx = true) :
    (make_intersection border cp cx true).contains q = true := by
  have hq := goes_left_true_bound q cp cx h
  rw [Rect.contains_iff] at hb ⊢
  cases cx
  · have := hq.2 rfl
    simp only [make_intersection, Rect.ofCorners, Bool.not_true, Bool.not_false, Bool.and_false,
      Bool.and_true, Bool.false_and, Bool.true_and, Bool.false_eq_true, if_false, if_true, le_min_iff]
    omega
  · have := hq.1 rfl
    simp only [make_intersection, Rect.ofCorners, Bool.not_true, Bool.not_false, Bool.and_false,
      Bool.and_true, Bool.false_and, Bool.true_and, Bool.false_eq_true, if_false, if_true, le_min_iff]
    omega

theorem contains_make_intersection_right (border : Rect) (q cp : Point) (cx : Bool)
    (hb : border.contains q = true) (h : goes_left q cp cx = false) :
    (make_intersection border cp cx false).contains q = true := by
  have hq := goes_left_false_bound q cp cx h
  rw [Rect.contains_iff] at hb ⊢
  cases cx
  · have := hq.2 rfl
    simp only [make_intersection, Rect.ofCorners, Bool.not_true, Bool.not_false, Bool.and_false,
      Bool.and_true, Bool.false_and, Bool.true_and, Bool.false_eq_true, if_false, if_true, max_le_iff]
    omega
  · have := hq.1 rfl
    simp only [make_intersection, Rect.ofCorners, Bool.not_true, Bool.not_false, Bool.and_false,
      Bool.and_true, Bool.false_and, Bool.true_and, Bool.false_eq_true, if_false, if_true, max_le_iff]
    omega

/-- A border that holds a point of the query rectangle passes the test of `check_child`. -/
theorem check_child_of_common_point (rect b : Rect) (q : Point) (hr : rect.contains q = true)
    (hb : b.contains q = true) : b.x_min ≤ b.x_max ∧ rect.intersects b = true := by
  refine ⟨?_, Rect.intersects_of_common_point rect b q hr hb⟩
  rw [Rect.contains_iff] at hb
  omega

theorem mem_points_range (current : Node) :
    ∀ (acc : PointSet) (rect border : Rect), ordered current →
      (∀ q ∈ current.points, border.contains q = true) → ∀ q : Point,
      (q ∈ (range acc current rect border).m_root.points ↔
        q ∈ acc.m_root.points ∨ (q ∈ current.points ∧ rect.contains q = true)) := by
  induction current with
  | null => intro acc rect border _ _ q; simp [range, Node.points]
  | mk cp cx cs l r par ihl ihr =>
    intro acc rect border hord hin q
    obtain ⟨hL, hR, hl, hr⟩ := hord
    have hinl : ∀ a ∈ l.points, (make_intersection border cp cx true).contains a = true :=
      fun a ha => contains_make_intersection_left _ _ _ _
        (hin a (by simp [Node.points, ha])) (hL a ha).1
    have hinr : ∀ a ∈ r.points, (make_intersection border cp cx false).contains a = true :=
      fun a ha => contains_make_intersection_right _ _ _ _
        (hin a (by simp [Node.points, ha])) (hR a ha).1
    -- the node itself
    have hfound : q ∈ (if rect.contains cp = true then acc.put cp else acc).m_root.points ↔
        q ∈ acc.m_root.points ∨ (q = cp ∧ rect.contains q = true) := by
      split_ifs with hc
      · rw [PointSet.mem_points_after_put]
        constructor
        · rintro (h | h)
          · exact Or.inr ⟨h, h ▸ hc⟩
          · exact Or.inl h
        · rintro (h | ⟨h, _⟩)
          · exact Or.inr h
          · exact Or.inl h
      · constructor
        · exact fun h => Or.inl h
        · rintro (h | ⟨h, h2⟩)
          · exact h
          · exact absurd (h ▸ h2) hc
    -- the left child
    have hleft : ∀ found : PointSet,
        (q ∈ (if (make_intersection border cp cx true).x_min ≤
                (make_intersection border cp cx true).x_max ∧
              rect.intersects (make_intersection border cp cx true) = true
            then range found l rect (make_intersection border cp cx true)
            else found).m_root.points ↔
          q ∈ found.m_root.points ∨ (q ∈ l.points ∧ rect.contains q = true)) := by
      intro found
      split_ifs with hc
      · exact ihl found rect _ hl hinl q
      · constructor
        · exact fun h => Or.inl h
        · rintro (h | ⟨h, h2⟩)
          · exact h
          · exact absurd (check_child_of_common_point rect _ q h2 (hinl q h)) hc
    have hright : ∀ found : PointSet,
        (q ∈ (if (make_intersection border cp cx false).x_min ≤
                (make_intersection border cp cx false).x_max ∧
              rect.intersects (make_intersection border cp cx false) = true
            then range found r rect (make_intersection border cp cx false)
            else found).m_root.points ↔
          q ∈ found.m_root.points ∨ (q ∈ r.points ∧ rect.contains q = true)) := by
      intro found
      split_ifs with hc
      · exact ihr found rect _ hr hinr q
      · constructor
        · exact fun h => Or.inl h
        · rintro (h | ⟨h, h2⟩)
          · exact h
          · exact absurd (check_child_of_common_point rect _ q h2 (hinr q h)) hc
    simp only [range]
    rw [hright, hleft, hfound]
    simp only [Node.points, List.mem_append, List.mem_cons]
    tauto

theorem well_formed_range (current : Node) :
    ∀ (acc : PointSet) (rect border : Rect), acc.well_formed →
      (range acc current rect border).well_formed := by
  induction current with
  | null => intro acc rect border h; exact h
  | mk cp cx cs l r par ihl ihr =>
    intro acc rect border h
    simp only [range]
    have hfound : (if rect.contains cp = true then acc.put cp else acc).well_formed := by
      split_ifs
      · exact PointSet.well_formed_put _ _ h
      · exact h
    split_ifs
    all_goals first
      | exact ihr _ _ _ (ihl _ _ _ (PointSet.well_formed_put _ _ h))
      | exact ihr _ _ _ (ihl _ _ _ h)
      | exact ihr _ _ _ (PointSet.well_formed_put _ _ h)
      | exact ihr _ _ _ h
      | exact ihl _ _ _ (PointSet.well_formed_put _ _ h)
      | exact ihl _ _ _ h
      | exact PointSet.well_formed_put _ _ h
      | exact h

theorem whole_plane_contains (q : Point) (h : q.finite) :
    PointSet.whole_plane.contains q = true := by
  rw [Rect.contains_iff]
  exact h

end kdtree

namespace kdtree

set_option maxRecDepth 100000 in
/-- C8: after inserting (2,3), (4,2), (4,5), (5,3) in this order into the empty index,
`size()` is 4, `nearest((0,0))` returns (2,3), at squared distance 13 from (0,0), and the
iterators of `range` on the rectangle with corners (3,0) and (5,4) enumerate exactly
(4,2) and (5,3). -/
theorem PointSet.scenario_size_nearest_range :
    (PointSet.build [⟨2, 3⟩, ⟨4, 2⟩, ⟨4, 5⟩, ⟨5, 3⟩]).size = 4 ∧
      (PointSet.build [⟨2, 3⟩, ⟨4, 2⟩, ⟨4, 5⟩, ⟨5, 3⟩]).nearest ⟨0, 0⟩ = some ⟨2, 3⟩ ∧
      Point.distanceSq ⟨0, 0⟩ ⟨2, 3⟩ = 13 ∧
      ((PointSet.build [⟨2, 3⟩, ⟨4, 2⟩, ⟨4, 5⟩, ⟨5, 3⟩]).range
          (Rect.ofCorners ⟨3, 0⟩ ⟨5, 4⟩)).enumerate = some [⟨4, 2⟩, ⟨5, 3⟩] := by
  decide

end kdtree

/-! ## The bounded selection of `nearest(point, k)` -/

namespace DistMap

theorem mem_insert_of_fresh (m : DistMap) (e x : Int × Point) (h : ∀ a ∈ m, a.1 ≠ e.1) :
    x ∈ insert m e ↔ x = e ∨ x ∈ m := by
  induction m with
  | nil => simp [insert]
  | cons a rest ih =>
    have ha : a.1 ≠ e.1 := h a (List.mem_cons_self _ _)
    have ih1 := ih (fun b hb => h b (List.mem_cons_of_mem _ hb))
    simp only [insert]
    split_ifs with h1 h2
    · simp
    · simp only [List.mem_cons, ih1]
      tauto
    · exact absurd (le_antisymm (not_lt.1 h1) (not_lt.1 h2)) ha.symm

theorem length_insert_of_fresh (m : DistMap) (e : Int × Point) (h : ∀ a ∈ m, a.1 ≠ e.1) :
    (insert m e).length = m.length + 1 := by
  induction m with
  | nil => simp [insert]
  | cons a rest ih =>
    have ha : a.1 ≠ e.1 := h a (List.mem_cons_self _ _)
    have ih1 := ih (fun b hb => h b (List.mem_cons_of_mem _ hb))
    simp only [insert]
    split_ifs with h1 h2
    · simp
    · simp [ih1]
    · exact absurd (le_antisymm (not_lt.1 h1) (not_lt.1 h2)) ha.symm

theorem pairwise_insert_of_fresh (m : DistMap) (e : Int × Point)
    (hs : m.Pairwise (fun a b => a.1 > b.1)) (h : ∀ a ∈ m, a.1 ≠ e.1) :
    (insert m e).Pairwise (fun a b => a.1 > b.1) := by
  induction m with
  | nil => simp [insert]
  | cons a rest ih =>
    have ha : a.1 ≠ e.1 := h a (List.mem_cons_self _ _)
    have hfresh : ∀ b ∈ rest, b.1 ≠ e.1 := fun b hb => h b (List.mem_cons_of_mem _ hb)
    rw [List.pairwise_cons] at hs
    simp only [insert]
    split_ifs with h1 h2
    · rw [List.pairwise_cons]
      refine ⟨?_, List.pairwise_cons.2 hs⟩
      intro b hb
      rcases List.mem_cons.1 hb with rfl | hb
      · exact h1
      · exact lt_trans (hs.1 b hb) h1
    · rw [List.pairwise_cons]
      refine ⟨?_, ih hs.2 hfresh⟩
      intro b hb
      rcases (mem_insert_of_fresh rest e b hfresh).1 hb with rfl | hb
      · exact h2
      · exact hs.1 b hb
    · exact absurd (le_antisymm (not_lt.1 h1) (not_lt.1 h2)) ha.symm

theorem insert_cons_of_lt (top : Int × Point) (rest : DistMap) (e : Int × Point)
    (h : e.1 < top.1) : insert (top :: rest) e = top :: insert rest e := by
  simp only [insert]
  rw [if_neg (not_lt.2 (le_of_lt h)), if_pos h]

/-- With `k = 0` the loop never inserts. -/
theorem step_by_zero (key : Point → Int) (current : Point) : step_by key 0 [] current = [] := by
  simp [step_by]

theorem foldl_step_by_zero (key : Point → Int) (xs : List Point) :
    xs.foldl (step_by key 0) [] = [] := by
  induction xs with
  | nil => rfl
  | cons a xs ih => simp only [List.foldl_cons, step_by_zero, ih]

theorem selects_by_nil (key : Point → Int) (k : Nat) : selects_by key k [] [] := by
  simp [selects_by]

end DistMap

namespace DistMap

theorem step_by_of_room (key : Point → Int) (k : Nat) (m : DistMap) (cur : Point)
    (hlen : m.length < k) (hfresh : ∀ a ∈ m, a.1 ≠ key cur) :
    step_by key k m cur = insert m (key cur, cur) := by
  have h1 : (insert m (key cur, cur)).length = m.length + 1 :=
    length_insert_of_fresh m _ hfresh
  simp only [step_by]
  rw [if_pos (Or.inl hlen), if_neg (by omega)]

theorem step_by_of_closer (key : Point → Int) (k : Nat) (top : Int × Point) (rest : DistMap)
    (cur : Point) (hlen : (top :: rest).length = k) (htop : top.1 = key top.2)
    (hc : key cur < key top.2)
    (hfresh : ∀ a ∈ rest, a.1 ≠ key cur) :
    step_by key k (top :: rest) cur = insert rest (key cur, cur) := by
  have hk : 0 < k := by rw [← hlen]; simp
  have h0 : insert (top :: rest) (key cur, cur) =
      top :: insert rest (key cur, cur) :=
    insert_cons_of_lt top rest _ (by rw [htop]; exact hc)
  have h1 : (insert rest (key cur, cur)).length = rest.length + 1 :=
    length_insert_of_fresh rest _ hfresh
  simp only [List.length_cons] at hlen
  simp only [step_by]
  rw [if_pos (Or.inr ⟨hk, by simpa using hc⟩), h0,
    if_pos (by simp only [List.length_cons]; omega)]
  rfl

theorem step_by_of_farther (key : Point → Int) (k : Nat) (top : Int × Point) (rest : DistMap)
    (cur : Point) (hlen : (top :: rest).length = k)
    (hc : ¬ key cur < key top.2) :
    step_by key k (top :: rest) cur = top :: rest := by
  have hcond : ¬ ((top :: rest).length < k ∨
      (0 < k ∧ decide (key cur < key top.2) = true)) := by
    rintro (h | ⟨_, h⟩)
    · omega
    · exact hc (by simpa using h)
  simp only [step_by]
  rw [if_neg hcond, if_neg (by omega)]

theorem selects_by_step (key : Point → Int) (k : Nat) (seen : List Point) (m : DistMap) (cur : Point)
    (hinv : selects_by key k seen m)
    (hnew : ∀ b ∈ seen, key b ≠ key cur) :
    selects_by key k (seen ++ [cur]) (step_by key k m cur) := by
  obtain ⟨hsort, hkey, hlen, hall, hbest⟩ := hinv
  have hfresh : ∀ a ∈ m, a.1 ≠ key cur := fun a ha => by
    rw [(hkey a ha).1]; exact hnew _ (hkey a ha).2
  by_cases hroom : m.length < k
  · -- the map has room: the element is inserted, nothing is erased
    rw [step_by_of_room key k m cur hroom hfresh]
    have hmem := mem_insert_of_fresh m (key cur, cur)
    have hseen : ∀ b ∈ seen ++ [cur],
        b ∈ (insert m (key cur, cur)).map Prod.snd := by
      intro b hb
      rw [List.mem_map]
      rcases List.mem_append.1 hb with hb | hb
      · obtain ⟨e, he, rfl⟩ := List.mem_map.1 (hall hroom b hb)
        exact ⟨e, (hmem e hfresh).2 (Or.inr he), rfl⟩
      · rw [List.mem_singleton] at hb
        exact ⟨(key cur, cur), (hmem _ hfresh).2 (Or.inl rfl), hb.symm⟩
    refine ⟨pairwise_insert_of_fresh m _ hsort hfresh, ?_, ?_, fun _ => hseen, ?_⟩
    · intro e he
      rcases (hmem e hfresh).1 he with rfl | he
      · exact ⟨rfl, by simp⟩
      · exact ⟨(hkey e he).1, List.mem_append_left _ (hkey e he).2⟩
    · rw [length_insert_of_fresh m _ hfresh, List.length_append, List.length_singleton]
      omega
    · intro e _ b hb hnb
      exact absurd (hseen b hb) hnb
  · -- the map is full
    have hfull : m.length = k := by omega
    have hle : k ≤ seen.length := by omega
    cases m with
    | nil =>
      -- k = 0: nothing is ever inserted
      have hk0 : k = 0 := by simpa using hfull.symm
      subst hk0
      rw [step_by_zero]
      simp [selects_by]
    | cons top rest =>
      rw [List.pairwise_cons] at hsort
      have htop := hkey top (List.mem_cons_self _ _)
      have hfresh1 : ∀ a ∈ rest, a.1 ≠ key cur :=
        fun a ha => hfresh a (List.mem_cons_of_mem _ ha)
      by_cases hc : key cur < key top.2
      · -- closer than the farthest entry: inserted, and the farthest entry is erased
        rw [step_by_of_closer key k top rest cur hfull htop.1 hc hfresh1]
        have hmem := mem_insert_of_fresh rest (key cur, cur)
        have hlen1 := length_insert_of_fresh rest (key cur, cur) hfresh1
        simp only [List.length_cons] at hfull
        refine ⟨pairwise_insert_of_fresh rest _ hsort.2 hfresh1, ?_, ?_, ?_, ?_⟩
        · intro e he
          rcases (hmem e hfresh1).1 he with rfl | he
          · exact ⟨rfl, by simp⟩
          · have := hkey e (List.mem_cons_of_mem _ he)
            exact ⟨this.1, List.mem_append_left _ this.2⟩
        · rw [hlen1, List.length_append, List.length_singleton]
          omega
        · intro h
          omega
        · intro e he b hb hnb
          have hbcur : b ≠ cur := by
            rintro rfl
            exact hnb (List.mem_map.2 ⟨(key b, b), (hmem _ hfresh1).2 (Or.inl rfl), rfl⟩)
          have hbseen : b ∈ seen := by
            rcases List.mem_append.1 hb with hb | hb
            · exact hb
            · exact absurd (List.mem_singleton.1 hb) hbcur
          have hbrest : b ∉ rest.map Prod.snd := by
            intro hbr
            obtain ⟨x, hx, rfl⟩ := List.mem_map.1 hbr
            exact hnb (List.mem_map.2 ⟨x, (hmem x hfresh1).2 (Or.inr hx), rfl⟩)
          -- every entry kept is at least as close as the erased one is far
          have hetop : key e.2 < key top.2 := by
            rcases (hmem e hfresh1).1 he with rfl | he
            · exact hc
            · have h1 := hsort.1 e he
              rw [htop.1, (hkey e (List.mem_cons_of_mem _ he)).1] at h1
              exact h1
          by_cases hbt : b = top.2
          · rw [hbt]; exact hetop
          · have hbm : b ∉ (top :: rest).map Prod.snd := by
              simp only [List.map_cons, List.mem_cons, not_or]
              exact ⟨hbt, hbrest⟩
            exact lt_trans hetop (hbest top (List.mem_cons_self _ _) b hbseen hbm)
      · -- not closer than the farthest entry: the map is left as it is
        rw [step_by_of_farther key k top rest cur hfull hc]
        refine ⟨List.pairwise_cons.2 hsort, ?_, ?_, ?_, ?_⟩
        · intro e he
          exact ⟨(hkey e he).1, List.mem_append_left _ (hkey e he).2⟩
        · rw [List.length_append, List.length_singleton]
          omega
        · intro h
          omega
        · intro e he b hb hnb
          rcases List.mem_append.1 hb with hb | hb
          · exact hbest e he b hb hnb
          · rw [List.mem_singleton] at hb
            subst hb
            have hne := hnew e.2 (hkey e he).2
            have hle1 : key e.2 ≤ key top.2 := by
              rcases List.mem_cons.1 he with rfl | he1
              · exact le_refl _
              · have h1 := hsort.1 e he1
                rw [htop.1, (hkey e (List.mem_cons_of_mem _ he1)).1] at h1
                exact le_of_lt h1
            exact lt_of_le_of_ne (le_trans hle1 (not_lt.1 hc)) hne

/-- The loop over a sequence whose distances to `point` are pairwise distinct keeps the
`min k n` closest of the `n` elements met. -/
theorem selects_by_foldl (key : Point → Int) (k : Nat) (rest : List Point) :
    ∀ (seen : List Point) (m : DistMap), selects_by key k seen m →
      ((seen ++ rest).map key).Nodup →
      selects_by key k (seen ++ rest) (rest.foldl (step_by key k) m) := by
  induction rest with
  | nil => intro seen m h _; simpa using h
  | cons cur rest ih =>
    intro seen m h hnd
    have hnd1 : (((seen ++ [cur]) ++ rest).map key).Nodup := by
      simpa using hnd
    have hnew : ∀ b ∈ seen, key b ≠ key cur := by
      intro b hb e
      rw [List.map_append, List.map_cons, List.nodup_append] at hnd
      exact hnd.2.2 (List.mem_map.2 ⟨b, hb, rfl⟩) (by rw [e]; exact List.mem_cons_self _ _)
    have := ih (seen ++ [cur]) (step_by key k m cur) (selects_by_step key k seen m cur h hnew) hnd1
    simpa using this

end DistMap

namespace DistMap

theorem nodup_points_of_selects_by (key : Point → Int) (k : Nat) (seen : List Point) (m : DistMap)
    (h : selects_by key k seen m) : (m.map Prod.snd).Nodup := by
  obtain ⟨hsort, hkey, _⟩ := h
  rw [List.Nodup, List.pairwise_map]
  refine List.Pairwise.imp_of_mem ?_ hsort
  intro a b ha hb hab e
  rw [(hkey a ha).1, (hkey b hb).1, e] at hab
  exact lt_irrefl _ hab

end DistMap

namespace kdtree

theorem count_eq_length_points (t : Node) : t.count = t.points.length := by
  induction t with
  | null => rfl
  | mk p xv s l r par ihl ihr =>
    simp only [Node.count, Node.points, List.length_append, List.length_cons, ihl, ihr]
    omega

theorem PointSet.size_eq_length_points (s : PointSet) (h : s.well_formed) :
    s.size = s.m_root.points.length := by
  unfold PointSet.size
  rw [size_eq_count _ h.1, count_eq_length_points]

theorem PointSet.nodup_points (s : PointSet) (h : s.well_formed) : s.m_root.points.Nodup :=
  nodup_points_of_ordered _ h.2.1

theorem PointSet.foldl_put_eq_build (m : DistMap) :
    m.foldl (fun result elem => PointSet.put result elem.2) PointSet.empty_set =
      PointSet.build (m.map Prod.snd) := by
  unfold PointSet.build
  rw [List.foldl_map]

theorem PointSet.nearest_k_eq (s : PointSet) (h : s.well_formed) (q : Point) (k : Nat) :
    s.nearest_k q k =
      some (PointSet.build ((s.m_root.points.foldl (DistMap.step q k) []).map Prod.snd)) := by
  unfold PointSet.nearest_k
  rw [PointSet.fold_eq s h]
  simp only [PointSet.foldl_put_eq_build]

/-- The points of the index built from a sequence without repetition are a rearrangement
of the sequence. -/
theorem PointSet.points_build_perm (xs : List Point) (h : xs.Nodup) :
    (PointSet.build xs).m_root.points.Perm xs :=
  (List.perm_ext_iff_of_nodup (PointSet.nodup_points _ (PointSet.well_formed_build xs)) h).2
    (fun a => PointSet.mem_points_build xs a)

end kdtree


namespace kdtree

set_option maxRecDepth 100000 in
/-- C4, the code at a failing input: on the index built from (1,0), (-2,3), (1,3) the call
`nearest((0,3))` returns (-2,3), at squared distance 4, although the index contains (1,3),
at squared distance 1.  At the root the far child is pruned by comparing the best
distance with the coordinate of the best node instead of that of the splitting node. -/
theorem PointSet.nearest_returns_farther_point :
    (PointSet.build [⟨1, 0⟩, ⟨-2, 3⟩, ⟨1, 3⟩]).nearest ⟨0, 3⟩ = some ⟨-2, 3⟩ ∧
      (PointSet.build [⟨1, 0⟩, ⟨-2, 3⟩, ⟨1, 3⟩]).contains ⟨1, 3⟩ = true ∧
      Point.distanceSq ⟨0, 3⟩ ⟨1, 3⟩ = 1 ∧ Point.distanceSq ⟨0, 3⟩ ⟨-2, 3⟩ = 4 := by
  decide

set_option maxRecDepth 100000 in
/-- C5, the code at a failing input: on the index built from (1,0), (-1,0), of size 2, the
iterators of `nearest((0,0), 2)` enumerate the single point (-1,0).  Both points are at
distance 1 and the map keyed by the distance keeps one entry per distance. -/
theorem PointSet.nearest_k_drops_tied_point :
    (PointSet.build [⟨1, 0⟩, ⟨-1, 0⟩]).size = 2 ∧
      ((PointSet.build [⟨1, 0⟩, ⟨-1, 0⟩]).nearest_k ⟨0, 0⟩ 2).bind PointSet.enumerate =
        some [⟨-1, 0⟩] := by
  decide

set_option maxRecDepth 100000 in
/-- C7, the code on the scenario: after inserting (2,3), (4,2), (4,5), (5,3) the iterators of
`nearest((4,3), 2)` enumerate (2,3) and (4,2).  The point (5,3) has the distance of
(4,2), so its insertion into the map keyed by the distance does nothing, and (2,3), at
squared distance 4, is never evicted. -/
theorem PointSet.scenario_nearest_k_keeps_far_point :
    ((PointSet.build [⟨2, 3⟩, ⟨4, 2⟩, ⟨4, 5⟩, ⟨5, 3⟩]).nearest_k ⟨4, 3⟩ 2).bind
        PointSet.enumerate = some [⟨2, 3⟩, ⟨4, 2⟩] ∧
      Point.distanceSq ⟨4, 3⟩ ⟨2, 3⟩ = 4 ∧ Point.distanceSq ⟨4, 3⟩ ⟨5, 3⟩ = 1 := by
  decide

end kdtree

/-! ## The ordered-set baseline -/

theorem Point.lt_iff (p q : Point) : p.lt q = true ↔ p.x < q.x ∨ (p.x = q.x ∧ p.y < q.y) := by
  simp [Point.lt]

theorem Point.eq_of_not_lt (p q : Point) (h1 : ¬ p.lt q = true) (h2 : ¬ q.lt p = true) :
    p = q := by
  rw [Point.lt_iff] at h1 h2
  cases p with
  | mk px py =>
    cases q with
    | mk qx qy =>
      simp only [Point.mk.injEq] at h1 h2 ⊢
      omega

theorem Point.lt_trans (p q r : Point) (h1 : p.lt q = true) (h2 : q.lt r = true) :
    p.lt r = true := by
  rw [Point.lt_iff] at h1 h2 ⊢
  omega

theorem Point.lt_irrefl (p : Point) : ¬ p.lt p = true := by
  rw [Point.lt_iff]
  omega

namespace rbtree

theorem mem_set_insert (xs : List Point) (p q : Point) :
    q ∈ set_insert xs p ↔ q = p ∨ q ∈ xs := by
  induction xs with
  | nil => simp [set_insert]
  | cons a rest ih =>
    simp only [set_insert]
    split_ifs with h1 h2
    · simp
    · simp only [List.mem_cons, ih]
      tauto
    · have : p = a := Point.eq_of_not_lt p a h1 h2
      subst this
      simp

theorem sorted_set_insert (xs : List Point) (p : Point)
    (h : xs.Pairwise (fun a b => a.lt b = true)) :
    (set_insert xs p).Pairwise (fun a b => a.lt b = true) := by
  induction xs with
  | nil => simp [set_insert]
  | cons a rest ih =>
    rw [List.pairwise_cons] at h
    simp only [set_insert]
    split_ifs with h1 h2
    · rw [List.pairwise_cons]
      refine ⟨?_, List.pairwise_cons.2 h⟩
      intro b hb
      rcases List.mem_cons.1 hb with rfl | hb
      · exact h1
      · exact Point.lt_trans _ _ _ h1 (h.1 b hb)
    · rw [List.pairwise_cons]
      refine ⟨?_, ih h.2⟩
      intro b hb
      rcases (mem_set_insert rest p b).1 hb with rfl | hb
      · exact h2
      · exact h.1 b hb
    · exact List.pairwise_cons.2 h

theorem nodup_of_sorted (xs : List Point) (h : xs.Pairwise (fun a b => a.lt b = true)) :
    xs.Nodup := by
  refine List.Pairwise.imp ?_ h
  intro a b hab e
  rw [e] at hab
  exact Point.lt_irrefl b hab

theorem PointSet.build_snoc (ps : List Point) (p : Point) :
    PointSet.build (ps ++ [p]) = (PointSet.build ps).put p := by
  simp [PointSet.build, List.foldl_append]

theorem PointSet.sorted_build (ps : List Point) :
    (PointSet.build ps).m_set.Pairwise (fun a b => a.lt b = true) := by
  induction ps using List.reverseRecOn with
  | nil => simp [PointSet.build, PointSet.empty_set]
  | append_singleton ps p ih =>
    rw [PointSet.build_snoc]
    exact sorted_set_insert _ _ ih

theorem PointSet.mem_build (ps : List Point) (q : Point) :
    q ∈ (PointSet.build ps).m_set ↔ q ∈ ps := by
  induction ps using List.reverseRecOn with
  | nil => simp [PointSet.build, PointSet.empty_set]
  | append_singleton ps p ih =>
    rw [PointSet.build_snoc]
    simp only [PointSet.put, mem_set_insert, ih, List.mem_append, List.mem_singleton]
    tauto

theorem PointSet.contains_iff_mem_set (s : PointSet) (q : Point) :
    s.contains q = true ↔ q ∈ s.m_set := by
  simp only [PointSet.contains, List.any_eq_true, Bool.and_eq_true, Bool.not_eq_true']
  constructor
  · rintro ⟨e, he, h1, h2⟩
    have : e = q := Point.eq_of_not_lt e q (by simp [h1]) (by simp [h2])
    exact this ▸ he
  · intro h
    have hq : q.lt q = false := by
      rw [← Bool.not_eq_true]; exact Point.lt_irrefl q
    exact ⟨q, h, hq, hq⟩

theorem mem_foldl_set_insert (m : DistMap) :
    ∀ (init : List Point) (p : Point),
      p ∈ m.foldl (fun result elem => set_insert result elem.2) init ↔
        p ∈ init ∨ p ∈ m.map Prod.snd := by
  induction m with
  | nil => intro init p; simp
  | cons e rest ih =>
    intro init p
    simp only [List.foldl_cons, ih, mem_set_insert, List.map_cons, List.mem_cons]
    tauto

end rbtree

/-! ## The 2d-tree against the ordered-set baseline (C9, C10) -/

namespace DistMap

/-- Two selections over sequences with the same elements hold the same points. -/
theorem selects_by_subset (key : Point → Int) (k : Nat) (xs ys : List Point) (m1 m2 : DistMap)
    (h1 : selects_by key k xs m1) (h2 : selects_by key k ys m2)
    (hmem : ∀ a : Point, a ∈ xs ↔ a ∈ ys) (hlen : xs.length = ys.length) :
    ∀ p ∈ m1.map Prod.snd, p ∈ m2.map Prod.snd := by
  intro p hp
  by_contra hnp
  have hnd1 := nodup_points_of_selects_by _ _ _ _ h1
  have hnd2 := nodup_points_of_selects_by _ _ _ _ h2
  obtain ⟨_, hkey1, hlen1, _, hbest1⟩ := h1
  obtain ⟨_, hkey2, hlen2, hall2, hbest2⟩ := h2
  obtain ⟨e1, he1, rfl⟩ := List.mem_map.1 hp
  have hpys : e1.2 ∈ ys := (hmem _).1 (hkey1 e1 he1).2
  have hfull : ¬ m2.length < k := fun h => hnp (hall2 h _ hpys)
  have hlen12 : m1.length ≤ m2.length := by omega
  -- some point of the second selection is not in the first
  have hex : ∃ b ∈ m2.map Prod.snd, b ∉ m1.map Prod.snd := by
    by_contra hno
    have hsub : m2.map Prod.snd ⊆ m1.map Prod.snd := by
      intro b hb
      by_contra hb1
      exact hno ⟨b, hb, hb1⟩
    have hperm := (hnd2.subperm hsub).perm_of_length_le (by simpa using hlen12)
    exact hnp (hperm.mem_iff.2 hp)
  obtain ⟨b, hb2, hb1⟩ := hex
  obtain ⟨e2, he2, rfl⟩ := List.mem_map.1 hb2
  have hbxs : e2.2 ∈ xs := (hmem _).2 (hkey2 e2 he2).2
  have hlt1 := hbest1 e1 he1 e2.2 hbxs hb1
  have hlt2 := hbest2 e2 he2 e1.2 hpys hnp
  exact lt_irrefl _ (lt_trans hlt1 hlt2)

end DistMap

set_option maxRecDepth 100000 in
/-- C10 as stated fails: after inserting (5,0), (1,5), (3,1) into both containers,
`nearest((0,2), 1)` enumerates (3,1) on the 2d-tree and (1,5) on the ordered set, so the
two results are not the same set.  Both points are at squared distance 10; each loop
keeps the first one its iterator meets. -/
theorem kdtree_rbtree_nearest_k_differ_on_tie :
    ((kdtree.PointSet.build [⟨5, 0⟩, ⟨1, 5⟩, ⟨3, 1⟩]).nearest_k ⟨0, 2⟩ 1).bind
        kdtree.PointSet.enumerate = some [⟨3, 1⟩] ∧
      (rbtree.PointSet.build [⟨5, 0⟩, ⟨1, 5⟩, ⟨3, 1⟩]).nearest_k ⟨0, 2⟩ 1 = [⟨1, 5⟩] ∧
      ¬ ∃ (res : kdtree.PointSet) (found : List Point),
        (kdtree.PointSet.build [⟨5, 0⟩, ⟨1, 5⟩, ⟨3, 1⟩]).nearest_k ⟨0, 2⟩ 1 = some res ∧
          res.enumerate = some found ∧
          ∀ p : Point, p ∈ found ↔
            p ∈ (rbtree.PointSet.build [⟨5, 0⟩, ⟨1, 5⟩, ⟨3, 1⟩]).nearest_k ⟨0, 2⟩ 1 := by
  have hkd : ((kdtree.PointSet.build [⟨5, 0⟩, ⟨1, 5⟩, ⟨3, 1⟩]).nearest_k ⟨0, 2⟩ 1).bind
      kdtree.PointSet.enumerate = some [⟨3, 1⟩] := by decide
  have hrb : (rbtree.PointSet.build [⟨5, 0⟩, ⟨1, 5⟩, ⟨3, 1⟩]).nearest_k ⟨0, 2⟩ 1 =
      [⟨1, 5⟩] := by decide
  refine ⟨hkd, hrb, ?_⟩
  rintro ⟨res, found, h1, h2, h3⟩
  rw [h1, Option.some_bind, h2] at hkd
  rw [hrb, Option.some.inj hkd] at h3
  exact absurd ((h3 ⟨3, 1⟩).1 (by decide)) (by decide)

namespace kdtree

/-! ## Inserting a point twice (C11) -/

theorem update_parent_fixed (c n : Node) (h : c = .null ∨ c.parent = n.addr) :
    update_parent c n = c := by
  cases c with
  | null => rfl
  | mk p xv s l r par =>
    rcases h with h | h
    · exact Node.noConfusion h
    · simp only [Node.parent] at h
      simp [update_parent, h]

theorem update_node_fixed (t : Node) (hs : sizes_ok t) (hp : parents_ok t) :
    update_node t = t := by
  cases t with
  | null => rfl
  | mk p xv s l r par =>
    rw [update_node_mk, update_parent_fixed l (.mk p xv s l r par) hp.1,
      update_parent_fixed r (.mk p xv s l r par) hp.2.1, ← hs.1]

theorem put_fixed (t : Node) (p : Point) (xv : Bool) (hs : sizes_ok t) (hp : parents_ok t)
    (hc : contains t p = true) : put t p xv = t := by
  induction t generalizing xv with
  | null => simp [contains] at hc
  | mk cp cx cs l r par ihl ihr =>
    simp only [contains, Point.eq_comm cp p] at hc
    simp only [put]
    by_cases h1 : p.eq cp = true
    · simp [h1]
    · by_cases h2 : goes_left p cp cx = true
      · simp only [h1, h2, Bool.false_eq_true, if_true, if_false] at hc ⊢
        rw [ihl _ hs.2.1 hp.2.2.1 hc]
        exact update_node_fixed _ hs hp
      · simp only [h1, h2, Bool.false_eq_true, if_false] at hc ⊢
        rw [ihr _ hs.2.2 hp.2.2.2 hc]
        exact update_node_fixed _ hs hp

theorem PointSet.put_fixed_of_contains (s : PointSet) (p : Point) (h : s.well_formed)
    (hc : s.contains p = true) : s.put p = s := by
  cases s with
  | mk root =>
    simp only [PointSet.put]
    rw [put_fixed root p true h.1 h.2.2.1 hc, update_node_fixed root h.1 h.2.2.1]

/-- C11: for every index reached by `put` calls and every point `p`, a second `put(p)`
returns the index of the first one unchanged: the same tree, node by node, with the same
points, axis flags, sizes and parent references; hence the same `size()` and the same
`contains(q)` for every `q`. -/
theorem PointSet.put_twice (ps : List Point) (p : Point) :
    ((PointSet.build ps).put p).put p = (PointSet.build ps).put p ∧
      (((PointSet.build ps).put p).put p).size = ((PointSet.build ps).put p).size ∧
      ∀ q : Point, (((PointSet.build ps).put p).put p).contains q =
        ((PointSet.build ps).put p).contains q := by
  have hwf := PointSet.well_formed_put _ p (PointSet.well_formed_build ps)
  have hc : ((PointSet.build ps).put p).contains p = true := by
    unfold PointSet.put PointSet.contains
    rw [contains_update_node]
    exact contains_put_self _ _ _
  have h := PointSet.put_fixed_of_contains _ p hwf hc
  rw [h]
  exact ⟨rfl, rfl, fun _ => rfl⟩

/-! ## The single nearest point: absence and membership (C12) -/

theorem nearest_eq_or_mem (node : Node) (p : Point) :
    ∀ nearest_node : Point,
      nearest node nearest_node p = nearest_node ∨ nearest node nearest_node p ∈ node.points := by
  induction node with
  | null => intro nn; exact Or.inl rfl
  | mk np nx s l r par ihl ihr =>
    intro nn
    -- every candidate met is the candidate passed in or a point of this subtree
    have hl : ∀ x : Point, (x = nn ∨ x ∈ (Node.mk np nx s l r par).points) →
        (nearest l x p = nn ∨ nearest l x p ∈ (Node.mk np nx s l r par).points) := by
      intro x hx
      rcases ihl x with h | h
      · rw [h]; exact hx
      · exact Or.inr (by simp [Node.points, h])
    have hr : ∀ x : Point, (x = nn ∨ x ∈ (Node.mk np nx s l r par).points) →
        (nearest r x p = nn ∨ nearest r x p ∈ (Node.mk np nx s l r par).points) := by
      intro x hx
      rcases ihr x with h | h
      · rw [h]; exact hx
      · exact Or.inr (by simp [Node.points, h])
    have hnp : np = nn ∨ np ∈ (Node.mk np nx s l r par).points :=
      Or.inr (by simp [Node.points])
    have hnn : nn = nn ∨ nn ∈ (Node.mk np nx s l r par).points := Or.inl rfl
    simp only [nearest]
    split_ifs <;>
      first
        | exact hnp
        | exact hl _ hnp
        | exact hr _ hnp
        | exact hl _ hnn
        | exact hr _ hnn
        | exact hl _ (hl _ hnn)
        | exact hl _ (hr _ hnn)
        | exact hr _ (hl _ hnn)

/-- C12: on the index built by `put` calls from any finite sequence `ps`, `nearest(q)` is a
total function; it returns the empty optional exactly when `empty()` holds, which is
when nothing was inserted, and on a non-empty index it returns a point for which
`contains` is true. -/
theorem PointSet.nearest_none_iff_empty (ps : List Point) (q : Point) :
    ((PointSet.build ps).nearest q = none ↔ (PointSet.build ps).empty = true) ∧
      ((ps = [] ∧ (PointSet.build ps).empty = true ∧ (PointSet.build ps).nearest q = none) ∨
        (ps ≠ [] ∧ (PointSet.build ps).empty = false ∧
          ∃ p : Point, (PointSet.build ps).nearest q = some p ∧
            (PointSet.build ps).contains p = true)) := by
  have hwf := PointSet.well_formed_build ps
  have hmem := PointSet.mem_points_build ps
  have hsize := PointSet.size_eq_length_points _ hwf
  cases hroot : (PointSet.build ps).m_root with
  | null =>
    rw [hroot] at hmem hsize
    have hps : ps = [] := by
      cases ps with
      | nil => rfl
      | cons a rest => exact absurd ((hmem a).2 (List.mem_cons_self _ _)) (by simp [Node.points])
    have hempty : (PointSet.build ps).empty = true := by
      simp [PointSet.empty, hsize, Node.points]
    have hnone : (PointSet.build ps).nearest q = none := by
      simp [PointSet.nearest, hempty]
    exact ⟨⟨fun _ => hempty, fun _ => hnone⟩, Or.inl ⟨hps, hempty, hnone⟩⟩
  | mk rp rxv rs rl rr rpar =>
    rw [hroot] at hmem hsize
    have hps : ps ≠ [] := by
      rintro rfl
      exact absurd ((hmem rp).1 (by simp [Node.points])) (by simp)
    have hempty : (PointSet.build ps).empty = false := by
      simp [PointSet.empty, hsize, Node.points]
    have hsome : (PointSet.build ps).nearest q =
        some (kdtree.nearest (.mk rp rxv rs rl rr rpar) rp q) := by
      simp [PointSet.nearest, hempty, hroot]
    have hin : kdtree.nearest (.mk rp rxv rs rl rr rpar) rp q ∈ (Node.mk rp rxv rs rl rr rpar).points := by
      rcases nearest_eq_or_mem (.mk rp rxv rs rl rr rpar) q rp with h | h
      · rw [h]; simp [Node.points]
      · exact h
    have hcont : (PointSet.build ps).contains (kdtree.nearest (.mk rp rxv rs rl rr rpar) rp q) = true := by
      rw [PointSet.contains_iff_mem_points _ _ hwf, hroot]
      exact hin
    refine ⟨?_, Or.inr ⟨hps, hempty, _, hsome, hcont⟩⟩
    rw [hsome, hempty]
    simp

end kdtree

namespace kdtree

/-! ## The invariants node by node (C13, C14, C20) -/

theorem sizes_ok_of_within (t root : Node) (h : within t root) (hs : sizes_ok root) :
    sizes_ok t := by
  induction root with
  | null => exact absurd h (fun h => h)
  | mk rp rxv rs rl rr rpar ihl ihr =>
    rcases h with h | h | h
    · rw [h]; exact hs
    · exact ihl h hs.2.1
    · exact ihr h hs.2.2

theorem ordered_of_within (t root : Node) (h : within t root) (ho : ordered root) :
    ordered t := by
  induction root with
  | null => exact absurd h (fun h => h)
  | mk rp rxv rs rl rr rpar ihl ihr =>
    rcases h with h | h | h
    · rw [h]; exact ho
    · exact ihl h ho.2.2.1
    · exact ihr h ho.2.2.2

set_option maxRecDepth 100000 in
/-- C13 as stated fails: after inserting (0,5) and (0,3) the root splits by x and holds
(0,5), and its left subtree holds (0,3), whose x-coordinate 0 is not strictly less than
the x-coordinate 0 of the root. -/
theorem PointSet.left_point_with_equal_x :
    ∃ (l r : Node) (s : Nat) (par : Option Point),
      (PointSet.build [⟨0, 5⟩, ⟨0, 3⟩]).m_root = .mk ⟨0, 5⟩ true s l r par ∧
        ∃ q ∈ l.points, ¬ q.x < (⟨0, 5⟩ : Point).x :=
  ⟨.mk ⟨0, 3⟩ false 1 .null .null (some ⟨0, 5⟩), .null, 2, none, by decide,
    ⟨0, 3⟩, by decide, by decide⟩

/-- C13, amended: in every index reached from the empty index by `put` calls, for every node
`N`: if the axis flag of `N` is x, every point of the left subtree is below `N.point` by
`operator<`, the lexicographic order by (x, y), so its x-coordinate is at most
`N.point.x`, and every point of the right subtree is not below `N.point` and has an
x-coordinate of at least `N.point.x`; if the axis flag is y, every point `q` of the left
subtree satisfies `q.compare_y(N.point)` and every point of the right subtree does not. -/
theorem PointSet.partition_by_axis (ps : List Point) (p : Point) (xv : Bool) (s : Nat)
    (l r : Node) (par : Option Point)
    (h : within (.mk p xv s l r par) (PointSet.build ps).m_root) :
    (xv = true →
        (∀ q ∈ l.points, q.lt p = true ∧ q.x ≤ p.x) ∧
          (∀ q ∈ r.points, q.lt p = false ∧ p.x ≤ q.x)) ∧
      (xv = false →
        (∀ q ∈ l.points, q.compare_y p = true) ∧ (∀ q ∈ r.points, q.compare_y p = false)) := by
  have ho := ordered_of_within _ _ h (PointSet.well_formed_build ps).2.1
  obtain ⟨hL, hR, _, _⟩ := ho
  constructor
  · intro hx
    subst hx
    refine ⟨fun q hq => ?_, fun q hq => ?_⟩
    · have h1 := (hL q hq).1
      exact ⟨by simpa [goes_left] using h1, (goes_left_true_bound q p true h1).1 rfl⟩
    · have h1 := (hR q hq).1
      exact ⟨by simpa [goes_left] using h1, (goes_left_false_bound q p true h1).1 rfl⟩
  · intro hx
    subst hx
    refine ⟨fun q hq => ?_, fun q hq => ?_⟩
    · simpa [goes_left] using (hL q hq).1
    · simpa [goes_left] using (hR q hq).1

/-- Witness of the amended C13: the root of the index built from (0,5), (0,3). -/
theorem PointSet.partition_by_axis_witness :
    within (.mk ⟨0, 5⟩ true 2 (.mk ⟨0, 3⟩ false 1 .null .null (some ⟨0, 5⟩)) .null none)
        (PointSet.build [⟨0, 5⟩, ⟨0, 3⟩]).m_root ∧
      ((true = true →
          (∀ q ∈ (Node.mk ⟨0, 3⟩ false 1 .null .null (some ⟨0, 5⟩)).points,
              q.lt ⟨0, 5⟩ = true ∧ q.x ≤ (⟨0, 5⟩ : Point).x) ∧
            (∀ q ∈ Node.null.points, q.lt ⟨0, 5⟩ = false ∧ (⟨0, 5⟩ : Point).x ≤ q.x)) ∧
        (true = false →
          (∀ q ∈ (Node.mk ⟨0, 3⟩ false 1 .null .null (some ⟨0, 5⟩)).points,
              q.compare_y ⟨0, 5⟩ = true) ∧
            (∀ q ∈ Node.null.points, q.compare_y ⟨0, 5⟩ = false))) :=
  ⟨Or.inl rfl, PointSet.partition_by_axis [⟨0, 5⟩, ⟨0, 3⟩] _ _ _ _ _ _ (Or.inl rfl)⟩

/-- C14: in every index reached from the empty index by `put` calls, every node `N` of the
tree has `N.size = 1 + size(N.left) + size(N.right)`, the size of an absent child being
0, and `size()` is the number of nodes of the tree. -/
theorem PointSet.size_of_every_node (ps : List Point) (N : Node)
    (h : within N (PointSet.build ps).m_root) :
    kdtree.size N = 1 + kdtree.size N.left + kdtree.size N.right ∧
      (PointSet.build ps).size = (PointSet.build ps).m_root.count := by
  have hwf := PointSet.well_formed_build ps
  refine ⟨?_, size_eq_count _ hwf.1⟩
  have hs := sizes_ok_of_within _ _ h hwf.1
  cases N with
  | null => exact absurd h (not_within_null _)
  | mk p xv s l r par =>
    simp only [size_mk, Node.left, Node.right, hs.1]
    omega

/-- Witness of C14: the left child of the root of the index built from (0,5), (0,3). -/
theorem PointSet.size_of_every_node_witness :
    within (.mk ⟨0, 3⟩ false 1 .null .null (some ⟨0, 5⟩))
        (PointSet.build [⟨0, 5⟩, ⟨0, 3⟩]).m_root ∧
      (kdtree.size (.mk ⟨0, 3⟩ false 1 .null .null (some ⟨0, 5⟩)) =
          1 + kdtree.size (Node.mk ⟨0, 3⟩ false 1 .null .null (some ⟨0, 5⟩)).left +
            kdtree.size (Node.mk ⟨0, 3⟩ false 1 .null .null (some ⟨0, 5⟩)).right ∧
        (PointSet.build [⟨0, 5⟩, ⟨0, 3⟩]).size = (PointSet.build [⟨0, 5⟩, ⟨0, 3⟩]).m_root.count) :=
  ⟨Or.inr (Or.inl (Or.inl rfl)),
    PointSet.size_of_every_node [⟨0, 5⟩, ⟨0, 3⟩] _ (Or.inr (Or.inl (Or.inl rfl)))⟩

/-- C20: in every index reached from the empty index by `put` calls the root has no parent,
and for every node `N` each child that is present has a parent reference that names `N`
and that `lock` resolves to `N`. -/
theorem PointSet.parent_of_every_child (ps : List Point) (N : Node)
    (h : within N (PointSet.build ps).m_root) :
    (PointSet.build ps).m_root.parent = none ∧
      (N.left = .null ∨
        (N.left.parent = N.addr ∧ lock (PointSet.build ps).m_root N.left.parent = N)) ∧
      (N.right = .null ∨
        (N.right.parent = N.addr ∧ lock (PointSet.build ps).m_root N.right.parent = N)) := by
  have hwf := PointSet.well_formed_build ps
  have hnd := PointSet.nodup_points _ hwf
  have hp := parents_ok_of_within _ _ h hwf.2.2.1
  cases N with
  | null => exact absurd h (not_within_null _)
  | mk p xv s l r par =>
    have hlock := lock_of_within _ p xv s l r par hnd h
    refine ⟨hwf.2.2.2, ?_, ?_⟩
    · rcases hp.1 with h1 | h1
      · exact Or.inl h1
      · exact Or.inr ⟨h1, by rw [Node.left, h1]; exact hlock⟩
    · rcases hp.2.1 with h1 | h1
      · exact Or.inl h1
      · exact Or.inr ⟨h1, by rw [Node.right, h1]; exact hlock⟩

/-- Witness of C20: the root of the index built from (0,5), (0,3). -/
theorem PointSet.parent_of_every_child_witness :
    within (.mk ⟨0, 5⟩ true 2 (.mk ⟨0, 3⟩ false 1 .null .null (some ⟨0, 5⟩)) .null none)
        (PointSet.build [⟨0, 5⟩, ⟨0, 3⟩]).m_root ∧
      ((PointSet.build [⟨0, 5⟩, ⟨0, 3⟩]).m_root.parent = none ∧
        ((Node.mk ⟨0, 5⟩ true 2 (.mk ⟨0, 3⟩ false 1 .null .null (some ⟨0, 5⟩)) .null none).left =
            .null ∨
          ((Node.mk ⟨0, 5⟩ true 2 (.mk ⟨0, 3⟩ false 1 .null .null (some ⟨0, 5⟩)) .null
                none).left.parent =
              (Node.mk ⟨0, 5⟩ true 2 (.mk ⟨0, 3⟩ false 1 .null .null (some ⟨0, 5⟩)) .null
                none).addr ∧
            lock (PointSet.build [⟨0, 5⟩, ⟨0, 3⟩]).m_root
                (Node.mk ⟨0, 5⟩ true 2 (.mk ⟨0, 3⟩ false 1 .null .null (some ⟨0, 5⟩)) .null
                  none).left.parent =
              .mk ⟨0, 5⟩ true 2 (.mk ⟨0, 3⟩ false 1 .null .null (some ⟨0, 5⟩)) .null none)) ∧
        ((Node.mk ⟨0, 5⟩ true 2 (.mk ⟨0, 3⟩ false 1 .null .null (some ⟨0, 5⟩)) .null none).right =
            .null ∨
          ((Node.mk ⟨0, 5⟩ true 2 (.mk ⟨0, 3⟩ false 1 .null .null (some ⟨0, 5⟩)) .null
                none).right.parent =
              (Node.mk ⟨0, 5⟩ true 2 (.mk ⟨0, 3⟩ false 1 .null .null (some ⟨0, 5⟩)) .null
                none).addr ∧
            lock (PointSet.build [⟨0, 5⟩, ⟨0, 3⟩]).m_root
                (Node.mk ⟨0, 5⟩ true 2 (.mk ⟨0, 3⟩ false 1 .null .null (some ⟨0, 5⟩)) .null
                  none).right.parent =
              .mk ⟨0, 5⟩ true 2 (.mk ⟨0, 3⟩ false 1 .null .null (some ⟨0, 5⟩)) .null none))) :=
  ⟨Or.inl rfl, PointSet.parent_of_every_child [⟨0, 5⟩, ⟨0, 3⟩] _ (Or.inl rfl)⟩

end kdtree

/-! ## The intersection test of rectangles (C17) -/

/-- C17: for all rectangles `a` and `b` with `xmin <= xmax` and `ymin <= ymax` each,
`a.intersects(b)` is true if and only if
`max(a.xmin, b.xmin) <= min(a.xmax, b.xmax)` and
`max(a.ymin, b.ymin) <= min(a.ymax, b.ymax)`, which is to say if and only if the closed
rectangles share a point. -/
theorem Rect.intersects_iff_overlap (a b : Rect)
    (ha : a.x_min ≤ a.x_max ∧ a.y_min ≤ a.y_max) (hb : b.x_min ≤ b.x_max ∧ b.y_min ≤ b.y_max) :
    (a.intersects b = true ↔
        (max a.x_min b.x_min ≤ min a.x_max b.x_max ∧
          max a.y_min b.y_min ≤ min a.y_max b.y_max)) ∧
      (a.intersects b = true ↔ ∃ q : Point, a.contains q = true ∧ b.contains q = true) := by
  have h1 : a.intersects b = true ↔
      (max a.x_min b.x_min ≤ min a.x_max b.x_max ∧
        max a.y_min b.y_min ≤ min a.y_max b.y_max) := by
    simp only [Rect.intersects, Rect.any_corner_in_rect, Rect.contains_iff, Bool.or_eq_true,
      Bool.and_eq_true, decide_eq_true_eq, max_le_iff, le_min_iff]
    omega
  refine ⟨h1, ?_⟩
  constructor
  · intro h
    have h2 := h1.1 h
    simp only [max_le_iff, le_min_iff] at h2
    refine ⟨⟨max a.x_min b.x_min, max a.y_min b.y_min⟩, ?_, ?_⟩ <;>
      simp only [Rect.contains_iff, le_max_iff, max_le_iff] <;> omega
  · rintro ⟨q, hqa, hqb⟩
    exact Rect.intersects_of_common_point a b q hqa hqb

/-- Witness of C17: the rectangles `[0,2] x [0,2]` and `[1,3] x [1,3]`. -/
theorem Rect.intersects_iff_overlap_witness :
    ((0 : Int) ≤ 2 ∧ (0 : Int) ≤ 2) ∧ ((1 : Int) ≤ 3 ∧ (1 : Int) ≤ 3) ∧
      (((⟨0, 2, 0, 2⟩ : Rect).intersects ⟨1, 3, 1, 3⟩ = true ↔
          (max (⟨0, 2, 0, 2⟩ : Rect).x_min (⟨1, 3, 1, 3⟩ : Rect).x_min ≤
              min (⟨0, 2, 0, 2⟩ : Rect).x_max (⟨1, 3, 1, 3⟩ : Rect).x_max ∧
            max (⟨0, 2, 0, 2⟩ : Rect).y_min (⟨1, 3, 1, 3⟩ : Rect).y_min ≤
              min (⟨0, 2, 0, 2⟩ : Rect).y_max (⟨1, 3, 1, 3⟩ : Rect).y_max)) ∧
        ((⟨0, 2, 0, 2⟩ : Rect).intersects ⟨1, 3, 1, 3⟩ = true ↔
          ∃ q : Point, (⟨0, 2, 0, 2⟩ : Rect).contains q = true ∧
            (⟨1, 3, 1, 3⟩ : Rect).contains q = true)) :=
  ⟨by decide, by decide,
    Rect.intersects_iff_overlap ⟨0, 2, 0, 2⟩ ⟨1, 3, 1, 3⟩ (by decide) (by decide)⟩

namespace kdtree

/-! ## Alternation of the axis flags (C18) -/

@[simp] theorem alternates_update_parent (b : Bool) (c par : Node) :
    alternates b (update_parent c par) ↔ alternates b c := by
  cases c <;> simp [update_parent, alternates]

@[simp] theorem alternates_update_node (b : Bool) (c : Node) :
    alternates b (update_node c) ↔ alternates b c := by
  cases c with
  | null => simp [update_node]
  | mk p xv s l r par => simp [update_node_mk, alternates]

theorem alternates_put (t : Node) (p : Point) (b : Bool) (h : alternates b t) :
    alternates b (put t p b) := by
  induction t generalizing b with
  | null => simp [put, alternates]
  | mk cp cx cs l r par ihl ihr =>
    obtain ⟨hx, hl, hr⟩ := h
    simp only [put]
    split_ifs
    · exact ⟨hx, hl, hr⟩
    · rw [alternates_update_node]
      exact ⟨hx, ihl _ hl, hr⟩
    · rw [alternates_update_node]
      exact ⟨hx, hl, ihr _ hr⟩

theorem PointSet.alternates_build (ps : List Point) :
    alternates true (PointSet.build ps).m_root := by
  induction ps using List.reverseRecOn with
  | nil => simp [PointSet.build, PointSet.empty_set, alternates]
  | append_singleton ps p ih =>
    rw [PointSet.build_append]
    simp only [PointSet.put, alternates_update_node]
    exact alternates_put _ _ _ ih

theorem alternates_at_depth (root : Node) :
    ∀ (b : Bool) (d : Nat) (t : Node), alternates b root → at_depth t d root →
      alternates (if d % 2 = 0 then b else !b) t := by
  induction root with
  | null => intro b d t _ h; cases d <;> exact absurd h (fun h => h)
  | mk rp rxv rs rl rr rpar ihl ihr =>
    intro b d t ha h
    cases d with
    | zero =>
      have ht : t = .mk rp rxv rs rl rr rpar := h
      rw [ht]
      simpa using ha
    | succ d =>
      have hstep : (if (d + 1) % 2 = 0 then b else !b) = (if d % 2 = 0 then !b else !(!b)) := by
        rcases Nat.mod_two_eq_zero_or_one d with h0 | h1
        · have : (d + 1) % 2 = 1 := by omega
          simp [h0, this]
        · have : (d + 1) % 2 = 0 := by omega
          simp [h1, this]
      rw [hstep]
      rcases h with h | h
      · exact ihl (!b) d t ha.2.1 h
      · exact ihr (!b) d t ha.2.2 h

theorem not_at_depth_null (root : Node) : ∀ d : Nat, ¬ at_depth .null d root := by
  induction root with
  | null => intro d h; cases d <;> exact h
  | mk rp rxv rs rl rr rpar ihl ihr =>
    intro d h
    cases d with
    | zero => exact Node.noConfusion (h : Node.null = _)
    | succ d =>
      rcases h with h | h
      · exact ihl d h
      · exact ihr d h

/-- C18: in every index reached from the empty index by `put` calls the root, when there is
one, has the axis flag x (true); a node at depth `d` has the axis flag x if and only if
`d` is even; and every child that is present has the opposite axis flag from its
parent. -/
theorem PointSet.axis_flag_by_depth (ps : List Point) (d : Nat) (N : Node)
    (h : at_depth N d (PointSet.build ps).m_root) :
    ((PointSet.build ps).m_root = .null ∨ (PointSet.build ps).m_root.x_value = true) ∧
      (N.x_value = true ↔ d % 2 = 0) ∧
      (N.left = .null ∨ N.left.x_value = !N.x_value) ∧
      (N.right = .null ∨ N.right.x_value = !N.x_value) := by
  have halt := PointSet.alternates_build ps
  have hN := alternates_at_depth _ true d N halt h
  have hroot : (PointSet.build ps).m_root = .null ∨
      (PointSet.build ps).m_root.x_value = true := by
    cases hr : (PointSet.build ps).m_root with
    | null => exact Or.inl rfl
    | mk rp rxv rs rl rr rpar =>
      rw [hr] at halt
      exact Or.inr halt.1
  cases N with
  | null => exact absurd h (not_at_depth_null _ d)
  | mk p xv s l r par =>
    obtain ⟨hx, hl, hr⟩ := hN
    refine ⟨hroot, ?_, ?_, ?_⟩
    · show xv = true ↔ d % 2 = 0
      rw [hx]
      split_ifs with hd <;> simp [hd]
    · show l = .null ∨ l.x_value = !xv
      cases l with
      | null => exact Or.inl rfl
      | mk lp lxv ls ll lr lpar =>
        right
        show lxv = !xv
        rw [hl.1, hx]
    · show r = .null ∨ r.x_value = !xv
      cases r with
      | null => exact Or.inl rfl
      | mk lp lxv ls ll lr lpar =>
        right
        show lxv = !xv
        rw [hr.1, hx]

/-- Witness of C18: the left child, at depth 1, of the root of the index built from (0,5),
(0,3). -/
theorem PointSet.axis_flag_by_depth_witness :
    at_depth (.mk ⟨0, 3⟩ false 1 .null .null (some ⟨0, 5⟩)) 1
        (PointSet.build [⟨0, 5⟩, ⟨0, 3⟩]).m_root ∧
      (((PointSet.build [⟨0, 5⟩, ⟨0, 3⟩]).m_root = .null ∨
          (PointSet.build [⟨0, 5⟩, ⟨0, 3⟩]).m_root.x_value = true) ∧
        ((Node.mk ⟨0, 3⟩ false 1 .null .null (some ⟨0, 5⟩)).x_value = true ↔ 1 % 2 = 0) ∧
        ((Node.mk ⟨0, 3⟩ false 1 .null .null (some ⟨0, 5⟩)).left = .null ∨
          (Node.mk ⟨0, 3⟩ false 1 .null .null (some ⟨0, 5⟩)).left.x_value =
            !(Node.mk ⟨0, 3⟩ false 1 .null .null (some ⟨0, 5⟩)).x_value) ∧
        ((Node.mk ⟨0, 3⟩ false 1 .null .null (some ⟨0, 5⟩)).right = .null ∨
          (Node.mk ⟨0, 3⟩ false 1 .null .null (some ⟨0, 5⟩)).right.x_value =
            !(Node.mk ⟨0, 3⟩ false 1 .null .null (some ⟨0, 5⟩)).x_value)) :=
  ⟨Or.inl rfl, PointSet.axis_flag_by_depth [⟨0, 5⟩, ⟨0, 3⟩] 1 _ (Or.inl rfl)⟩

end kdtree

namespace kdtree

/-! ## The iterator visits the nodes in in-order (C15) -/

theorem walk_null (root : Node) (F n : Nat) : walk root F (n + 1) .null = some [] := rfl

theorem walk_mk (root : Node) (F n : Nat) (p : Point) (xv : Bool) (s : Nat) (l r : Node)
    (par : Option Point) (next : Node)
    (h : next_node root F (.mk p xv s l r par) = some next) :
    walk root F (n + 1) (.mk p xv s l r par) =
      (walk root F n next).map (fun rest => .mk p xv s l r par :: rest) := by
  simp only [walk, h]
  cases walk root F n next <;> rfl

/-- The walk started at the leftmost node of a subtree `t` meets the nodes of `t` in
in-order and goes on from the node reached by climbing out of `t`. -/
theorem walk_subtree (root : Node) (F : Nat) (hnd : root.points.Nodup)
    (hpo : parents_ok root) (t : Node) :
    ∀ (f : Nat) (nxt : Node) (n : Nat), within t root →
      climb root f t t.parent = some nxt → f + t.count ≤ F →
      walk root F (n + t.count) (left t) =
        (walk root F n nxt).map (fun rest => t.in_order ++ rest) := by
  induction t with
  | null => intro f nxt n h; exact absurd h (not_within_null root)
  | mk p xv s l r par ihl ihr =>
    intro f nxt n hw hc hF
    simp only [Node.count] at hF
    have hnode : walk root F (n + r.count + 1) (.mk p xv s l r par) =
        (walk root F n nxt).map (fun rest => .mk p xv s l r par :: (r.in_order ++ rest)) := by
      by_cases hr : r = .null
      · subst hr
        have hnx : next_node root F (.mk p xv s l .null par) = some nxt := by
          simp only [next_node, Node.right, Node.parent]
          exact climb_mono _ _ _ _ _ hc F (by omega)
        rw [Node.count, Nat.add_zero, walk_mk _ _ _ _ _ _ _ _ _ _ hnx]
        simp [Node.in_order]
      · have hnx : next_node root F (.mk p xv s l r par) = some (left r) := by
          cases r with
          | null => exact absurd rfl hr
          | mk rp rxv rs rl rr rpar => simp [next_node, Node.right]
        rw [walk_mk _ _ _ _ _ _ _ _ _ _ hnx]
        rw [ihr (f + 1) nxt n (within_trans_right _ _ _ _ _ _ _ _ hw
          (by cases r with
              | null => exact absurd rfl hr
              | mk rp rxv rs rl rr rpar => exact within_self _ _ _ _ _ _))
          (by rw [climb_from_right root p xv s l r par hnd hpo hw hr f]; exact hc) (by omega)]
        rw [Option.map_map]
        rfl
    by_cases hl : l = .null
    · subst hl
      rw [left_mk_null]
      have hstep : n + (Node.mk p xv s .null r par).count = n + r.count + 1 := by
        simp only [Node.count]; omega
      rw [hstep, hnode]
      simp [Node.in_order]
    · rw [left_mk_mk _ _ _ _ _ _ hl]
      have hstep : n + (Node.mk p xv s l r par).count = (n + r.count + 1) + l.count := by
        simp only [Node.count]; omega
      rw [hstep, ihl 1 (.mk p xv s l r par) (n + r.count + 1)
        (within_trans_left _ _ _ _ _ _ _ _ hw
          (by cases l with
              | null => exact absurd rfl hl
              | mk lp lxv ls ll lr lpar => exact within_self _ _ _ _ _ _))
        (climb_from_left root p xv s l r par hnd hpo hw hl 0) (by omega)]
      rw [hnode, Option.map_map]
      congr 1
      funext rest
      simp [Node.in_order]

theorem map_addr_in_order (t : Node) : t.in_order.map Node.addr = t.points.map some := by
  induction t with
  | null => rfl
  | mk p xv s l r par ihl ihr =>
    simp [Node.in_order, Node.points, ihl, ihr, Node.addr]

theorem length_in_order (t : Node) : t.in_order.length = t.count := by
  induction t with
  | null => rfl
  | mk p xv s l r par ihl ihr =>
    simp only [Node.in_order, Node.count, List.length_append, List.length_cons, ihl, ihr]
    omega

theorem mem_in_order_iff (N t : Node) : N ∈ t.in_order ↔ within N t := by
  induction t with
  | null => simp [Node.in_order, within]
  | mk p xv s l r par ihl ihr =>
    simp only [Node.in_order, within, List.mem_append, List.mem_cons, ihl, ihr]
    tauto

/-- C15: on every index built by `put` calls, the iterator started at `begin()` and advanced
by `next_node` until it is null meets the nodes of the tree in recursive in-order; the
sequence met has `size()` nodes, one `next_node` each, holds no node twice and holds
exactly the nodes of the tree.  On the empty index `begin()` is `end()`. -/
theorem PointSet.walk_is_in_order (ps : List Point) :
    walk (PointSet.build ps).m_root (PointSet.build ps).fuel ((PointSet.build ps).size + 1)
        (PointSet.build ps).begin = some (PointSet.build ps).m_root.in_order ∧
      (PointSet.build ps).m_root.in_order.length = (PointSet.build ps).size ∧
      (PointSet.build ps).m_root.in_order.Nodup ∧
      (∀ N : Node, N ∈ (PointSet.build ps).m_root.in_order ↔
        within N (PointSet.build ps).m_root) ∧
      PointSet.empty_set.begin = PointSet.past_the_end := by
  have hwf := PointSet.well_formed_build ps
  obtain ⟨hs, hord, hpo, hroot⟩ := hwf
  have hnd := nodup_points_of_ordered _ hord
  have hsize : (PointSet.build ps).size = (PointSet.build ps).m_root.count :=
    size_eq_count _ hs
  refine ⟨?_, ?_, ?_, fun N => mem_in_order_iff N _, rfl⟩
  · rw [hsize]
    unfold PointSet.begin PointSet.fuel
    cases hr : (PointSet.build ps).m_root with
    | null => rfl
    | mk p xv sz l r par =>
      rw [hr] at hnd hpo hroot
      have hc : climb (.mk p xv sz l r par) 1 (.mk p xv sz l r par)
          (Node.mk p xv sz l r par).parent = some .null := by
        rw [hroot]; rfl
      have := walk_subtree (.mk p xv sz l r par) ((Node.mk p xv sz l r par).count + 1)
        hnd hpo (.mk p xv sz l r par) 1 .null 1 (within_self _ _ _ _ _ _) hc (by omega)
      rw [Nat.add_comm 1] at this
      rw [this]
      simp [walk]
  · rw [length_in_order, hsize]
  · apply List.Nodup.of_map Node.addr
    rw [map_addr_in_order]
    exact hnd.map (Option.some_injective _)

end kdtree

namespace kdtree

/-! ## The single nearest search against the branch-and-bound of the specification (C16) -/

set_option maxRecDepth 100000 in
/-- C16, the code at a failing input: on the tree built from (1,0), (-2,3), (1,3) and the
query point (0,3), `nearest(node, nearest_node, p)` started at the root returns (-2,3)
and the branch-and-bound procedure of the specification returns (1,3).  At the root the
code compares the best distance 2 with `|0 - (-2)|`, the distance to the coordinate of
the best node, where the procedure compares it with `|0 - 1|`, the distance to the
splitting line, and it does not explore the right child. -/
theorem nearest_differs_from_reference :
    nearest (PointSet.build [⟨1, 0⟩, ⟨-2, 3⟩, ⟨1, 3⟩]).m_root ⟨1, 0⟩ ⟨0, 3⟩ = ⟨-2, 3⟩ ∧
      nearest_reference (PointSet.build [⟨1, 0⟩, ⟨-2, 3⟩, ⟨1, 3⟩]).m_root ⟨1, 0⟩ ⟨0, 3⟩ =
        ⟨1, 3⟩ := by
  decide

end kdtree

namespace kdtree

/-! ## What `put` changes in the tree (C19) -/

theorem node_at_null (path : List Bool) : node_at .null path = .null := by
  cases path <;> rfl

theorem node_at_nil (t : Node) : node_at t [] = t := by
  cases t <;> rfl

theorem node_at_cons_true (p : Point) (xv : Bool) (s : Nat) (l r : Node) (par : Option Point)
    (rest : List Bool) : node_at (.mk p xv s l r par) (true :: rest) = node_at l rest := by
  simp [node_at]

theorem node_at_cons_false (p : Point) (xv : Bool) (s : Nat) (l r : Node) (par : Option Point)
    (rest : List Bool) : node_at (.mk p xv s l r par) (false :: rest) = node_at r rest := by
  simp [node_at]

theorem node_at_update_parent_cons (c n : Node) (b : Bool) (rest : List Bool) :
    node_at (update_parent c n) (b :: rest) = node_at c (b :: rest) := by
  cases c <;> rfl

theorem contains_false_left (cp : Point) (cx : Bool) (cs : Nat) (l r : Node)
    (par : Option Point) (p : Point) (h : contains (.mk cp cx cs l r par) p = false)
    (hg : goes_left p cp cx = true) : p.eq cp = false ∧ contains l p = false := by
  simp only [contains, Point.eq_comm cp p] at h
  by_cases h1 : p.eq cp = true
  · simp [h1] at h
  · simp only [h1, hg, Bool.false_eq_true, if_true, if_false] at h
    exact ⟨by simpa using h1, h⟩

theorem contains_false_right (cp : Point) (cx : Bool) (cs : Nat) (l r : Node)
    (par : Option Point) (p : Point) (h : contains (.mk cp cx cs l r par) p = false)
    (hg : ¬ goes_left p cp cx = true) : p.eq cp = false ∧ contains r p = false := by
  simp only [contains, Point.eq_comm cp p] at h
  by_cases h1 : p.eq cp = true
  · simp [h1] at h
  · simp only [h1, hg, Bool.false_eq_true, if_false] at h
    exact ⟨by simpa using h1, h⟩

/-- The frame of `put(current, point, x_value)` for a point that `contains` does not find:
one leaf is added at an absent slot, no other slot is filled, and a node that was there
keeps its point, its axis flag and, below the root of the subtree, its parent reference;
its size grows by one on the path to the leaf. -/
theorem put_frame (t : Node) (p : Point) :
    ∀ (xv : Bool), sizes_ok t → parents_ok t → contains t p = false →
      ∃ slot : List Bool,
        node_at t slot = .null ∧
        ((slot = [] ∧ t = .null) ∨
          ∃ (up : List Bool) (b : Bool), slot = up ++ [b] ∧ node_at t up ≠ .null) ∧
        (∃ (f : Bool) (par : Option Point),
          node_at (put t p xv) slot = .mk p f 1 .null .null par) ∧
        (∀ path : List Bool, path ≠ slot → node_at t path = .null →
          node_at (put t p xv) path = .null) ∧
        (∀ (path : List Bool) (q : Point) (f : Bool) (s : Nat) (l r : Node)
            (par : Option Point), node_at t path = .mk q f s l r par →
          ∃ (l1 r1 : Node) (par1 : Option Point),
            node_at (put t p xv) path =
              .mk q f (if path <+: slot then s + 1 else s) l1 r1 par1 ∧
            (path ≠ [] → par1 = par) ∧ (path = [] → par1 = par)) := by
  induction t with
  | null =>
    intro xv _ _ _
    refine ⟨[], rfl, Or.inl ⟨rfl, rfl⟩, ⟨xv, none, rfl⟩, ?_, ?_⟩
    · intro path hne _
      cases path with
      | nil => exact absurd rfl hne
      | cons b rest => cases b <;> simp [put, node_at, node_at_null]
    · intro path q f s l r par h
      rw [node_at_null] at h
      exact Node.noConfusion h
  | mk cp cx cs l r par ihl ihr =>
    intro xv hs hp hc
    by_cases hg : goes_left p cp cx = true
    · -- the point goes to the left child
      obtain ⟨hne, hcl⟩ := contains_false_left cp cx cs l r par p hc hg
      obtain ⟨slot, hA, hA1, ⟨f0, par0, hB⟩, hC, hD⟩ := ihl (!xv) hs.2.1 hp.2.2.1 hcl
      have hput : put (.mk cp cx cs l r par) p xv =
          .mk cp cx (size (put l p (!xv)) + size r + 1)
            (update_parent (put l p (!xv)) (.mk cp cx cs (put l p (!xv)) r par))
            (update_parent r (.mk cp cx cs (put l p (!xv)) r par)) par := by
        simp only [put, hne, hg, Bool.false_eq_true, if_true, if_false, update_node_mk]
      have hsz : size (put l p (!xv)) = size l + 1 := by
        rw [size_put l p _ hs.2.1, hcl]; simp
      refine ⟨true :: slot, by rw [node_at_cons_true]; exact hA, ?_, ?_, ?_, ?_⟩
      · right
        rcases hA1 with ⟨h1, _⟩ | ⟨up, b, h1, h2⟩
        · exact ⟨[], true, by rw [h1]; rfl, by simp [node_at]⟩
        · exact ⟨true :: up, b, by rw [h1]; rfl, by rw [node_at_cons_true]; exact h2⟩
      · rw [hput, node_at_cons_true]
        cases slot with
        | nil =>
          have hB0 : put l p (!xv) = .mk p f0 1 .null .null par0 := by
                rw [node_at_nil] at hB; exact hB
          rw [hB0]
          exact ⟨f0, _, rfl⟩
        | cons b rest =>
          rw [node_at_update_parent_cons]
          exact ⟨f0, par0, hB⟩
      · intro path hpath hnull
        rw [hput]
        cases path with
        | nil => exact Node.noConfusion hnull
        | cons b rest =>
          cases b with
          | true =>
            rw [node_at_cons_true] at hnull ⊢
            have hrest : rest ≠ slot := fun e => hpath (by rw [e])
            have h1 := hC rest hrest hnull
            cases rest with
            | nil =>
              have h2 : put l p (!xv) = .null := by
                rw [node_at_nil] at h1; exact h1
              rw [h2]; rfl
            | cons b1 rest1 => rw [node_at_update_parent_cons]; exact h1
          | false =>
            rw [node_at_cons_false] at hnull ⊢
            cases rest with
            | nil =>
              have h2 : r = .null := by
                rw [node_at_nil] at hnull; exact hnull
              rw [h2]; rfl
            | cons b1 rest1 => rw [node_at_update_parent_cons]; exact hnull
      · intro path q f s l0 r0 par1 hnode
        rw [hput]
        cases path with
        | nil =>
          have hT : Node.mk cp cx cs l r par = .mk q f s l0 r0 par1 := hnode
          injection hT with e1 e2 e3 e4 e5 e6
          refine ⟨update_parent (put l p (!xv)) (.mk cp cx cs (put l p (!xv)) r par),
            update_parent r (.mk cp cx cs (put l p (!xv)) r par), par, ?_,
            fun _ => e6, fun _ => e6⟩
          have hpre : ([] : List Bool) <+: true :: slot := List.nil_prefix
          rw [node_at_nil, if_pos hpre, ← e1, ← e2, ← e3, hsz, hs.1]
          congr 1
          omega
        | cons b rest =>
          cases b with
          | true =>
            rw [node_at_cons_true] at hnode ⊢
            obtain ⟨l1, r1, par2, h1, h2, h3⟩ := hD rest q f s l0 r0 par1 hnode
            have hpre : (true :: rest <+: true :: slot) ↔ (rest <+: slot) := by
              simp [List.cons_prefix_cons]
            have hif : (if true :: rest <+: true :: slot then s + 1 else s) =
                (if rest <+: slot then s + 1 else s) := by
              by_cases hr : rest <+: slot
              · rw [if_pos hr, if_pos (hpre.2 hr)]
              · rw [if_neg hr, if_neg (fun h => hr (hpre.1 h))]
            rw [hif]
            cases rest with
            | nil =>
              have h4 : put l p (!xv) = .mk q f (if [] <+: slot then s + 1 else s) l1 r1 par2 := by
                rw [node_at_nil] at h1; exact h1
              have hl : l = .mk q f s l0 r0 par1 := by
                rw [node_at_nil] at hnode; exact hnode
              have hpar : par1 = some cp := by
                rcases hp.1 with h5 | h5
                · rw [hl] at h5; exact Node.noConfusion h5
                · rw [hl] at h5; exact h5
              rw [h4]
              refine ⟨l1, r1, some cp, rfl, fun _ => hpar.symm, fun h => absurd h (by simp)⟩
            | cons b1 rest1 =>
              rw [node_at_update_parent_cons]
              exact ⟨l1, r1, par2, h1, fun _ => h2 (by simp), fun h => absurd h (by simp)⟩
          | false =>
            rw [node_at_cons_false] at hnode ⊢
            have hif : (if false :: rest <+: true :: slot then s + 1 else s) = s := by
              rw [if_neg]
              simp [List.cons_prefix_cons]
            rw [hif]
            cases rest with
            | nil =>
              have hr : r = .mk q f s l0 r0 par1 := by
                rw [node_at_nil] at hnode; exact hnode
              have hpar : par1 = some cp := by
                rcases hp.2.1 with h5 | h5
                · rw [hr] at h5; exact Node.noConfusion h5
                · rw [hr] at h5; exact h5
              rw [hr]
              exact ⟨l0, r0, some cp, rfl, fun _ => hpar.symm, fun h => absurd h (by simp)⟩
            | cons b1 rest1 =>
              rw [node_at_update_parent_cons]
              exact ⟨l0, r0, par1, hnode, fun _ => rfl, fun _ => rfl⟩
    · -- the point goes to the right child
      obtain ⟨hne, hcr⟩ := contains_false_right cp cx cs l r par p hc hg
      obtain ⟨slot, hA, hA1, ⟨f0, par0, hB⟩, hC, hD⟩ := ihr (!xv) hs.2.2 hp.2.2.2 hcr
      have hput : put (.mk cp cx cs l r par) p xv =
          .mk cp cx (size l + size (put r p (!xv)) + 1)
            (update_parent l (.mk cp cx cs l (put r p (!xv)) par))
            (update_parent (put r p (!xv)) (.mk cp cx cs l (put r p (!xv)) par)) par := by
        simp only [put, hne, hg, Bool.false_eq_true, if_false, update_node_mk]
      have hsz : size (put r p (!xv)) = size r + 1 := by
        rw [size_put r p _ hs.2.2, hcr]; simp
      refine ⟨false :: slot, by rw [node_at_cons_false]; exact hA, ?_, ?_, ?_, ?_⟩
      · right
        rcases hA1 with ⟨h1, _⟩ | ⟨up, b, h1, h2⟩
        · exact ⟨[], false, by rw [h1]; rfl, by simp [node_at]⟩
        · exact ⟨false :: up, b, by rw [h1]; rfl, by rw [node_at_cons_false]; exact h2⟩
      · rw [hput, node_at_cons_false]
        cases slot with
        | nil =>
          have hB0 : put r p (!xv) = .mk p f0 1 .null .null par0 := by
                rw [node_at_nil] at hB; exact hB
          rw [hB0]
          exact ⟨f0, _, rfl⟩
        | cons b rest =>
          rw [node_at_update_parent_cons]
          exact ⟨f0, par0, hB⟩
      · intro path hpath hnull
        rw [hput]
        cases path with
        | nil => exact Node.noConfusion hnull
        | cons b rest =>
          cases b with
          | false =>
            rw [node_at_cons_false] at hnull ⊢
            have hrest : rest ≠ slot := fun e => hpath (by rw [e])
            have h1 := hC rest hrest hnull
            cases rest with
            | nil =>
              have h2 : put r p (!xv) = .null := by
                rw [node_at_nil] at h1; exact h1
              rw [h2]; rfl
            | cons b1 rest1 => rw [node_at_update_parent_cons]; exact h1
          | true =>
            rw [node_at_cons_true] at hnull ⊢
            cases rest with
            | nil =>
              have h2 : l = .null := by
                rw [node_at_nil] at hnull; exact hnull
              rw [h2]; rfl
            | cons b1 rest1 => rw [node_at_update_parent_cons]; exact hnull
      · intro path q f s l0 r0 par1 hnode
        rw [hput]
        cases path with
        | nil =>
          have hT : Node.mk cp cx cs l r par = .mk q f s l0 r0 par1 := hnode
          injection hT with e1 e2 e3 e4 e5 e6
          refine ⟨update_parent l (.mk cp cx cs l (put r p (!xv)) par),
            update_parent (put r p (!xv)) (.mk cp cx cs l (put r p (!xv)) par), par, ?_,
            fun _ => e6, fun _ => e6⟩
          have hpre : ([] : List Bool) <+: false :: slot := List.nil_prefix
          rw [node_at_nil, if_pos hpre, ← e1, ← e2, ← e3, hsz, hs.1]
          congr 1
        | cons b rest =>
          cases b with
          | false =>
            rw [node_at_cons_false] at hnode ⊢
            obtain ⟨l1, r1, par2, h1, h2, h3⟩ := hD rest q f s l0 r0 par1 hnode
            have hpre : (false :: rest <+: false :: slot) ↔ (rest <+: slot) := by
              simp [List.cons_prefix_cons]
            have hif : (if false :: rest <+: false :: slot then s + 1 else s) =
                (if rest <+: slot then s + 1 else s) := by
              by_cases hr : rest <+: slot
              · rw [if_pos hr, if_pos (hpre.2 hr)]
              · rw [if_neg hr, if_neg (fun h => hr (hpre.1 h))]
            rw [hif]
            cases rest with
            | nil =>
              have h4 : put r p (!xv) = .mk q f (if [] <+: slot then s + 1 else s) l1 r1 par2 := by
                rw [node_at_nil] at h1; exact h1
              have hl : r = .mk q f s l0 r0 par1 := by
                rw [node_at_nil] at hnode; exact hnode
              have hpar : par1 = some cp := by
                rcases hp.2.1 with h5 | h5
                · rw [hl] at h5; exact Node.noConfusion h5
                · rw [hl] at h5; exact h5
              rw [h4]
              refine ⟨l1, r1, some cp, rfl, fun _ => hpar.symm, fun h => absurd h (by simp)⟩
            | cons b1 rest1 =>
              rw [node_at_update_parent_cons]
              exact ⟨l1, r1, par2, h1, fun _ => h2 (by simp), fun h => absurd h (by simp)⟩
          | true =>
            rw [node_at_cons_true] at hnode ⊢
            have hif : (if true :: rest <+: false :: slot then s + 1 else s) = s := by
              rw [if_neg]
              simp [List.cons_prefix_cons]
            rw [hif]
            cases rest with
            | nil =>
              have hr : l = .mk q f s l0 r0 par1 := by
                rw [node_at_nil] at hnode; exact hnode
              have hpar : par1 = some cp := by
                rcases hp.1 with h5 | h5
                · rw [hr] at h5; exact Node.noConfusion h5
                · rw [hr] at h5; exact h5
              rw [hr]
              exact ⟨l0, r0, some cp, rfl, fun _ => hpar.symm, fun h => absurd h (by simp)⟩
            | cons b1 rest1 =>
              rw [node_at_update_parent_cons]
              exact ⟨l0, r0, par1, hnode, fun _ => rfl, fun _ => rfl⟩

end kdtree

namespace kdtree

/-- C19: for every index reached by `put` calls and every point `p` that `contains` does not
find, the tree after `put(p)` is the tree before with one new leaf holding `p`: there is
a child slot `slot`, absent before and either the root slot of the empty index or a
child slot of a node that was there, that holds the leaf after; no other absent slot is
filled; and every node that was there is found after at the same path from the root with
the same point, the same axis flag and the same parent reference, its size one more if
its path leads to the new leaf and the same otherwise. -/
theorem PointSet.put_adds_one_leaf (ps : List Point) (p : Point)
    (h : (PointSet.build ps).contains p = false) :
    ∃ slot : List Bool,
      node_at (PointSet.build ps).m_root slot = .null ∧
      ((slot = [] ∧ (PointSet.build ps).m_root = .null) ∨
        ∃ (up : List Bool) (b : Bool),
          slot = up ++ [b] ∧ node_at (PointSet.build ps).m_root up ≠ .null) ∧
      (∃ (f : Bool) (par : Option Point),
        node_at ((PointSet.build ps).put p).m_root slot = .mk p f 1 .null .null par) ∧
      (∀ path : List Bool, path ≠ slot → node_at (PointSet.build ps).m_root path = .null →
        node_at ((PointSet.build ps).put p).m_root path = .null) ∧
      (∀ (path : List Bool) (q : Point) (f : Bool) (s : Nat) (l r : Node) (par : Option Point),
        node_at (PointSet.build ps).m_root path = .mk q f s l r par →
        ∃ l1 r1 : Node,
          node_at ((PointSet.build ps).put p).m_root path =
            .mk q f (if path <+: slot then s + 1 else s) l1 r1 par) := by
  have hwf := PointSet.well_formed_build ps
  have hroot : ((PointSet.build ps).put p).m_root =
      kdtree.put (PointSet.build ps).m_root p true := by
    simp only [PointSet.put]
    exact update_node_fixed _ (sizes_ok_put _ _ _ hwf.1) (parents_ok_put _ _ _ hwf.2.2.1)
  obtain ⟨slot, hA, hA1, hB, hC, hD⟩ :=
    put_frame (PointSet.build ps).m_root p true hwf.1 hwf.2.2.1 h
  rw [hroot]
  refine ⟨slot, hA, hA1, hB, hC, ?_⟩
  intro path q f s l r par hnode
  obtain ⟨l1, r1, par1, h1, h2, h3⟩ := hD path q f s l r par hnode
  have hpar : par1 = par := by
    by_cases hp : path = []
    · exact h3 hp
    · exact h2 hp
  rw [hpar] at h1
  exact ⟨l1, r1, h1⟩

set_option maxRecDepth 100000 in
/-- Witness of C19: the point (0,3) put into the index built from (0,5). -/
theorem PointSet.put_adds_one_leaf_witness :
    (PointSet.build [⟨0, 5⟩]).contains ⟨0, 3⟩ = false ∧
      ∃ slot : List Bool,
        node_at (PointSet.build [⟨0, 5⟩]).m_root slot = .null ∧
        ((slot = [] ∧ (PointSet.build [⟨0, 5⟩]).m_root = .null) ∨
          ∃ (up : List Bool) (b : Bool),
            slot = up ++ [b] ∧ node_at (PointSet.build [⟨0, 5⟩]).m_root up ≠ .null) ∧
        (∃ (f : Bool) (par : Option Point),
          node_at ((PointSet.build [⟨0, 5⟩]).put ⟨0, 3⟩).m_root slot =
            .mk ⟨0, 3⟩ f 1 .null .null par) ∧
        (∀ path : List Bool, path ≠ slot →
          node_at (PointSet.build [⟨0, 5⟩]).m_root path = .null →
          node_at ((PointSet.build [⟨0, 5⟩]).put ⟨0, 3⟩).m_root path = .null) ∧
        (∀ (path : List Bool) (q : Point) (f : Bool) (s : Nat) (l r : Node)
            (par : Option Point),
          node_at (PointSet.build [⟨0, 5⟩]).m_root path = .mk q f s l r par →
          ∃ l1 r1 : Node,
            node_at ((PointSet.build [⟨0, 5⟩]).put ⟨0, 3⟩).m_root path =
              .mk q f (if path <+: slot then s + 1 else s) l1 r1 par) :=
  ⟨by decide, PointSet.put_adds_one_leaf [⟨0, 5⟩] ⟨0, 3⟩ (by decide)⟩

end kdtree

namespace kdtree

/-! ## The partition kept by `put` and the borders of `range` (C21) -/

/-- The result of `range` is what its calls, taken in order, put into the result set. -/
theorem range_eq_foldl_range_calls (current : Node) (rect : Rect) :
    ∀ (acc : PointSet) (border : Rect),
      range acc current rect border =
        (range_calls current rect border).foldl (range_visit rect) acc := by
  induction current with
  | null => intro acc border; rfl
  | mk cp cx cs l r par ihl ihr =>
    intro acc border
    simp only [range, range_calls, List.foldl_cons, List.foldl_append]
    have hv : range_visit rect acc (Node.mk cp cx cs l r par, border) =
        if rect.contains cp = true then acc.put cp else acc := rfl
    rw [hv]
    split_ifs <;> simp only [List.foldl_nil, ihl, ihr]

theorem make_intersection_left_ok (border : Rect) (cp : Point) (cx : Bool)
    (hb : border.contains cp = true) :
    (make_intersection border cp cx true).contains cp = true := by
  rw [Rect.contains_iff] at hb ⊢
  cases cx <;>
    simp only [make_intersection, Rect.ofCorners, Bool.not_true, Bool.not_false, Bool.and_false,
      Bool.and_true, Bool.false_and, Bool.true_and, Bool.false_eq_true, if_false, if_true,
      le_min_iff] <;>
    omega

theorem make_intersection_right_ok (border : Rect) (cp : Point) (cx : Bool)
    (hb : border.contains cp = true) :
    (make_intersection border cp cx false).contains cp = true := by
  rw [Rect.contains_iff] at hb ⊢
  cases cx <;>
    simp only [make_intersection, Rect.ofCorners, Bool.not_true, Bool.not_false, Bool.and_false,
      Bool.and_true, Bool.false_and, Bool.true_and, Bool.false_eq_true, if_false, if_true,
      max_le_iff] <;>
    omega

theorem bounds_of_contains (b : Rect) (q : Point) (h : b.contains q = true) :
    b.x_min ≤ b.x_max ∧ b.y_min ≤ b.y_max := by
  rw [Rect.contains_iff] at h
  omega

/-- Every call of `range` below a call whose border holds the points of its subtree is
given a border that holds the points of its own subtree and has `xmin <= xmax` and
`ymin <= ymax`. -/
theorem range_calls_border (current : Node) (rect : Rect) :
    ∀ border : Rect, ordered current →
      (∀ q ∈ current.points, border.contains q = true) →
      (border.x_min ≤ border.x_max ∧ border.y_min ≤ border.y_max) →
      ∀ c ∈ range_calls current rect border,
        (∀ q ∈ c.1.points, c.2.contains q = true) ∧
          c.2.x_min ≤ c.2.x_max ∧ c.2.y_min ≤ c.2.y_max := by
  induction current with
  | null =>
    intro border _ _ hwf c hc
    simp only [range_calls, List.mem_singleton] at hc
    subst hc
    exact ⟨by simp [Node.points], hwf⟩
  | mk cp cx cs l r par ihl ihr =>
    intro border hord hin hwf c hc
    obtain ⟨hL, hR, hl, hr⟩ := hord
    have hcp : border.contains cp = true := hin cp (by simp [Node.points])
    have hinl : ∀ a ∈ l.points, (make_intersection border cp cx true).contains a = true :=
      fun a ha => contains_make_intersection_left _ _ _ _
        (hin a (by simp [Node.points, ha])) (hL a ha).1
    have hinr : ∀ a ∈ r.points, (make_intersection border cp cx false).contains a = true :=
      fun a ha => contains_make_intersection_right _ _ _ _
        (hin a (by simp [Node.points, ha])) (hR a ha).1
    have hwfl := bounds_of_contains _ _ (make_intersection_left_ok border cp cx hcp)
    have hwfr := bounds_of_contains _ _ (make_intersection_right_ok border cp cx hcp)
    simp only [range_calls, List.mem_cons, List.mem_append] at hc
    rcases hc with hc | hc | hc
    · subst hc
      exact ⟨hin, hwf⟩
    · split_ifs at hc
      · exact ihl _ hl hinl hwfl c hc
      · simp at hc
    · split_ifs at hc
      · exact ihr _ hr hinr hwfr c hc
      · simp at hc

end kdtree

namespace kdtree

theorem whole_plane_bounds :
    PointSet.whole_plane.x_min ≤ PointSet.whole_plane.x_max ∧
      PointSet.whole_plane.y_min ≤ PointSet.whole_plane.y_max := by
  decide

/-- C21: in every index reached by `put` calls, the coordinates being finite doubles, for
every node `N`: if `N` splits by x, every point of the left subtree is strictly below
`N.point` in the lexicographic (x, y) order of `operator<` and every point of the right
subtree strictly above; if `N` splits by y, every point `q` of the left subtree satisfies
`q.compare_y(N.point)` and every point of the right subtree does not; so on the axis of
`N` the points of the left subtree have a coordinate `<=` and those of the right subtree
a coordinate `>=` that of `N.point`.  For every query rectangle the result of `range` is
what its recursive calls put, and every such call is given a border that holds every
point of its subtree and has `xmin <= xmax` and `ymin <= ymax`. -/
theorem PointSet.partition_and_range_borders (ps : List Point) (hfin : ∀ q ∈ ps, q.finite)
    (p : Point) (xv : Bool) (s : Nat) (l r : Node) (par : Option Point)
    (h : within (.mk p xv s l r par) (PointSet.build ps).m_root) :
    (xv = true →
        (∀ q ∈ l.points, q.lt p = true) ∧ (∀ q ∈ r.points, p.lt q = true)) ∧
      (xv = false →
        (∀ q ∈ l.points, q.compare_y p = true) ∧ (∀ q ∈ r.points, q.compare_y p = false)) ∧
      (xv = true → (∀ q ∈ l.points, q.x ≤ p.x) ∧ (∀ q ∈ r.points, p.x ≤ q.x)) ∧
      (xv = false → (∀ q ∈ l.points, q.y ≤ p.y) ∧ (∀ q ∈ r.points, p.y ≤ q.y)) ∧
      ∀ rect : Rect,
        (PointSet.build ps).range rect =
            ((PointSet.build ps).range_calls rect).foldl (range_visit rect)
              PointSet.empty_set ∧
          ∀ c ∈ (PointSet.build ps).range_calls rect,
            (∀ q ∈ c.1.points, c.2.contains q = true) ∧
              c.2.x_min ≤ c.2.x_max ∧ c.2.y_min ≤ c.2.y_max := by
  have hwf := PointSet.well_formed_build ps
  have ho := ordered_of_within _ _ h hwf.2.1
  obtain ⟨hL, hR, _, _⟩ := ho
  refine ⟨?_, ?_, ?_, ?_, ?_⟩
  · intro hx
    subst hx
    refine ⟨fun q hq => by simpa [goes_left] using (hL q hq).1, fun q hq => ?_⟩
    have h1 : ¬ q.lt p = true := by simpa [goes_left] using (hR q hq).1
    by_contra h2
    exact (hR q hq).2 (Point.eq_of_not_lt q p h1 h2)
  · intro hx
    subst hx
    exact ⟨fun q hq => by simpa [goes_left] using (hL q hq).1,
      fun q hq => by simpa [goes_left] using (hR q hq).1⟩
  · intro hx
    exact ⟨fun q hq => (goes_left_true_bound q p xv (hL q hq).1).1 hx,
      fun q hq => (goes_left_false_bound q p xv (hR q hq).1).1 hx⟩
  · intro hx
    exact ⟨fun q hq => (goes_left_true_bound q p xv (hL q hq).1).2 hx,
      fun q hq => (goes_left_false_bound q p xv (hR q hq).1).2 hx⟩
  · intro rect
    refine ⟨range_eq_foldl_range_calls _ rect _ _, ?_⟩
    exact range_calls_border (PointSet.build ps).m_root rect PointSet.whole_plane hwf.2.1
      (fun q hq => whole_plane_contains q (hfin q ((PointSet.mem_points_build ps q).1 hq)))
      whole_plane_bounds

/-- Witness of C21: the root of the index built from (0,5), (0,3). -/
theorem PointSet.partition_and_range_borders_witness :
    (∀ q ∈ [(⟨0, 5⟩ : Point), ⟨0, 3⟩], q.finite) ∧
      within (.mk ⟨0, 5⟩ true 2 (.mk ⟨0, 3⟩ false 1 .null .null (some ⟨0, 5⟩)) .null none)
        (PointSet.build [⟨0, 5⟩, ⟨0, 3⟩]).m_root ∧
      ((true = true →
          (∀ q ∈ (Node.mk ⟨0, 3⟩ false 1 .null .null (some ⟨0, 5⟩)).points,
              q.lt ⟨0, 5⟩ = true) ∧
            (∀ q ∈ Node.null.points, (⟨0, 5⟩ : Point).lt q = true)) ∧
        (true = false →
          (∀ q ∈ (Node.mk ⟨0, 3⟩ false 1 .null .null (some ⟨0, 5⟩)).points,
              q.compare_y ⟨0, 5⟩ = true) ∧
            (∀ q ∈ Node.null.points, q.compare_y ⟨0, 5⟩ = false)) ∧
        (true = true →
          (∀ q ∈ (Node.mk ⟨0, 3⟩ false 1 .null .null (some ⟨0, 5⟩)).points,
              q.x ≤ (⟨0, 5⟩ : Point).x) ∧
            (∀ q ∈ Node.null.points, (⟨0, 5⟩ : Point).x ≤ q.x)) ∧
        (true = false →
          (∀ q ∈ (Node.mk ⟨0, 3⟩ false 1 .null .null (some ⟨0, 5⟩)).points,
              q.y ≤ (⟨0, 5⟩ : Point).y) ∧
            (∀ q ∈ Node.null.points, (⟨0, 5⟩ : Point).y ≤ q.y)) ∧
        ∀ rect : Rect,
          (PointSet.build [⟨0, 5⟩, ⟨0, 3⟩]).range rect =
              ((PointSet.build [⟨0, 5⟩, ⟨0, 3⟩]).range_calls rect).foldl (range_visit rect)
                PointSet.empty_set ∧
            ∀ c ∈ (PointSet.build [⟨0, 5⟩, ⟨0, 3⟩]).range_calls rect,
              (∀ q ∈ c.1.points, c.2.contains q = true) ∧
                c.2.x_min ≤ c.2.x_max ∧ c.2.y_min ≤ c.2.y_max) :=
  ⟨by decide, Or.inl rfl,
    PointSet.partition_and_range_borders [⟨0, 5⟩, ⟨0, 3⟩] (by decide) _ _ _ _ _ _ (Or.inl rfl)⟩

end kdtree

/-! ## The methods with the double arithmetic as a parameter -/

namespace kdtree

theorem put_by_eq_put (eq : Point → Point → Bool) (t : Node) (p : Point) :
    ∀ xv : Bool, (∀ c ∈ t.points, (eq p c = true ↔ p = c)) → put_by eq t p xv = put t p xv := by
  induction t with
  | null => intro xv _; rfl
  | mk cp cx cs l r par ihl ihr =>
    intro xv h
    have hcp : eq p cp = p.eq cp := by
      rw [Bool.eq_iff_iff, h cp (by simp [Node.points]), Point.eq_iff]
    have hl : ∀ c ∈ l.points, (eq p c = true ↔ p = c) :=
      fun c hc => h c (by simp [Node.points, hc])
    have hr : ∀ c ∈ r.points, (eq p c = true ↔ p = c) :=
      fun c hc => h c (by simp [Node.points, hc])
    simp only [put_by, put, hcp, ihl _ hl, ihr _ hr]

theorem contains_by_eq_contains (eq : Point → Point → Bool) (t : Node) (q : Point)
    (h : ∀ c ∈ t.points, (eq c q = true ↔ c = q)) : contains_by eq t q = contains t q := by
  induction t with
  | null => rfl
  | mk cp cx cs l r par ihl ihr =>
    have hcp : eq cp q = cp.eq q := by
      rw [Bool.eq_iff_iff, h cp (by simp [Node.points]), Point.eq_iff]
    have hl : ∀ c ∈ l.points, (eq c q = true ↔ c = q) :=
      fun c hc => h c (by simp [Node.points, hc])
    have hr : ∀ c ∈ r.points, (eq c q = true ↔ c = q) :=
      fun c hc => h c (by simp [Node.points, hc])
    simp only [contains_by, contains, hcp, ihl hl, ihr hr]

theorem PointSet.put_by_eq_put_on_set (eq : Point → Point → Bool) (s : PointSet) (p : Point)
    (h : ∀ c ∈ s.m_root.points, (eq p c = true ↔ p = c)) : s.put_by eq p = s.put p := by
  simp only [PointSet.put_by, PointSet.put, kdtree.put_by_eq_put eq _ p true h]

theorem PointSet.build_by_snoc (eq : Point → Point → Bool) (ps : List Point) (p : Point) :
    PointSet.build_by eq (ps ++ [p]) = (PointSet.build_by eq ps).put_by eq p := by
  simp [PointSet.build_by, List.foldl_append]

/-- On a sequence of points among which `operator==` holds only between a point and
itself, the index built is the one built with the equality of the grid. -/
theorem PointSet.build_by_eq_build (eq : Point → Point → Bool) (ps : List Point)
    (h : ∀ a ∈ ps, ∀ b ∈ ps, (eq a b = true ↔ a = b)) :
    PointSet.build_by eq ps = PointSet.build ps := by
  induction ps using List.reverseRecOn with
  | nil => rfl
  | append_singleton ps p ih =>
    have hps : ∀ a ∈ ps, ∀ b ∈ ps, (eq a b = true ↔ a = b) :=
      fun a ha b hb => h a (List.mem_append_left _ ha) b (List.mem_append_left _ hb)
    rw [PointSet.build_by_snoc, PointSet.build_append, ih hps]
    apply PointSet.put_by_eq_put_on_set
    intro c hc
    exact h p (by simp) c (List.mem_append_left _ ((PointSet.mem_points_build ps c).1 hc))

theorem points_range_subset (current : Node) (rect : Rect) :
    ∀ (acc : PointSet) (border : Rect) (q : Point),
      q ∈ (range acc current rect border).m_root.points →
        q ∈ acc.m_root.points ∨ q ∈ current.points := by
  induction current with
  | null => intro acc border q h; exact Or.inl h
  | mk cp cx cs l r par ihl ihr =>
    intro acc border q h
    have hfound : ∀ x : Point,
        x ∈ (if rect.contains cp = true then acc.put cp else acc).m_root.points →
          x ∈ acc.m_root.points ∨ x ∈ (Node.mk cp cx cs l r par).points := by
      intro x hx
      split_ifs at hx
      · rcases (PointSet.mem_points_after_put acc cp x).1 hx with h1 | h1
        · exact Or.inr (by simp [Node.points, h1])
        · exact Or.inl h1
      · exact Or.inl hx
    have hleft : ∀ x : Point,
        x ∈ (if (make_intersection border cp cx true).x_min ≤
                (make_intersection border cp cx true).x_max ∧
              rect.intersects (make_intersection border cp cx true) = true
            then range (if rect.contains cp = true then acc.put cp else acc) l rect
              (make_intersection border cp cx true)
            else (if rect.contains cp = true then acc.put cp else acc)).m_root.points →
          x ∈ acc.m_root.points ∨ x ∈ (Node.mk cp cx cs l r par).points := by
      intro x hx
      by_cases hL : (make_intersection border cp cx true).x_min ≤
          (make_intersection border cp cx true).x_max ∧
          rect.intersects (make_intersection border cp cx true) = true
      · rw [if_pos hL] at hx
        rcases ihl _ _ x hx with h3 | h3
        · exact hfound x h3
        · exact Or.inr (by simp [Node.points, h3])
      · rw [if_neg hL] at hx
        exact hfound x hx
    simp only [range] at h
    by_cases hR : (make_intersection border cp cx false).x_min ≤
        (make_intersection border cp cx false).x_max ∧
        rect.intersects (make_intersection border cp cx false) = true
    · rw [if_pos hR] at h
      rcases ihr _ _ q h with h4 | h4
      · exact hleft q h4
      · exact Or.inr (by simp [Node.points, h4])
    · rw [if_neg hR] at h
      exact hleft q h

end kdtree

namespace kdtree

theorem range_by_eq_range (eq : Point → Point → Bool) (S : List Point)
    (hS : ∀ a ∈ S, ∀ b ∈ S, (eq a b = true ↔ a = b)) (current : Node) (rect : Rect) :
    ∀ (acc : PointSet) (border : Rect), (∀ c ∈ acc.m_root.points, c ∈ S) →
      (∀ c ∈ current.points, c ∈ S) →
      range_by eq acc current rect border = range acc current rect border := by
  induction current with
  | null => intro acc border _ _; rfl
  | mk cp cx cs l r par ihl ihr =>
    intro acc border hacc hcur
    have hcp : cp ∈ S := hcur cp (by simp [Node.points])
    have hl : ∀ c ∈ l.points, c ∈ S := fun c hc => hcur c (by simp [Node.points, hc])
    have hr : ∀ c ∈ r.points, c ∈ S := fun c hc => hcur c (by simp [Node.points, hc])
    have hput : acc.put_by eq cp = acc.put cp :=
      PointSet.put_by_eq_put_on_set eq acc cp (fun c hc => hS cp hcp c (hacc c hc))
    have hfound : ∀ c ∈ (if rect.contains cp = true then acc.put cp else acc).m_root.points,
        c ∈ S := by
      intro c hc
      split_ifs at hc
      · rcases (PointSet.mem_points_after_put acc cp c).1 hc with h1 | h1
        · rw [h1]; exact hcp
        · exact hacc c h1
      · exact hacc c hc
    have hleft : ∀ c ∈ (if (make_intersection border cp cx true).x_min ≤
              (make_intersection border cp cx true).x_max ∧
            rect.intersects (make_intersection border cp cx true) = true
          then range (if rect.contains cp = true then acc.put cp else acc) l rect
            (make_intersection border cp cx true)
          else (if rect.contains cp = true then acc.put cp else acc)).m_root.points,
        c ∈ S := by
      intro c hc
      by_cases hL : (make_intersection border cp cx true).x_min ≤
          (make_intersection border cp cx true).x_max ∧
          rect.intersects (make_intersection border cp cx true) = true
      · rw [if_pos hL] at hc
        rcases points_range_subset l rect _ _ c hc with h1 | h1
        · exact hfound c h1
        · exact hl c h1
      · rw [if_neg hL] at hc
        exact hfound c hc
    simp only [range_by, range, hput]
    rw [ihl _ _ hfound hl, ihr _ _ hleft hr]

/-- C3 as stated fails.  On the grid of the finite doubles, after inserting (1e-320, 1),
(0, 0), (2e-320, 0), which are 2024, 0 and 4048 units of `2^-1074` in x, the index holds
the three points, and `range` on the rectangle `[0,1] x [0,0]` enumerates (0, 0) alone:
(2e-320, 0) is in the index and in the rectangle, and it is equal to (0, 0) by
`operator==`, so `put` leaves it out of the result. -/
theorem PointSet.range_drops_near_equal_point :
    (∀ q ∈ [(⟨2024, Binary64.one⟩ : Point), ⟨0, 0⟩, ⟨4048, 0⟩],
        (-Binary64.DBL_MAX ≤ q.x ∧ q.x ≤ Binary64.DBL_MAX) ∧
          (-Binary64.DBL_MAX ≤ q.y ∧ q.y ≤ Binary64.DBL_MAX)) ∧
      (PointSet.build_by Binary64.eq [⟨2024, Binary64.one⟩, ⟨0, 0⟩, ⟨4048, 0⟩]).m_root.points =
        [⟨0, 0⟩, ⟨2024, Binary64.one⟩, ⟨4048, 0⟩] ∧
      (⟨0, Binary64.one, 0, 0⟩ : Rect).contains ⟨4048, 0⟩ = true ∧
      (PointSet.range_by Binary64.eq Binary64.DBL_MAX
          (PointSet.build_by Binary64.eq [⟨2024, Binary64.one⟩, ⟨0, 0⟩, ⟨4048, 0⟩])
          ⟨0, Binary64.one, 0, 0⟩).enumerate = some [⟨0, 0⟩] ∧
      ¬ ∃ found : List Point,
        (PointSet.range_by Binary64.eq Binary64.DBL_MAX
            (PointSet.build_by Binary64.eq [⟨2024, Binary64.one⟩, ⟨0, 0⟩, ⟨4048, 0⟩])
            ⟨0, Binary64.one, 0, 0⟩).enumerate = some found ∧
          ∀ p : Point, p ∈ found ↔
            (p ∈ [(⟨2024, Binary64.one⟩ : Point), ⟨0, 0⟩, ⟨4048, 0⟩] ∧
              (⟨0, Binary64.one, 0, 0⟩ : Rect).contains p = true) := by
  have henum : (PointSet.range_by Binary64.eq Binary64.DBL_MAX
      (PointSet.build_by Binary64.eq [⟨2024, Binary64.one⟩, ⟨0, 0⟩, ⟨4048, 0⟩])
      ⟨0, Binary64.one, 0, 0⟩).enumerate = some [⟨0, 0⟩] := by decide
  refine ⟨by decide, by decide, by decide, henum, ?_⟩
  rintro ⟨found, h1, h2⟩
  rw [henum] at h1
  rw [← Option.some.inj h1] at h2
  exact absurd ((h2 ⟨4048, 0⟩).2 ⟨by decide, by decide⟩) (by decide)

/-- C3, amended: for the index built by `put` calls from any finite sequence `ps` of points
with finite coordinates, no two distinct of which are equal by `operator==`, and every
rectangle `r`, the iterators returned by `range(r)` enumerate a sequence `found`, and a
point `p` is in `found` if and only if `p` is a point of the index (one of the inserted
points) and `r.contains(p)` holds.  The result of `operator==` is the parameter `eq` and
`std::numeric_limits<double>::max()` the parameter `max`; the bounds of `r` are not
needed. -/
theorem PointSet.range_by_enumerates_contained (eq : Point → Point → Bool) (max : Int)
    (ps : List Point)
    (hfin : ∀ q ∈ ps, (-max ≤ q.x ∧ q.x ≤ max) ∧ (-max ≤ q.y ∧ q.y ≤ max))
    (heq : ∀ a ∈ ps, ∀ b ∈ ps, (eq a b = true ↔ a = b)) (r : Rect) :
    ∃ found : List Point,
      (PointSet.range_by eq max (PointSet.build_by eq ps) r).enumerate = some found ∧
        ∀ p : Point, p ∈ found ↔ (p ∈ ps ∧ r.contains p = true) := by
  have hwf := PointSet.well_formed_build ps
  have hrange : PointSet.range_by eq max (PointSet.build_by eq ps) r =
      kdtree.range PointSet.empty_set (PointSet.build ps).m_root r (PointSet.plane max) := by
    rw [PointSet.build_by_eq_build eq ps heq]
    exact range_by_eq_range eq ps heq _ r _ _
      (fun c hc => absurd hc (by simp [PointSet.empty_set, Node.points]))
      (fun c hc => (PointSet.mem_points_build ps c).1 hc)
  rw [hrange]
  refine ⟨_, PointSet.enumerate_eq _ (well_formed_range _ _ _ _ PointSet.well_formed_empty), ?_⟩
  intro p
  rw [mem_points_range _ _ _ _ hwf.2.1
    (fun q hq => (Rect.contains_iff _ q).2 (hfin q ((PointSet.mem_points_build ps q).1 hq)))]
  simp [PointSet.empty_set, Node.points, PointSet.mem_points_build]

end kdtree

namespace kdtree

set_option maxRecDepth 100000 in
/-- Witness of the amended C3 on the grid of the finite doubles: the four points of the
scenario, (2,3), (4,2), (4,5), (5,3), as multiples of the double `1.0`, with the
`operator==` of that grid, and the rectangle `[3,5] x [0,4]`. -/
theorem PointSet.range_by_enumerates_contained_witness :
    (∀ q ∈ [(⟨2 * Binary64.one, 3 * Binary64.one⟩ : Point),
          ⟨4 * Binary64.one, 2 * Binary64.one⟩, ⟨4 * Binary64.one, 5 * Binary64.one⟩,
          ⟨5 * Binary64.one, 3 * Binary64.one⟩],
        (-Binary64.DBL_MAX ≤ q.x ∧ q.x ≤ Binary64.DBL_MAX) ∧
          (-Binary64.DBL_MAX ≤ q.y ∧ q.y ≤ Binary64.DBL_MAX)) ∧
      (∀ a ∈ [(⟨2 * Binary64.one, 3 * Binary64.one⟩ : Point),
          ⟨4 * Binary64.one, 2 * Binary64.one⟩, ⟨4 * Binary64.one, 5 * Binary64.one⟩,
          ⟨5 * Binary64.one, 3 * Binary64.one⟩],
        ∀ b ∈ [(⟨2 * Binary64.one, 3 * Binary64.one⟩ : Point),
          ⟨4 * Binary64.one, 2 * Binary64.one⟩, ⟨4 * Binary64.one, 5 * Binary64.one⟩,
          ⟨5 * Binary64.one, 3 * Binary64.one⟩],
          (Binary64.eq a b = true ↔ a = b)) ∧
      ∃ found : List Point,
        (PointSet.range_by Binary64.eq Binary64.DBL_MAX
            (PointSet.build_by Binary64.eq
              [⟨2 * Binary64.one, 3 * Binary64.one⟩, ⟨4 * Binary64.one, 2 * Binary64.one⟩,
                ⟨4 * Binary64.one, 5 * Binary64.one⟩, ⟨5 * Binary64.one, 3 * Binary64.one⟩])
            ⟨3 * Binary64.one, 5 * Binary64.one, 0, 4 * Binary64.one⟩).enumerate =
            some found ∧
          ∀ p : Point, p ∈ found ↔
            (p ∈ [(⟨2 * Binary64.one, 3 * Binary64.one⟩ : Point),
                ⟨4 * Binary64.one, 2 * Binary64.one⟩, ⟨4 * Binary64.one, 5 * Binary64.one⟩,
                ⟨5 * Binary64.one, 3 * Binary64.one⟩] ∧
              (⟨3 * Binary64.one, 5 * Binary64.one, 0, 4 * Binary64.one⟩ : Rect).contains p =
                true) :=
  ⟨by decide, by decide,
    PointSet.range_by_enumerates_contained Binary64.eq Binary64.DBL_MAX _ (by decide)
      (by decide) _⟩

end kdtree

/-! ## The 2d-tree against the ordered-set baseline: membership and size (C9) -/

set_option maxRecDepth 100000 in
/-- C9 as stated fails.  On the grid of the finite doubles, after inserting (0, 0) and
(5e-324, 0), one unit of `2^-1074` apart, the 2d-tree has size 1 and the ordered set size
2, and for (1e-323, 0), two units from (0, 0), which was not inserted, `contains` is true
on the 2d-tree and false on the ordered set: the 2d-tree takes for duplicates the points
that are equal by `operator==`, the ordered set those that `operator<` does not
separate. -/
theorem kdtree_rbtree_differ_on_near_equal_points :
    (kdtree.PointSet.build_by Binary64.eq [⟨0, 0⟩, ⟨1, 0⟩]).size = 1 ∧
      (rbtree.PointSet.build [⟨0, 0⟩, ⟨1, 0⟩]).size = 2 ∧
      (kdtree.PointSet.build_by Binary64.eq [⟨0, 0⟩, ⟨1, 0⟩]).contains_by Binary64.eq ⟨2, 0⟩ =
        true ∧
      (rbtree.PointSet.build [⟨0, 0⟩, ⟨1, 0⟩]).contains ⟨2, 0⟩ = false ∧
      ¬ ((kdtree.PointSet.build_by Binary64.eq [⟨0, 0⟩, ⟨1, 0⟩]).contains_by Binary64.eq
              ⟨2, 0⟩ =
            (rbtree.PointSet.build [⟨0, 0⟩, ⟨1, 0⟩]).contains ⟨2, 0⟩ ∧
          (kdtree.PointSet.build_by Binary64.eq [⟨0, 0⟩, ⟨1, 0⟩]).size =
            (rbtree.PointSet.build [⟨0, 0⟩, ⟨1, 0⟩]).size) := by
  decide

/-- C9, amended: for every finite sequence `ps` of points inserted in order into an empty
`kdtree::PointSet` and into an empty `rbtree::PointSet`, and every point `q`, such that
no two distinct points among `q` and the inserted points are equal by `operator==`, the
two `contains(q)` agree and are true exactly when `q` is one of the inserted points, and
the two `size()` agree and are the number of distinct inserted points.  The result of
`operator==` is the parameter `eq`. -/
theorem kdtree_rbtree_agree_on_separated_points (eq : Point → Point → Bool) (ps : List Point)
    (q : Point) (heq : ∀ a ∈ q :: ps, ∀ b ∈ q :: ps, (eq a b = true ↔ a = b)) :
    (kdtree.PointSet.build_by eq ps).contains_by eq q = (rbtree.PointSet.build ps).contains q ∧
      ((kdtree.PointSet.build_by eq ps).contains_by eq q = true ↔ q ∈ ps) ∧
      (kdtree.PointSet.build_by eq ps).size = (rbtree.PointSet.build ps).size ∧
      (rbtree.PointSet.build ps).size = ps.toFinset.card := by
  have hps : ∀ a ∈ ps, ∀ b ∈ ps, (eq a b = true ↔ a = b) :=
    fun a ha b hb => heq a (List.mem_cons_of_mem _ ha) b (List.mem_cons_of_mem _ hb)
  have hbuild := kdtree.PointSet.build_by_eq_build eq ps hps
  have hcont : (kdtree.PointSet.build_by eq ps).contains_by eq q =
      (kdtree.PointSet.build ps).contains q := by
    rw [hbuild]
    exact kdtree.contains_by_eq_contains eq _ q (fun c hc =>
      heq c (List.mem_cons_of_mem _ ((kdtree.PointSet.mem_points_build ps c).1 hc)) q
        (List.mem_cons_self _ _))
  rw [hcont, hbuild]
  have hkd := kdtree.PointSet.contains_build ps q
  have hrb : (rbtree.PointSet.build ps).contains q = true ↔ q ∈ ps := by
    rw [rbtree.PointSet.contains_iff_mem_set, rbtree.PointSet.mem_build]
  have hwf := kdtree.PointSet.well_formed_build ps
  have hcard_kd : (kdtree.PointSet.build ps).m_root.points.length = ps.toFinset.card := by
    rw [← List.toFinset_card_of_nodup (kdtree.PointSet.nodup_points _ hwf)]
    congr 1
    ext a
    simp [kdtree.PointSet.mem_points_build]
  have hcard_rb : (rbtree.PointSet.build ps).m_set.length = ps.toFinset.card := by
    rw [← List.toFinset_card_of_nodup (rbtree.nodup_of_sorted _ (rbtree.PointSet.sorted_build ps))]
    congr 1
    ext a
    simp [rbtree.PointSet.mem_build]
  refine ⟨?_, hkd, ?_, hcard_rb⟩
  · rw [Bool.eq_iff_iff, hkd, hrb]
  · rw [kdtree.PointSet.size_eq_length_points _ hwf, hcard_kd]
    exact hcard_rb.symm

set_option maxRecDepth 100000 in
/-- Witness of the amended C9 on the grid of the finite doubles: the points (0,0), (1,0),
(0,0) again and (0,1), as multiples of the double `1.0`, and the query point (1,0). -/
theorem kdtree_rbtree_agree_on_separated_points_witness :
    (∀ a ∈ (⟨Binary64.one, 0⟩ : Point) ::
          [⟨0, 0⟩, ⟨Binary64.one, 0⟩, ⟨0, 0⟩, ⟨0, Binary64.one⟩],
        ∀ b ∈ (⟨Binary64.one, 0⟩ : Point) ::
          [⟨0, 0⟩, ⟨Binary64.one, 0⟩, ⟨0, 0⟩, ⟨0, Binary64.one⟩],
          (Binary64.eq a b = true ↔ a = b)) ∧
      ((kdtree.PointSet.build_by Binary64.eq
              [⟨0, 0⟩, ⟨Binary64.one, 0⟩, ⟨0, 0⟩, ⟨0, Binary64.one⟩]).contains_by Binary64.eq
            ⟨Binary64.one, 0⟩ =
          (rbtree.PointSet.build
            [⟨0, 0⟩, ⟨Binary64.one, 0⟩, ⟨0, 0⟩, ⟨0, Binary64.one⟩]).contains
            ⟨Binary64.one, 0⟩ ∧
        ((kdtree.PointSet.build_by Binary64.eq
              [⟨0, 0⟩, ⟨Binary64.one, 0⟩, ⟨0, 0⟩, ⟨0, Binary64.one⟩]).contains_by Binary64.eq
            ⟨Binary64.one, 0⟩ = true ↔
          (⟨Binary64.one, 0⟩ : Point) ∈
            [(⟨0, 0⟩ : Point), ⟨Binary64.one, 0⟩, ⟨0, 0⟩, ⟨0, Binary64.one⟩]) ∧
        (kdtree.PointSet.build_by Binary64.eq
            [⟨0, 0⟩, ⟨Binary64.one, 0⟩, ⟨0, 0⟩, ⟨0, Binary64.one⟩]).size =
          (rbtree.PointSet.build
            [⟨0, 0⟩, ⟨Binary64.one, 0⟩, ⟨0, 0⟩, ⟨0, Binary64.one⟩]).size ∧
        (rbtree.PointSet.build
            [⟨0, 0⟩, ⟨Binary64.one, 0⟩, ⟨0, 0⟩, ⟨0, Binary64.one⟩]).size =
          ([(⟨0, 0⟩ : Point), ⟨Binary64.one, 0⟩, ⟨0, 0⟩, ⟨0, Binary64.one⟩]).toFinset.card) :=
  ⟨by decide, kdtree_rbtree_agree_on_separated_points Binary64.eq _ _ (by decide)⟩

/-! ## The k nearest points with the distances as the code computes them (C6, C10) -/

namespace kdtree

theorem PointSet.foldl_put_by_eq_build_by (eq : Point → Point → Bool) (m : DistMap) :
    m.foldl (fun result elem => PointSet.put_by eq result elem.2) PointSet.empty_set =
      PointSet.build_by eq (m.map Prod.snd) := by
  unfold PointSet.build_by
  rw [List.foldl_map]

theorem PointSet.nearest_k_by_eq (eq : Point → Point → Bool) (key : Point → Int)
    (s : PointSet) (h : s.well_formed) (k : Nat) :
    s.nearest_k_by eq key k =
      some (PointSet.build_by eq
        ((s.m_root.points.foldl (DistMap.step_by key k) []).map Prod.snd)) := by
  unfold PointSet.nearest_k_by
  rw [PointSet.fold_eq s h]
  simp only [PointSet.foldl_put_by_eq_build_by]

end kdtree

/-- C10, amended: for every finite sequence `ps` inserted in order into an empty
`kdtree::PointSet` and into an empty `rbtree::PointSet`, no two distinct points of which
are equal by `operator==`, every query point `q` for which the doubles that
`q.distance(...)` returns on the inserted points are pairwise distinct, and every `k`,
`nearest(q, k)` of the 2d-tree returns and its iterators enumerate a sequence with the
same points as the set returned by `nearest(q, k)` of the ordered set.  The result of
`operator==` is the parameter `eq`, the result of `distance` the parameter `dist`. -/
theorem kdtree_rbtree_nearest_k_by_agree (eq : Point → Point → Bool)
    (dist : Point → Point → Int) (ps : List Point) (q : Point) (k : Nat)
    (heq : ∀ a ∈ ps, ∀ b ∈ ps, (eq a b = true ↔ a = b))
    (hdist : ∀ a ∈ ps, ∀ b ∈ ps, dist q a = dist q b → a = b) :
    ∃ (res : kdtree.PointSet) (found : List Point),
      (kdtree.PointSet.build_by eq ps).nearest_k_by eq (dist q) k = some res ∧
        res.enumerate = some found ∧
        ∀ p : Point, p ∈ found ↔ p ∈ (rbtree.PointSet.build ps).nearest_k_by (dist q) k := by
  have hwf := kdtree.PointSet.well_formed_build ps
  have hndk := kdtree.PointSet.nodup_points _ hwf
  have hndr := rbtree.nodup_of_sorted _ (rbtree.PointSet.sorted_build ps)
  have hmem : ∀ a : Point, a ∈ (kdtree.PointSet.build ps).m_root.points ↔
      a ∈ (rbtree.PointSet.build ps).m_set := by
    intro a
    rw [kdtree.PointSet.mem_points_build, rbtree.PointSet.mem_build]
  have hlen : (kdtree.PointSet.build ps).m_root.points.length =
      (rbtree.PointSet.build ps).m_set.length :=
    ((List.perm_ext_iff_of_nodup hndk hndr).2 hmem).length_eq
  have hsel1 := DistMap.selects_by_foldl (dist q) k (kdtree.PointSet.build ps).m_root.points
    [] [] (DistMap.selects_by_nil (dist q) k) (by
      rw [List.nil_append]
      refine List.Nodup.map_on ?_ hndk
      intro a ha b hb e
      exact hdist a ((kdtree.PointSet.mem_points_build ps a).1 ha) b
        ((kdtree.PointSet.mem_points_build ps b).1 hb) e)
  have hsel2 := DistMap.selects_by_foldl (dist q) k (rbtree.PointSet.build ps).m_set [] []
    (DistMap.selects_by_nil (dist q) k) (by
      rw [List.nil_append]
      refine List.Nodup.map_on ?_ hndr
      intro a ha b hb e
      exact hdist a ((rbtree.PointSet.mem_build ps a).1 ha) b
        ((rbtree.PointSet.mem_build ps b).1 hb) e)
  rw [List.nil_append] at hsel1 hsel2
  -- the points selected on the 2d-tree are inserted points, on which `eq` is the equality
  have hsub : ∀ a ∈ ((kdtree.PointSet.build ps).m_root.points.foldl
      (DistMap.step_by (dist q) k) []).map Prod.snd, a ∈ ps := by
    intro a ha
    obtain ⟨e, he, rfl⟩ := List.mem_map.1 ha
    exact (kdtree.PointSet.mem_points_build ps _).1 (hsel1.2.1 e he).2
  have hres : kdtree.PointSet.build_by eq
      (((kdtree.PointSet.build ps).m_root.points.foldl
        (DistMap.step_by (dist q) k) []).map Prod.snd) =
      kdtree.PointSet.build
        (((kdtree.PointSet.build ps).m_root.points.foldl
          (DistMap.step_by (dist q) k) []).map Prod.snd) :=
    kdtree.PointSet.build_by_eq_build eq _
      (fun a ha b hb => heq a (hsub a ha) b (hsub b hb))
  rw [kdtree.PointSet.build_by_eq_build eq ps heq]
  refine ⟨_, (kdtree.PointSet.build
      (((kdtree.PointSet.build ps).m_root.points.foldl
        (DistMap.step_by (dist q) k) []).map Prod.snd)).m_root.points,
    kdtree.PointSet.nearest_k_by_eq eq (dist q) _ hwf k, ?_, ?_⟩
  · rw [hres]
    exact kdtree.PointSet.enumerate_eq _ (kdtree.PointSet.well_formed_build _)
  · intro p
    rw [kdtree.PointSet.mem_points_build]
    unfold rbtree.PointSet.nearest_k_by
    rw [rbtree.mem_foldl_set_insert]
    simp only [List.not_mem_nil, false_or]
    exact ⟨DistMap.selects_by_subset (dist q) k _ _ _ _ hsel1 hsel2 hmem hlen p,
      DistMap.selects_by_subset (dist q) k _ _ _ _ hsel2 hsel1 (fun a => (hmem a).symm)
        hlen.symm p⟩

set_option maxRecDepth 100000 in
/-- Witness of the amended C10 on the grid of the finite doubles: the four points of the
scenario as multiples of the double `1.0`, with the `operator==` of that grid, the query
point (0,0), `k = 2`, and for the distances the squared distances, which order the four
points as their distances do. -/
theorem kdtree_rbtree_nearest_k_by_agree_witness :
    (∀ a ∈ [(⟨2 * Binary64.one, 3 * Binary64.one⟩ : Point),
          ⟨4 * Binary64.one, 2 * Binary64.one⟩, ⟨4 * Binary64.one, 5 * Binary64.one⟩,
          ⟨5 * Binary64.one, 3 * Binary64.one⟩],
        ∀ b ∈ [(⟨2 * Binary64.one, 3 * Binary64.one⟩ : Point),
          ⟨4 * Binary64.one, 2 * Binary64.one⟩, ⟨4 * Binary64.one, 5 * Binary64.one⟩,
          ⟨5 * Binary64.one, 3 * Binary64.one⟩],
          (Binary64.eq a b = true ↔ a = b)) ∧
      (∀ a ∈ [(⟨2 * Binary64.one, 3 * Binary64.one⟩ : Point),
          ⟨4 * Binary64.one, 2 * Binary64.one⟩, ⟨4 * Binary64.one, 5 * Binary64.one⟩,
          ⟨5 * Binary64.one, 3 * Binary64.one⟩],
        ∀ b ∈ [(⟨2 * Binary64.one, 3 * Binary64.one⟩ : Point),
          ⟨4 * Binary64.one, 2 * Binary64.one⟩, ⟨4 * Binary64.one, 5 * Binary64.one⟩,
          ⟨5 * Binary64.one, 3 * Binary64.one⟩],
          Point.distanceSq ⟨0, 0⟩ a = Point.distanceSq ⟨0, 0⟩ b → a = b) ∧
      ∃ (res : kdtree.PointSet) (found : List Point),
        (kdtree.PointSet.build_by Binary64.eq
            [⟨2 * Binary64.one, 3 * Binary64.one⟩, ⟨4 * Binary64.one, 2 * Binary64.one⟩,
              ⟨4 * Binary64.one, 5 * Binary64.one⟩,
              ⟨5 * Binary64.one, 3 * Binary64.one⟩]).nearest_k_by Binary64.eq
            (Point.distanceSq ⟨0, 0⟩) 2 = some res ∧
          res.enumerate = some found ∧
          ∀ p : Point, p ∈ found ↔
            p ∈ (rbtree.PointSet.build
              [⟨2 * Binary64.one, 3 * Binary64.one⟩, ⟨4 * Binary64.one, 2 * Binary64.one⟩,
                ⟨4 * Binary64.one, 5 * Binary64.one⟩,
                ⟨5 * Binary64.one, 3 * Binary64.one⟩]).nearest_k_by
              (Point.distanceSq ⟨0, 0⟩) 2 :=
  ⟨by decide, by decide,
    kdtree_rbtree_nearest_k_by_agree Binary64.eq Point.distanceSq _ ⟨0, 0⟩ 2 (by decide)
      (by decide)⟩

namespace kdtree

set_option maxRecDepth 100000 in
/-- C6, the code at a failing input: the index built from (2^26, 1), (2^26, 0), (2^26 + 5, 0),
the query point (0,0) and `k = 2`.  The three true distances are distinct, the squares
being `2^52 + 1`, `2^52` and `(2^26 + 5)^2`; the doubles that `distance` returns for the
first two are both `2^26`, the square root of `2^52 + 1` being rounded, and the third is
larger.  Whenever `distance` returns such doubles, and `operator==` separates the three
points, the iterators of `nearest((0,0), 2)` enumerate (2^26, 0) and (2^26 + 5, 0): the
point (2^26, 1), second nearest, meets the key of (2^26, 0) in the map and is dropped. -/
theorem PointSet.nearest_k_by_drops_rounded_tie (eq : Point → Point → Bool)
    (dist : Point → Point → Int)
    (heq : ∀ a ∈ [(⟨67108864, 1⟩ : Point), ⟨67108864, 0⟩, ⟨67108869, 0⟩],
      ∀ b ∈ [(⟨67108864, 1⟩ : Point), ⟨67108864, 0⟩, ⟨67108869, 0⟩],
        (eq a b = true ↔ a = b))
    (htie : dist ⟨0, 0⟩ ⟨67108864, 1⟩ = dist ⟨0, 0⟩ ⟨67108864, 0⟩)
    (hfar : dist ⟨0, 0⟩ ⟨67108864, 0⟩ < dist ⟨0, 0⟩ ⟨67108869, 0⟩) :
    ((PointSet.build_by eq [⟨67108864, 1⟩, ⟨67108864, 0⟩, ⟨67108869, 0⟩]).nearest_k_by eq
          (dist ⟨0, 0⟩) 2).bind PointSet.enumerate =
        some [⟨67108864, 0⟩, ⟨67108869, 0⟩] ∧
      Point.distanceSq ⟨0, 0⟩ ⟨67108864, 0⟩ < Point.distanceSq ⟨0, 0⟩ ⟨67108864, 1⟩ ∧
      Point.distanceSq ⟨0, 0⟩ ⟨67108864, 1⟩ < Point.distanceSq ⟨0, 0⟩ ⟨67108869, 0⟩ := by
  refine ⟨?_, by decide, by decide⟩
  have hpts : (PointSet.build [⟨67108864, 1⟩, ⟨67108864, 0⟩, ⟨67108869, 0⟩]).m_root.points =
      [⟨67108864, 0⟩, ⟨67108864, 1⟩, ⟨67108869, 0⟩] := by decide
  have hfold : ([(⟨67108864, 0⟩ : Point), ⟨67108864, 1⟩, ⟨67108869, 0⟩]).foldl
      (DistMap.step_by (dist ⟨0, 0⟩) 2) [] =
      [(dist ⟨0, 0⟩ ⟨67108869, 0⟩, ⟨67108869, 0⟩), (dist ⟨0, 0⟩ ⟨67108864, 0⟩, ⟨67108864, 0⟩)] := by
    simp [DistMap.step_by, DistMap.insert, DistMap.erase_begin, htie, hfar]
  have hsel : ∀ a ∈ [(⟨67108869, 0⟩ : Point), ⟨67108864, 0⟩],
      ∀ b ∈ [(⟨67108869, 0⟩ : Point), ⟨67108864, 0⟩], (eq a b = true ↔ a = b) := by
    have hsub : ∀ c ∈ [(⟨67108869, 0⟩ : Point), ⟨67108864, 0⟩],
        c ∈ [(⟨67108864, 1⟩ : Point), ⟨67108864, 0⟩, ⟨67108869, 0⟩] := by
      intro c hc
      rcases List.mem_cons.1 hc with h | h
      · rw [h]
        exact List.mem_cons_of_mem _ (List.mem_cons_of_mem _ (List.mem_cons_self _ _))
      · rcases List.mem_cons.1 h with h | h
        · rw [h]
          exact List.mem_cons_of_mem _ (List.mem_cons_self _ _)
        · exact absurd h (List.not_mem_nil _)
    intro a ha b hb
    exact heq a (hsub a ha) b (hsub b hb)
  rw [PointSet.build_by_eq_build eq _ heq,
    PointSet.nearest_k_by_eq eq _ _ (PointSet.well_formed_build _) 2, hpts, hfold]
  simp only [List.map_cons, List.map_nil, Option.some_bind]
  rw [PointSet.build_by_eq_build eq _ hsel]
  decide

set_option maxRecDepth 100000 in
/-- Witness of the evaluation for C6: the equality of the integer grid, on which the three
points lie, and the doubles that `distance` returns from (0,0) for the three points:
`2^26`, `2^26` and `2^26 + 5`. -/
theorem PointSet.nearest_k_by_drops_rounded_tie_witness :
    (∀ a ∈ [(⟨67108864, 1⟩ : Point), ⟨67108864, 0⟩, ⟨67108869, 0⟩],
        ∀ b ∈ [(⟨67108864, 1⟩ : Point), ⟨67108864, 0⟩, ⟨67108869, 0⟩],
          (Point.eq a b = true ↔ a = b)) ∧
      (fun (_ c : Point) => if c.x = 67108869 then (67108869 : Int) else 67108864)
          ⟨0, 0⟩ ⟨67108864, 1⟩ =
        (fun (_ c : Point) => if c.x = 67108869 then (67108869 : Int) else 67108864)
          ⟨0, 0⟩ ⟨67108864, 0⟩ ∧
      (fun (_ c : Point) => if c.x = 67108869 then (67108869 : Int) else 67108864)
          ⟨0, 0⟩ ⟨67108864, 0⟩ <
        (fun (_ c : Point) => if c.x = 67108869 then (67108869 : Int) else 67108864)
          ⟨0, 0⟩ ⟨67108869, 0⟩ ∧
      (((PointSet.build_by Point.eq
              [⟨67108864, 1⟩, ⟨67108864, 0⟩, ⟨67108869, 0⟩]).nearest_k_by Point.eq
            ((fun (_ c : Point) => if c.x = 67108869 then (67108869 : Int) else 67108864)
              ⟨0, 0⟩) 2).bind PointSet.enumerate =
          some [⟨67108864, 0⟩, ⟨67108869, 0⟩] ∧
        Point.distanceSq ⟨0, 0⟩ ⟨67108864, 0⟩ < Point.distanceSq ⟨0, 0⟩ ⟨67108864, 1⟩ ∧
        Point.distanceSq ⟨0, 0⟩ ⟨67108864, 1⟩ < Point.distanceSq ⟨0, 0⟩ ⟨67108869, 0⟩) :=
  ⟨by decide, by decide, by decide,
    PointSet.nearest_k_by_drops_rounded_tie Point.eq
      (fun (_ c : Point) => if c.x = 67108869 then (67108869 : Int) else 67108864)
      (by decide) (by decide) (by decide)⟩

end kdtree

namespace kdtree

/-- What `nearest(q, k)` selects when the map of distances meets no key twice: for the index
built by `put` calls from a finite sequence `ps`, no two distinct points of which are equal
by `operator==`, and `k = 0` or the doubles that `q.distance(...)` returns on the inserted
points pairwise distinct, the iterators of the result enumerate, without repetition,
`min(k, size())` inserted points, each with a smaller distance than every inserted point
left out.  For `k = 0` the result is empty. -/
theorem PointSet.nearest_k_by_selects_closest (eq : Point → Point → Bool)
    (dist : Point → Point → Int) (ps : List Point) (q : Point) (k : Nat)
    (heq : ∀ a ∈ ps, ∀ b ∈ ps, (eq a b = true ↔ a = b))
    (h : k = 0 ∨ ∀ a ∈ ps, ∀ b ∈ ps, dist q a = dist q b → a = b) :
    ∃ (res : PointSet) (found : List Point),
      (PointSet.build_by eq ps).nearest_k_by eq (dist q) k = some res ∧
        res.enumerate = some found ∧
        found.Nodup ∧ found.length = min k (PointSet.build_by eq ps).size ∧
        (∀ p ∈ found, p ∈ ps) ∧
        (∀ a ∈ found, ∀ b ∈ ps, b ∉ found → dist q a < dist q b) ∧
        (k = 0 → found = []) := by
  have hwf := PointSet.well_formed_build ps
  rw [PointSet.build_by_eq_build eq ps heq]
  rcases h with hk | hdist
  · subst hk
    refine ⟨_, [], PointSet.nearest_k_by_eq eq (dist q) _ hwf 0, ?_, ?_⟩
    · rw [DistMap.foldl_step_by_zero]
      rfl
    · simp
  · have hnd : (([] ++ (PointSet.build ps).m_root.points).map (dist q)).Nodup := by
      rw [List.nil_append]
      refine List.Nodup.map_on ?_ (PointSet.nodup_points _ hwf)
      intro a ha b hb e
      exact hdist a ((PointSet.mem_points_build ps a).1 ha) b
        ((PointSet.mem_points_build ps b).1 hb) e
    have hsel := DistMap.selects_by_foldl (dist q) k _ [] [] (DistMap.selects_by_nil (dist q) k)
      hnd
    rw [List.nil_append] at hsel
    have hndm := DistMap.nodup_points_of_selects_by _ _ _ _ hsel
    obtain ⟨_, hkey, hlen, _, hbest⟩ := hsel
    have hsub : ∀ a ∈ ((PointSet.build ps).m_root.points.foldl
        (DistMap.step_by (dist q) k) []).map Prod.snd, a ∈ ps := by
      intro a ha
      obtain ⟨e, he, rfl⟩ := List.mem_map.1 ha
      exact (PointSet.mem_points_build ps _).1 (hkey e he).2
    have hres : PointSet.build_by eq
        (((PointSet.build ps).m_root.points.foldl
          (DistMap.step_by (dist q) k) []).map Prod.snd) =
        PointSet.build
          (((PointSet.build ps).m_root.points.foldl
            (DistMap.step_by (dist q) k) []).map Prod.snd) :=
      PointSet.build_by_eq_build eq _ (fun a ha b hb => heq a (hsub a ha) b (hsub b hb))
    have hperm := PointSet.points_build_perm _ hndm
    have hmem : ∀ a : Point,
        a ∈ (PointSet.build (((PointSet.build ps).m_root.points.foldl
          (DistMap.step_by (dist q) k) []).map Prod.snd)).m_root.points ↔
        a ∈ ((PointSet.build ps).m_root.points.foldl
          (DistMap.step_by (dist q) k) []).map Prod.snd :=
      fun a => PointSet.mem_points_build _ a
    refine ⟨_, (PointSet.build (((PointSet.build ps).m_root.points.foldl
        (DistMap.step_by (dist q) k) []).map Prod.snd)).m_root.points,
      PointSet.nearest_k_by_eq eq (dist q) _ hwf k, ?_,
      PointSet.nodup_points _ (PointSet.well_formed_build _), ?_, ?_, ?_, ?_⟩
    · rw [hres]
      exact PointSet.enumerate_eq _ (PointSet.well_formed_build _)
    · rw [hperm.length_eq, List.length_map, hlen, PointSet.size_eq_length_points _ hwf]
    · intro p hp
      exact hsub p ((hmem p).1 hp)
    · intro a ha b hb hnb
      obtain ⟨e, he, rfl⟩ := List.mem_map.1 ((hmem a).1 ha)
      exact hbest e he b ((PointSet.mem_points_build ps b).2 hb)
        (fun hbm => hnb ((hmem b).2 hbm))
    · intro hk
      have h0 : (PointSet.build (((PointSet.build ps).m_root.points.foldl
          (DistMap.step_by (dist q) k) []).map Prod.snd)).m_root.points.length = 0 := by
        rw [hperm.length_eq, List.length_map, hlen, hk]
        simp
      exact List.length_eq_zero.1 h0

end kdtree
